import Mathlib

/-!
# Incomplete Cholesky (zero fill) factor and its transposed triangular solve

A shallow embedding of `sparseilu.h` (`SparseLowerFactor`, `factor_incomplete_cholesky0`,
`solve_lower_transpose_in_place`) together with the properties proved about it.  The forward
solve, which the header does not contain, is modelled from its description
(`solve_lower_in_place`).

Conventions of the embedding.

* `std::vector<X>` is a `List X`.  Every indexed read or write is checked: an access outside
  `[0, size)` is undefined behaviour in C++ and yields `none` here.
* `unsigned int` values are natural numbers, and where the code computes modulo `2^32` so does
  the embedding: the `--i` at the head of the `do`/`while` loop of the solve, which wraps from
  `0` to `4294967295` (`udec`); the sum `n+1` of the constructor and of `resize`; the cast
  `(unsigned int)colindex.size()` of the copy.  The loop counters, which run up to a size, stay
  in range when the sizes of the matrix fit `unsigned int` (`SparseMatrix.Fits`), which the
  theorems about the factorization of an arbitrary matrix assume.
* The scalar type `T` of the templates is a parameter with the operations the code uses
  (`0`, `1`, `*`, `-`, `/`, `<`, `==`).  `std::sqrt` is a parameter too, so the definitions
  stay executable.  The theorems about exact arithmetic take `T` an ordered field, with
  `Real.sqrt` on the reals; `Ieee K` adds the infinities and NaN of `float`/`double` to the
  numbers of `K`, without rounding.
* The in/out parameters (`factor`, `x`) are passed in and returned.
-/

namespace SparseILU

/-! ## Vectors -/

/-- Checked write `xs[i] = v`: `none` when `i` is out of range. -/
def vset {α : Type} (xs : List α) (i : Nat) (v : α) : Option (List α) :=
  if i < xs.length then some (xs.set i v) else none

/-- The `std::vector::resize(n)` of the standard library: keeps the first `n` elements and pads
with value-initialised elements `fill` up to length `n`. -/
def vresize {α : Type} (xs : List α) (n : Nat) (fill : α) : List α :=
  xs.take n ++ List.replicate (n - xs.length) fill

/-- The loop `for (i = lo; count-- > 0; ++i) s = body(i, s)`, that is
`for (i = lo; i < lo + count; ++i)`, stopping at the first undefined access. -/
def forLoop {σ : Type} (body : Nat → σ → Option σ) : Nat → Nat → σ → Option σ
  | 0, _, s => some s
  | c + 1, i, s => (body i s).bind (forLoop body c (i + 1))

/-! ## Data model -/

/-- Modelled from the spec: `SparseMatrix<T>` is declared in `sparsematrix.h`, which is not part
of the sources at hand.  The factorization reads its dimension `n` and, per row `i`, the column
indices `index[i]` and the values `value[i]` (two parallel tables). -/
structure SparseMatrix (T : Type) where
  n : Nat
  index : List (List Nat)
  value : List (List T)

/-- The `SparseLowerFactor<T>` of the source: the strictly lower part in compressed rows and the
reciprocals of the diagonal. -/
structure SparseLowerFactor (T : Type) where
  n : Nat
  invdiag : List T
  value : List T
  colindex : List Nat
  rowstart : List Nat

namespace SparseLowerFactor

variable {T : Type}

/-- The constructor `SparseLowerFactor(n_)`: `invdiag(n_)`, `rowstart(n_+1)`, the other two
vectors default-constructed.  The sum `n_+1` is computed in `unsigned int`: for
`n_ = 4294967295` it is `0` and `rowstart` is empty. -/
def init [Zero T] (n_ : Nat) : SparseLowerFactor T :=
  { n := n_, invdiag := List.replicate n_ 0, value := [], colindex := [],
    rowstart := List.replicate ((n_ + 1) % 4294967296) 0 }

/-- The member `clear()`. -/
def clear (_f : SparseLowerFactor T) : SparseLowerFactor T :=
  { n := 0, invdiag := [], value := [], colindex := [], rowstart := [] }

/-- The member `resize(n_)`: sets `n` and resizes `invdiag` to `n` and `rowstart` to `n+1`; it
does not touch `value` and `colindex`.  The sum `n+1` is computed in `unsigned int`: for
`n_ = 4294967295` it is `0` and `rowstart` is emptied. -/
def resize [Zero T] (f : SparseLowerFactor T) (n_ : Nat) : SparseLowerFactor T :=
  { f with
    n := n_, invdiag := vresize f.invdiag n_ 0,
    rowstart := vresize f.rowstart ((n_ + 1) % 4294967296) 0 }

end SparseLowerFactor

/-! ## `factor_incomplete_cholesky0` -/

section Factor

variable {T : Type}

/-- Modelled from the spec: `sqr` comes from a utility header that is not part of the sources at
hand; the factorization subtracts the square `L(i,j)²` from the running diagonal. -/
def sqr [Mul T] (x : T) : T := x * x

/-- The inner loop of the copy (lines 76-84) on row `i`: the first argument is what is left of
`matrix.index[i]` from position `j` on. -/
def copyRow (matrix : SparseMatrix T) (i : Nat) :
    List Nat → Nat → SparseLowerFactor T → Option (SparseLowerFactor T)
  | [], _, f => some f
  | c :: rest, j, f =>
    if c < i then
      (matrix.value[i]?).bind fun row =>
      (row[j]?).bind fun v =>
      copyRow matrix i rest (j + 1)
        { f with colindex := f.colindex ++ [c], value := f.value ++ [v] }
    else if c = i then
      (matrix.value[i]?).bind fun row =>
      (row[j]?).bind fun v =>
      (vset f.invdiag i v).bind fun inv =>
      copyRow matrix i rest (j + 1) { f with invdiag := inv }
    else some f

/-- The body of the copy loop (lines 75-84) for row `i`.  The cast
`(unsigned int)factor.colindex.size()` keeps the size modulo `2^32`. -/
def copyBody (matrix : SparseMatrix T) (i : Nat) (f : SparseLowerFactor T) :
    Option (SparseLowerFactor T) :=
  (vset f.rowstart i (f.colindex.length % 4294967296)).bind fun rs =>
  (matrix.index[i]?).bind fun idx =>
  copyRow matrix i idx 0 { f with rowstart := rs }

/-- Lines 71-87: resize, empty the off-diagonal storage, copy the lower triangle and close
`rowstart`. -/
def copyPhase [Zero T] (matrix : SparseMatrix T) (factor : SparseLowerFactor T) :
    Option (SparseLowerFactor T) :=
  let f0 := factor.resize matrix.n
  let f1 : SparseLowerFactor T :=
    { f0 with value := vresize f0.value 0 0, colindex := vresize f0.colindex 0 0 }
  (forLoop (copyBody matrix) matrix.n 0 f1).bind fun f2 =>
  (vset f2.rowstart matrix.n (f2.colindex.length % 4294967296)).bind fun rs =>
  some { f2 with rowstart := rs }

/-- The merge walk of lines 97-106 for the entry at position `k` with cursors `a` and `b`; only
`value[k]` is written.  `hi` is the checked read of `rowstart[j+1]`, which the loop condition
performs only when `a < k` holds. -/
def mergeLoop [Mul T] [Sub T] (colindex : List Nat) (hi : Option Nat) (k : Nat) (a b : Nat)
    (value : List T) : Option (List T) :=
  if a < k then
    match hi with
    | none => none
    | some e =>
      if b < e then
        match colindex[a]?, colindex[b]? with
        | some ca, some cb =>
          if ca = cb then
            match value[k]?, value[a]?, value[b]? with
            | some vk, some va, some vb =>
              mergeLoop colindex (some e) k (a + 1) (b + 1) (value.set k (vk - va * vb))
            | _, _, _ => none
          else if ca < cb then mergeLoop colindex (some e) k (a + 1) b value
          else mergeLoop colindex (some e) k a (b + 1) value
        | _, _ => none
      else some value
  else some value
termination_by (k - a) + (hi.getD 0 - b)
decreasing_by
  all_goals simp only [Option.getD_some]
  all_goals omega

/-- The body of the loop over the off-diagonal entries of row `i` (lines 94-108); the state is
`value` and the running diagonal `d`. -/
def offdiagEntry [Mul T] [Sub T] (colindex rowstart : List Nat) (invdiag : List T) (i k : Nat)
    (st : List T × T) : Option (List T × T) :=
  (colindex[k]?).bind fun j =>
  (rowstart[i]?).bind fun a =>
  (rowstart[j]?).bind fun b =>
  (mergeLoop colindex (rowstart[j + 1]?) k a b st.1).bind fun value1 =>
  (value1[k]?).bind fun vk =>
  (invdiag[j]?).bind fun idj =>
  (vset value1 k (vk * idj)).bind fun value2 =>
  some (value2, st.2 - sqr (vk * idj))

/-- The body of the numeric loop (lines 90-115) for row `i`; the state is `value`, `invdiag` and
`small_pivot_count`. -/
def factorRow [Zero T] [One T] [Mul T] [Sub T] [Div T] [LT T] [DecidableEq T]
    [∀ a b : T, Decidable (a < b)] (sqrt : T → T) (min_diagonal_ratio : T)
    (colindex rowstart : List Nat) (i : Nat) (st : List T × List T × Nat) :
    Option (List T × List T × Nat) :=
  (st.2.1[i]?).bind fun d =>
  if d = 0 then some st
  else
    (rowstart[i]?).bind fun lo =>
    (rowstart[i + 1]?).bind fun hi =>
    (forLoop (offdiagEntry colindex rowstart st.2.1 i) (hi - lo) lo (st.1, d)).bind fun r =>
    (st.2.1[i]?).bind fun aii =>
    let small : Bool := decide (r.2 < min_diagonal_ratio * aii)
    let d2 := if small then aii else r.2
    (vset st.2.1 i (1 / sqrt d2)).bind fun invdiag1 =>
    some (r.1, invdiag1, if small then st.2.2 + 1 else st.2.2)

/-- Lines 86-116: the numeric factorization of a factor holding the copied pattern. -/
def numericPhase [Zero T] [One T] [Mul T] [Sub T] [Div T] [LT T] [DecidableEq T]
    [∀ a b : T, Decidable (a < b)] (sqrt : T → T) (min_diagonal_ratio : T)
    (f : SparseLowerFactor T) : Option (SparseLowerFactor T × Nat) :=
  (forLoop (factorRow sqrt min_diagonal_ratio f.colindex f.rowstart) f.n 0
    (f.value, f.invdiag, 0)).bind fun r =>
  some ({ f with value := r.1, invdiag := r.2.1 }, r.2.2)

/-- The function `factor_incomplete_cholesky0(matrix, factor, min_diagonal_ratio)`.  It returns
the new contents of `factor` and `small_pivot_count`, the number printed in the warning. -/
def factor_incomplete_cholesky0 [Zero T] [One T] [Mul T] [Sub T] [Div T] [LT T]
    [DecidableEq T] [∀ a b : T, Decidable (a < b)] (sqrt : T → T)
    (matrix : SparseMatrix T) (factor : SparseLowerFactor T) (min_diagonal_ratio : T) :
    Option (SparseLowerFactor T × Nat) :=
  (copyPhase matrix factor).bind fun f =>
  numericPhase sqrt min_diagonal_ratio f

end Factor

/-! ## `solve_lower_transpose_in_place` -/

section Solve

variable {T : Type}

/-- How a call of the solve ends: it returns with the vector holding `x`, or the `assert` stops
the program while the vector holds `x`, or an access outside a vector makes the behaviour
undefined. -/
inductive SolveOutcome (T : Type) where
  | returned (x : List T)
  | assertionFailed (x : List T)
  | undefinedBehaviour

/-- The decrement `--i` of an `unsigned int`: `0` wraps to `2^32 - 1`. -/
def udec (i : Nat) : Nat := if i = 0 then 4294967295 else i - 1

/-- Line 132: `x[colindex[j]] -= value[j] * x[i]`. -/
def solveEntry [Mul T] [Sub T] (factor : SparseLowerFactor T) (i j : Nat) (x : List T) :
    Option (List T) :=
  (factor.colindex[j]?).bind fun c =>
  (factor.value[j]?).bind fun v =>
  (x[i]?).bind fun xi =>
  (x[c]?).bind fun xc =>
  vset x c (xc - v * xi)

/-- Lines 130-133, the body of the loop once `i` has been decremented. -/
def solveRow [Mul T] [Sub T] (factor : SparseLowerFactor T) (i : Nat) (x : List T) :
    Option (List T) :=
  (x[i]?).bind fun xi =>
  (factor.invdiag[i]?).bind fun id =>
  (vset x i (xi * id)).bind fun x1 =>
  (factor.rowstart[i]?).bind fun lo =>
  (factor.rowstart[i + 1]?).bind fun hi =>
  forLoop (solveEntry factor i) (hi - lo) lo x1

/-- The `do { --i; ... } while (i != 0)` loop, entered with the value `i` that the counter has
after the decrement: the body runs for `i`, and when `i != 0` the next pass decrements again. -/
def solveLoop [Mul T] [Sub T] (factor : SparseLowerFactor T) : Nat → List T → Option (List T)
  | 0, x => solveRow factor 0 x
  | i + 1, x => (solveRow factor (i + 1) x).bind (solveLoop factor i)

/-- The function `solve_lower_transpose_in_place(factor, x)`; the `assert` is taken as enabled. -/
def solve_lower_transpose_in_place [Mul T] [Sub T] (factor : SparseLowerFactor T)
    (x : List T) : SolveOutcome T :=
  if factor.n = x.length then
    match solveLoop factor (udec factor.n) x with
    | some r => .returned r
    | none => .undefinedBehaviour
  else .assertionFailed x

end Solve

/-! ## Reading the stored factor and matrix -/

section Views

variable {T : Type}

/-- `rowstart[i]`, read totally. -/
def SparseLowerFactor.rs (f : SparseLowerFactor T) (i : Nat) : Nat := f.rowstart.getD i 0

/-- `colindex[k]`, read totally. -/
def SparseLowerFactor.col (f : SparseLowerFactor T) (k : Nat) : Nat := f.colindex.getD k 0

/-- `value[k]`, read totally. -/
def SparseLowerFactor.val [Zero T] (f : SparseLowerFactor T) (k : Nat) : T := f.value.getD k 0

/-- `invdiag[i]`, read totally. -/
def SparseLowerFactor.idg [Zero T] (f : SparseLowerFactor T) (i : Nat) : T := f.invdiag.getD i 0

/-- The storage invariant the solve relies on: vector lengths, `rowstart` non-decreasing and
ending at the number of stored entries, every column stored in row `i` below `i`. -/
structure StorageInv (f : SparseLowerFactor T) : Prop where
  invdiag_len : f.invdiag.length = f.n
  rowstart_len : f.rowstart.length = f.n + 1
  value_len : f.value.length = f.colindex.length
  rowstart_end : f.rs f.n = f.value.length
  mono : ∀ i < f.n, f.rs i ≤ f.rs (i + 1)
  lower : ∀ i < f.n, ∀ k < f.colindex.length, f.rs i ≤ k → k < f.rs (i + 1) → f.col k < i

/-- The contribution of the stored entries of row `i` that lie in column `j`, each multiplied
by `y`: `Σ value(i,j) · y` over the positions of row `i` whose column is `j`. -/
def SparseLowerFactor.colTerm [Field T] (f : SparseLowerFactor T) (j : Nat) (y : T)
    (i : Nat) : T :=
  ∑ k ∈ Finset.Ico (f.rs i) (f.rs (i + 1)), if f.col k = j then f.val k * y else 0

/-- The state of the backward substitution when the rows `i, i+1, ..., n-1` have been done. -/
def SolveInv [Field T] (f : SparseLowerFactor T) (x : List T) (i : Nat) (y : List T) : Prop :=
  y.length = f.n ∧
    ∀ j < f.n, (if i ≤ j then 1 / f.idg j * y.getD j 0 else y.getD j 0) +
      ∑ r ∈ Finset.Ico i f.n, f.colTerm j (y.getD r 0) r = x.getD j 0

/-- Row `i` of the index table of the matrix, read totally. -/
def SparseMatrix.idx (m : SparseMatrix T) (i : Nat) : List Nat := m.index.getD i []

/-- Row `i` of the value table of the matrix, read totally. -/
def SparseMatrix.vals (m : SparseMatrix T) (i : Nat) : List T := m.value.getD i []

/-- The matrix is an `n×n` matrix in two parallel tables: `n` rows in each, and in every row as
many values as column indices. -/
structure SparseMatrix.Tables (m : SparseMatrix T) : Prop where
  index_len : m.index.length = m.n
  value_len : m.value.length = m.n
  row_len : ∀ i < m.n, (m.vals i).length = (m.idx i).length

/-- Every row lists its column indices in strictly increasing order. -/
def SparseMatrix.RowsSorted (m : SparseMatrix T) : Prop :=
  ∀ i < m.n, (m.idx i).Pairwise (· < ·)

/-- The columns the scan of lines 76-84 appends for row `i`: those below `i`, up to the first
column above `i`. -/
def lowerCols (i : Nat) : List Nat → List Nat
  | [] => []
  | c :: rest =>
    if c < i then c :: lowerCols i rest else if c = i then lowerCols i rest else []

/-- The values the scan of lines 76-84 appends for row `i`. -/
def lowerVals (i : Nat) : List Nat → List T → List T
  | c :: rest, v :: vs =>
    if c < i then v :: lowerVals i rest vs else if c = i then lowerVals i rest vs else []
  | _, _ => []

/-- The content of `invdiag[i]` after the scan of lines 76-84 of row `i`, when it held `d`
before: the last value met in column `i` before the first column above `i`. -/
def copiedDiag (i : Nat) : List Nat → List T → T → T
  | c :: rest, v :: vs, d =>
    if c < i then copiedDiag i rest vs d else if c = i then copiedDiag i rest vs v else d
  | _, _, d => d

/-- The rows `g 0, g 1, ..., g (r-1)` laid end to end: how the copy fills a compressed vector
by `push_back`. -/
def concatRows {α : Type} (g : Nat → List α) : Nat → List α
  | 0 => []
  | r + 1 => concatRows g r ++ g r

/-- The `colindex` vector after the copy of the rows `0 .. r-1`. -/
def copiedCols (m : SparseMatrix T) (r : Nat) : List Nat :=
  concatRows (fun i => lowerCols i (m.idx i)) r

/-- The `value` vector after the copy of the rows `0 .. r-1`. -/
def copiedVals (m : SparseMatrix T) (r : Nat) : List T :=
  concatRows (fun i => lowerVals i (m.idx i) (m.vals i)) r

/-- The sizes of the matrix fit the `unsigned int` fields and counters of the code:
`n+1`, the length of `rowstart`, is an `unsigned int`; so is the length of every row, which
the counter `j` of line 76 runs up to; and so is the number of entries copied below the
diagonal, which `rowstart` records. -/
structure SparseMatrix.Fits (m : SparseMatrix T) : Prop where
  dim : m.n < 4294967295
  rows : ∀ i < m.n, (m.idx i).length < 4294967296
  entries : (copiedCols m m.n).length < 4294967296

/-- What the copy (lines 71-87) leaves in the factor `f1` when called on the factor `f0`. -/
structure CopyPost [Zero T] (m : SparseMatrix T) (f0 f1 : SparseLowerFactor T) : Prop where
  n_eq : f1.n = m.n
  invdiag_len : f1.invdiag.length = m.n
  rowstart_len : f1.rowstart.length = m.n + 1
  colindex_eq : f1.colindex = copiedCols m m.n
  value_eq : f1.value = copiedVals m m.n
  rs_eq : ∀ r ≤ m.n, f1.rs r = (copiedCols m r).length
  idg_eq : ∀ r < m.n, f1.idg r =
    copiedDiag r (m.idx r) (m.vals r) ((vresize f0.invdiag m.n 0).getD r 0)

/-- The state of the factor when the copy loop has done the rows `0 .. i-1`; `ginv` is the
content of `invdiag` when the loop started. -/
def CopyInv [Zero T] (m : SparseMatrix T) (ginv : List T) (i : Nat)
    (f : SparseLowerFactor T) : Prop :=
  f.n = m.n ∧ f.invdiag.length = m.n ∧ f.rowstart.length = m.n + 1 ∧
    f.colindex = copiedCols m i ∧ f.value = copiedVals m i ∧
    (∀ r < i, f.rs r = (copiedCols m r).length) ∧
    ∀ r < m.n, f.idg r =
      if r < i then copiedDiag r (m.idx r) (m.vals r) (ginv.getD r 0) else ginv.getD r 0

/-- The sum of the products `v p · v q` over the positions `p` in `[a, k)` and `q` in `[b, e)`
that hold the same column: what the merge walk of lines 97-106 accumulates on sorted rows. -/
def crossSum [Field T] (c : Nat → Nat) (v : Nat → T) (a k b e : Nat) : T :=
  ∑ p ∈ Finset.Ico a k, ∑ q ∈ Finset.Ico b e, if c p = c q then v p * v q else 0

/-- The columns stored in each row of the factor are strictly increasing. -/
def RowsIncreasing (f : SparseLowerFactor T) : Prop :=
  ∀ i < f.n, ∀ p q, f.rs i ≤ p → p < q → q < f.rs (i + 1) → f.col p < f.col q

/-- The running diagonal of row `i` once its off-diagonal entries are final, before the safety
check: the copied diagonal `f.idg i` minus the squares of the entries `v` of row `i`. -/
def pivotResidual [Field T] (f : SparseLowerFactor T) (v : Nat → T) (i : Nat) : T :=
  f.idg i - ∑ p ∈ Finset.Ico (f.rs i) (f.rs (i + 1)), sqr (v p)

/-- The rows below `i` that take the small-pivot fallback. -/
def smallPivotRows [LinearOrderedField T] (min_diagonal_ratio : T) (f : SparseLowerFactor T)
    (v : Nat → T) (i : Nat) : Finset Nat :=
  (Finset.range i).filter
    (fun r => f.idg r ≠ 0 ∧ pivotResidual f v r < min_diagonal_ratio * f.idg r)

/-- The rule of lines 95-107 for the entry at position `p` of row `i`: the copied value minus
the products over the common columns of the two rows, times the reciprocal diagonal of the
column. -/
def EntryRule [Field T] (f : SparseLowerFactor T) (v id : Nat → T) (i p : Nat) : Prop :=
  v p = (f.val p - crossSum f.col v (f.rs i) p (f.rs (f.col p)) (f.rs (f.col p + 1)))
    * id (f.col p)

/-- What the numeric loop leaves for row `i` of the copied factor `f`, in terms of the values
`v` and reciprocal diagonals `id` it produced: a row with zero diagonal is untouched; otherwise
`id i` is `1/sqrt` of the residual, or of the copied diagonal on fallback, and on sorted rows
every entry follows `EntryRule`. -/
def RowPost [LinearOrderedField T] (sqrt : T → T) (min_diagonal_ratio : T)
    (f : SparseLowerFactor T) (v id : Nat → T) (i : Nat) : Prop :=
  (f.idg i = 0 → id i = 0 ∧ ∀ p, f.rs i ≤ p → p < f.rs (i + 1) → v p = f.val p) ∧
  (f.idg i ≠ 0 →
    id i = 1 / sqrt (if pivotResidual f v i < min_diagonal_ratio * f.idg i then f.idg i
      else pivotResidual f v i) ∧
    (RowsIncreasing f → ∀ p, f.rs i ≤ p → p < f.rs (i + 1) → EntryRule f v id i p))

/-- The state `(value, invdiag, small_pivot_count)` of the numeric loop when the rows
`0 .. i-1` of the copied factor `f` have been done. -/
def NumericInv [LinearOrderedField T] (sqrt : T → T) (min_diagonal_ratio : T)
    (f : SparseLowerFactor T) (i : Nat) (st : List T × List T × Nat) : Prop :=
  st.1.length = f.colindex.length ∧ st.2.1.length = f.n ∧
    (∀ p, f.rs i ≤ p → st.1.getD p 0 = f.val p) ∧
    (∀ r, i ≤ r → st.2.1.getD r 0 = f.idg r) ∧
    (∀ r < i, RowPost sqrt min_diagonal_ratio f (fun p => st.1.getD p 0)
      (fun r => st.2.1.getD r 0) r) ∧
    st.2.2 = (smallPivotRows min_diagonal_ratio f (fun p => st.1.getD p 0) i).card

/-- What the numeric factorization (lines 86-116) makes of the copied factor `f`: the result
`F` and the count `c`. -/
structure NumericPost [LinearOrderedField T] (sqrt : T → T) (min_diagonal_ratio : T)
    (f F : SparseLowerFactor T) (c : Nat) : Prop where
  n_eq : F.n = f.n
  colindex_eq : F.colindex = f.colindex
  rowstart_eq : F.rowstart = f.rowstart
  value_len : F.value.length = f.colindex.length
  invdiag_len : F.invdiag.length = f.n
  rows : ∀ i < f.n, RowPost sqrt min_diagonal_ratio f F.val F.idg i
  count : c = (smallPivotRows min_diagonal_ratio f F.val f.n).card

/-- The diagonal of row `i` as the copy leaves it in `invdiag[i]`, the value the numeric loop
starts from: the entry the row stores in column `i`; when the row stores none, what
`resize` left there. -/
def copiedDiagonal [Zero T] (m : SparseMatrix T) (f0 : SparseLowerFactor T) (i : Nat) : T :=
  copiedDiag i (m.idx i) (m.vals i) ((vresize f0.invdiag m.n 0).getD i 0)

/-- The residual diagonal of row `i` of the factor `F` for the original diagonal `A`: `A` minus
the squares of the off-diagonal values stored in row `i`. -/
def rowResidual [Field T] (A : T) (F : SparseLowerFactor T) (i : Nat) : T :=
  A - ∑ p ∈ Finset.Ico (F.rs i) (F.rs (i + 1)), sqr (F.val p)

/-- The strictly lower entry `L(i,k)` held by the compressed rows: the value stored in row `i`
at column `k` (the sum over the positions of row `i` whose column is `k`; under the storage
invariant there is at most one), `0` when the row stores none. -/
def SparseLowerFactor.stored [Field T] (F : SparseLowerFactor T) (i k : Nat) : T :=
  ∑ p ∈ Finset.Ico (F.rs i) (F.rs (i + 1)), if F.col p = k then F.val p else 0

/-- The entry `L(i,k)` of the lower triangular factor: `1/invdiag[i]` on the diagonal, the
stored value off it. -/
def SparseLowerFactor.entry [Field T] (F : SparseLowerFactor T) (i k : Nat) : T :=
  if k = i then 1 / F.idg i else F.stored i k

/-- The symmetric positive definite matrix `[[4, 2], [2, 5]]` in full storage, over the reals. -/
def exampleMatrix : SparseMatrix ℝ := ⟨2, [[0, 1], [0, 1]], [[4, 2], [2, 5]]⟩

/-- The diagonal matrix `diag(4, 9)`. -/
def exampleDiagonal : SparseMatrix ℝ := ⟨2, [[0], [1]], [[4], [9]]⟩

/-- The Cholesky factor `[[2, 0], [1, 2]]` of `[[4, 2], [2, 5]]` in compressed storage. -/
def exampleFactor : SparseLowerFactor ℚ := ⟨2, [1 / 2, 1 / 2], [1], [0], [0, 0, 1]⟩

/-- The tridiagonal matrix `[[4, 1, 0], [1, 4, 1], [0, 1, 4]]`, its nonzero entries stored row
by row. -/
def exampleTridiagonal : SparseMatrix ℝ :=
  ⟨3, [[0, 1], [0, 1, 2], [1, 2]], [[4, 1], [1, 4, 1], [1, 4]]⟩

/-- A 2×2 matrix whose row 1 stores the entry `2` in column 0 and an explicit zero on the
diagonal. -/
def exampleNullRow : SparseMatrix ℝ := ⟨2, [[0], [0, 1]], [[4], [2, 0]]⟩

/-- A 3×3 matrix whose rows are not sorted: each row lists its diagonal first. -/
def exampleUnsorted : SparseMatrix ℝ := ⟨3, [[0], [1, 0], [2, 0, 1]], [[4], [4, 2], [9, 2, 2]]⟩

/-- The entries `(column, value)` of row `i` of the matrix with column at most `i`: the lower
triangle and the diagonal. -/
def SparseMatrix.lowerPart (m : SparseMatrix T) (i : Nat) : List (Nat × T) :=
  ((m.idx i).zip (m.vals i)).filter (fun p => decide (p.1 ≤ i))

/-- The matrix `[[4, 2], [2, 5]]` with its upper entry replaced: `[[4, 7], [2, 5]]`. -/
def exampleUpperChanged : SparseMatrix ℝ := ⟨2, [[0, 1], [0, 1]], [[4, 7], [2, 5]]⟩

/-- The `k×k` matrix formed by the first `k` rows of the matrix. -/
def SparseMatrix.leading (m : SparseMatrix T) (k : Nat) : SparseMatrix T :=
  ⟨k, m.index.take k, m.value.take k⟩

/-- Modelled from the spec: the forward solve `solveLowerInPlace` is not part of the sources at
hand (they hold the transposed solve only).  This is the step "for each stored off-diagonal
entry `(i,j)` in row `i`, subtract `value(i,j)·x[j]` from `x[i]`", for the entry at position
`k` of row `i`. -/
def forwardEntry [Mul T] [Sub T] (factor : SparseLowerFactor T) (i k : Nat) (x : List T) :
    Option (List T) :=
  (factor.colindex[k]?).bind fun c =>
  (factor.value[k]?).bind fun v =>
  (x[c]?).bind fun xc =>
  (x[i]?).bind fun xi =>
  vset x i (xi - v * xc)

/-- Modelled from the spec: row `i` of the forward solve `solveLowerInPlace`, which is not part
of the sources at hand: the entries of the row, then "after processing the row, multiply
`x[i]` by `inverseDiagonal[i]`". -/
def forwardRow [Mul T] [Sub T] (factor : SparseLowerFactor T) (i : Nat) (x : List T) :
    Option (List T) :=
  (factor.rowstart[i]?).bind fun lo =>
  (factor.rowstart[i + 1]?).bind fun hi =>
  (forLoop (forwardEntry factor i) (hi - lo) lo x).bind fun x1 =>
  (x1[i]?).bind fun xi =>
  (factor.invdiag[i]?).bind fun id =>
  vset x1 i (xi * id)

/-- Modelled from the spec: the forward solve `solveLowerInPlace(factor, x)`, which is not part
of the sources at hand: "forward substitution solving `L·result = x`.  Process
`i = 0 .. n-1` ascending", failing "when `x`'s length differs from `factor.size`". -/
def solve_lower_in_place [Mul T] [Sub T] (factor : SparseLowerFactor T) (x : List T) :
    SolveOutcome T :=
  if factor.n = x.length then
    match forLoop (forwardRow factor) factor.n 0 x with
    | some r => .returned r
    | none => .undefinedBehaviour
  else .assertionFailed x

/-- The state of the forward substitution when the rows `0 .. i-1` have been done. -/
def ForwardInv [Field T] (f : SparseLowerFactor T) (x : List T) (i : Nat) (y : List T) :
    Prop :=
  y.length = f.n ∧ (∀ j, i ≤ j → y.getD j 0 = x.getD j 0) ∧
    ∀ r < i, 1 / f.idg r * y.getD r 0 +
      ∑ p ∈ Finset.Ico (f.rs r) (f.rs (r + 1)), f.val p * y.getD (f.col p) 0 = x.getD r 0

end Views

/-! ## The special values of `float` and `double` -/

/-- The values of the scalar types `float` and `double` (lines 63-64) as IEEE 754 defines
them, without rounding: a finite number of `K`, an infinity with its sign, or NaN.  The two
zeros are not told apart. -/
inductive Ieee (K : Type) where
  | fin (x : K)
  | inf (negative : Bool)
  | nan
deriving DecidableEq

namespace Ieee

variable {K : Type}

/-- The product `a * b`: NaN when an operand is NaN or when zero meets an infinity. -/
def mul [LinearOrderedField K] : Ieee K → Ieee K → Ieee K
  | fin a, fin b => fin (a * b)
  | fin a, inf s => if a = 0 then nan else inf (xor s (decide (a < 0)))
  | inf s, fin b => if b = 0 then nan else inf (xor s (decide (b < 0)))
  | inf s, inf t => inf (xor s t)
  | nan, _ => nan
  | _, nan => nan

/-- The difference `a - b`: NaN when an operand is NaN or for two infinities of one sign. -/
def sub [LinearOrderedField K] : Ieee K → Ieee K → Ieee K
  | fin a, fin b => fin (a - b)
  | fin _, inf t => inf (!t)
  | inf s, fin _ => inf s
  | inf s, inf t => if s = t then nan else inf s
  | nan, _ => nan
  | _, nan => nan

/-- The quotient `a / b`: a nonzero number over zero is an infinity; NaN when an operand is NaN,
for zero over zero and for two infinities. -/
def div [LinearOrderedField K] : Ieee K → Ieee K → Ieee K
  | fin a, fin b =>
    if b = 0 then (if a = 0 then nan else inf (decide (a < 0))) else fin (a / b)
  | fin _, inf _ => fin 0
  | inf s, fin b => inf (xor s (decide (b < 0)))
  | inf _, inf _ => nan
  | nan, _ => nan
  | _, nan => nan

/-- The comparison `a < b`: false when an operand is NaN. -/
def ltb [LinearOrderedField K] : Ieee K → Ieee K → Bool
  | fin a, fin b => decide (a < b)
  | fin _, inf t => !t
  | inf s, fin _ => s
  | inf s, inf t => s && !t
  | nan, _ => false
  | _, nan => false

/-- The square root `std::sqrt`, given the root `s` of the finite non-negative numbers: NaN
for a negative number, for minus infinity and for NaN. -/
def sqrtWith [LinearOrderedField K] (s : K → K) : Ieee K → Ieee K
  | fin a => if a < 0 then nan else fin (s a)
  | inf negative => if negative then nan else inf false
  | nan => nan

instance [LinearOrderedField K] : Zero (Ieee K) := ⟨fin 0⟩

instance [LinearOrderedField K] : One (Ieee K) := ⟨fin 1⟩

instance [LinearOrderedField K] : Mul (Ieee K) := ⟨mul⟩

instance [LinearOrderedField K] : Sub (Ieee K) := ⟨sub⟩

instance [LinearOrderedField K] : Div (Ieee K) := ⟨div⟩

instance [LinearOrderedField K] : LT (Ieee K) := ⟨fun a b => ltb a b = true⟩

instance [LinearOrderedField K] (a b : Ieee K) : Decidable (a < b) :=
  inferInstanceAs (Decidable (ltb a b = true))

end Ieee

/-- The factor with every scalar replaced by its image under `g`. -/
def SparseLowerFactor.map {T U : Type} (g : T → U) (f : SparseLowerFactor T) :
    SparseLowerFactor U :=
  { n := f.n, invdiag := f.invdiag.map g, value := f.value.map g, colindex := f.colindex,
    rowstart := f.rowstart }

/-- The matrix with every scalar replaced by its image under `g`. -/
def SparseMatrix.map {T U : Type} (g : T → U) (m : SparseMatrix T) : SparseMatrix U :=
  { n := m.n, index := m.index, value := m.value.map (List.map g) }

/-- The state `(value, invdiag, small_pivot_count)` of the numeric loop on finite numbers, read
in the arithmetic of `float`/`double`. -/
def Ieee.liftState {K : Type} (st : List K × List K × Nat) :
    List (Ieee K) × List (Ieee K) × Nat :=
  (st.1.map Ieee.fin, st.2.1.map Ieee.fin, st.2.2)

/-- How a call of the solve on finite numbers ends, read in the arithmetic of
`float`/`double`. -/
def SolveOutcome.lift {K : Type} : SolveOutcome K → SolveOutcome (Ieee K)
  | .returned x => .returned (x.map Ieee.fin)
  | .assertionFailed x => .assertionFailed (x.map Ieee.fin)
  | .undefinedBehaviour => .undefinedBehaviour

/-- The `n×n` matrix with every entry of the lower triangle and the diagonal stored and equal
to `1`: row `i` holds the columns `0 .. i`.  For `n = 92683` it has
`92683·92682/2 = 4295022903 ≥ 2^32` entries below the diagonal. -/
def denseLower (n : Nat) : SparseMatrix ℝ :=
  ⟨n, (List.range n).map (fun i => List.range (i + 1)),
    (List.range n).map (fun i => List.replicate (i + 1) 1)⟩

/-- The 2×2 matrix with the lower triangle `[[-4], [1, 4]]`: a negative diagonal in row 0, a
positive one in row 1. -/
def exampleNegativeDiagonal : SparseMatrix (Ieee ℚ) :=
  ⟨2, [[0], [0, 1]], [[.fin (-4)], [.fin 1, .fin 4]]⟩

/-- The 2×2 matrix with the lower triangle `[[0], [1, -4]]`: a stored zero on the diagonal of
row 0, a negative diagonal in row 1. -/
def exampleNegativeBelowNull : SparseMatrix (Ieee ℚ) :=
  ⟨2, [[0], [0, 1]], [[.fin 0], [.fin 1, .fin (-4)]]⟩

/-- The 3×3 matrix with the lower triangle `[[0], [·, 1], [1, 1, 1]]`: a stored zero on the
diagonal of row 0, and in row 2 the residual `1 - 1² = 0`. -/
def exampleZeroResidual : SparseMatrix (Ieee ℚ) :=
  ⟨3, [[0], [1], [0, 1, 2]], [[.fin 0], [.fin 1], [.fin 1, .fin 1, .fin 1]]⟩

/-- The sorted 2×2 matrix with rows `[1, 3]` and `[3, ·]`: row 1 stores its entry in column 0
and no diagonal entry. -/
def exampleNoDiagonal : SparseMatrix ℝ := ⟨2, [[0, 1], [0]], [[1, 3], [3]]⟩

/-- The `n×n` matrix that stores in every row the value `a` on the diagonal and nothing
else. -/
def scalarMatrix (n : Nat) (a : ℝ) : SparseMatrix ℝ :=
  ⟨n, (List.range n).map (fun i => [i]), List.replicate n [a]⟩

/-- The identity matrix of dimension `4294967295`, the largest `unsigned int`. -/
def exampleLargest : SparseMatrix ℝ := scalarMatrix 4294967295 1

/-- The matrix of dimension `4294967295` that stores a zero on the diagonal of every row. -/
def exampleLargestNull : SparseMatrix ℝ := scalarMatrix 4294967295 0

/-! ## Basic facts about vectors and loops -/

section Basics

variable {α σ : Type}

theorem getElem?_eq_some_getD (xs : List α) (i : Nat) (d : α) (h : i < xs.length) :
    xs[i]? = some (xs.getD i d) := by
  rw [List.getD_eq_getElem?_getD, List.getElem?_eq_getElem h]; rfl

theorem getD_set (xs : List α) (i j : Nat) (v d : α) :
    (xs.set i v).getD j d = if i = j ∧ i < xs.length then v else xs.getD j d := by
  simp only [List.getD_eq_getElem?_getD, List.getElem?_set]
  by_cases h : i = j
  · subst h
    by_cases h2 : i < xs.length
    · simp [h2]
    · simp [h2, List.getElem?_eq_none (Nat.le_of_not_lt h2)]
  · simp [h]

theorem getD_set_self (xs : List α) (i : Nat) (v d : α) (h : i < xs.length) :
    (xs.set i v).getD i d = v := by
  rw [getD_set]; simp [h]

theorem getD_set_ne (xs : List α) (i j : Nat) (v d : α) (h : i ≠ j) :
    (xs.set i v).getD j d = xs.getD j d := by
  rw [getD_set]; simp [h]

theorem vset_eq_some (xs : List α) (i : Nat) (v : α) (h : i < xs.length) :
    vset xs i v = some (xs.set i v) := by
  simp [vset, h]

theorem forLoop_succ (body : Nat → σ → Option σ) (c i : Nat) (s : σ) :
    forLoop body (c + 1) i s = (body i s).bind (forLoop body c (i + 1)) := rfl

/-- Invariant rule for `forLoop`: a predicate that holds at the start and is carried by every
pass (which then does not fault) holds at the end, and the loop does not fault. -/
theorem forLoop_inv (body : Nat → σ → Option σ) (P : Nat → σ → Prop) :
    ∀ (c lo : Nat) (s : σ), P lo s →
      (∀ i s, lo ≤ i → i < lo + c → P i s → ∃ s', body i s = some s' ∧ P (i + 1) s') →
      ∃ s', forLoop body c lo s = some s' ∧ P (lo + c) s' := by
  intro c
  induction c with
  | zero => intro lo s h0 _; exact ⟨s, rfl, by simpa using h0⟩
  | succ c ih =>
    intro lo s h0 hstep
    obtain ⟨s1, hb, hP1⟩ := hstep lo s (Nat.le_refl _) (by omega) h0
    obtain ⟨s2, hl, hP2⟩ := ih (lo + 1) s1 hP1 (fun i s hi1 hi2 hP =>
      hstep i s (by omega) (by omega) hP)
    refine ⟨s2, ?_, ?_⟩
    · rw [forLoop_succ, hb]; exact hl
    · have : lo + (c + 1) = lo + 1 + c := by omega
      rw [this]; exact hP2

end Basics

/-! ## The container -/

section Container

variable {T : Type}

theorem vresize_length {α : Type} (xs : List α) (n : Nat) (fill : α) :
    (vresize xs n fill).length = n := by
  simp only [vresize, List.length_append, List.length_take, List.length_replicate]
  omega

/-- C10 (as amended): `resize(n)` sets the dimension to `n`, gives `invdiag` length `n` and
`rowstart` the length `n+1` as computed in `unsigned int` (`n+1` for `n < 4294967295`, `0` for
`n = 4294967295`), and leaves `value` and `colindex` as they were. -/
theorem resize_contract [Zero T] (f : SparseLowerFactor T) (n : Nat) :
    (f.resize n).n = n ∧ (f.resize n).invdiag.length = n ∧
      (f.resize n).rowstart.length = (n + 1) % 4294967296 ∧
      (n < 4294967295 → (f.resize n).rowstart.length = n + 1) ∧
      (n = 4294967295 → (f.resize n).rowstart.length = 0) ∧
      (f.resize n).value = f.value ∧ (f.resize n).colindex = f.colindex := by
  have hlen : (f.resize n).rowstart.length = (n + 1) % 4294967296 := vresize_length _ _ _
  refine ⟨rfl, vresize_length _ _ _, hlen, ?_, ?_, rfl, rfl⟩
  · intro h
    rw [hlen, Nat.mod_eq_of_lt (by omega)]
  · intro h
    rw [hlen, h]

/-- C10 (as amended) at the two ends of the range of `n`: resizing the factor of a 2×2 matrix
to `n = 3` gives `rowstart` four entries, resizing it to `n = 4294967295` empties `rowstart`;
`value` and `colindex` stay. -/
theorem resize_contract_witness :
    ((⟨2, [1, 1], [1 / 2], [0], [0, 0, 1]⟩ : SparseLowerFactor ℚ).resize 3).rowstart.length
        = 3 + 1 ∧
      ((⟨2, [1, 1], [1 / 2], [0], [0, 0, 1]⟩ : SparseLowerFactor ℚ).resize
        4294967295).rowstart.length = 0 ∧
      ((⟨2, [1, 1], [1 / 2], [0], [0, 0, 1]⟩ : SparseLowerFactor ℚ).resize
        4294967295).value = [1 / 2] :=
  ⟨(resize_contract _ 3).2.2.2.1 (by decide), (resize_contract _ 4294967295).2.2.2.2.1 rfl,
    (resize_contract _ 4294967295).2.2.2.2.2.1⟩

/-- C10 (as stated) fails: resizing the factor of a 2×2 matrix with one stored off-diagonal
entry to the same dimension does not empty `value` and `colindex`. -/
theorem resize_does_not_clear :
    ¬ (((⟨2, [1, 1], [1 / 2], [0], [0, 0, 1]⟩ : SparseLowerFactor ℚ).resize 2).n = 2 ∧
       ((⟨2, [1, 1], [1 / 2], [0], [0, 0, 1]⟩ : SparseLowerFactor ℚ).resize 2).invdiag.length = 2 ∧
       ((⟨2, [1, 1], [1 / 2], [0], [0, 0, 1]⟩ : SparseLowerFactor ℚ).resize 2).rowstart.length = 3 ∧
       ((⟨2, [1, 1], [1 / 2], [0], [0, 0, 1]⟩ : SparseLowerFactor ℚ).resize 2).value = [] ∧
       ((⟨2, [1, 1], [1 / 2], [0], [0, 0, 1]⟩ : SparseLowerFactor ℚ).resize 2).colindex = []) := by
  simp [SparseLowerFactor.resize]

end Container

/-! ## The solve -/

section SolveProofs

variable {T : Type}

/-- `rowstart` is non-decreasing along any stretch of rows. -/
theorem StorageInv.rs_le {f : SparseLowerFactor T} (h : StorageInv f) :
    ∀ (j i : Nat), i ≤ j → j ≤ f.n → f.rs i ≤ f.rs j := by
  intro j
  induction j with
  | zero => intro i hi _; have : i = 0 := by omega
            subst this; exact Nat.le_refl _
  | succ j ih =>
    intro i hi hj
    by_cases hij : i = j + 1
    · subst hij; exact Nat.le_refl _
    · exact Nat.le_trans (ih i (by omega) (by omega)) (h.mono j (by omega))

/-- Every row ends inside the stored entries. -/
theorem StorageInv.rs_le_len {f : SparseLowerFactor T} (h : StorageInv f) (i : Nat)
    (hi : i ≤ f.n) : f.rs i ≤ f.colindex.length := by
  have := h.rs_le f.n i hi (Nat.le_refl _)
  rw [h.rowstart_end, h.value_len] at this
  exact this

theorem colTerm_eq_zero [Field T] {f : SparseLowerFactor T} (h : StorageInv f) (i j : Nat)
    (y : T) (hi : i < f.n) (hij : i ≤ j) : f.colTerm j y i = 0 := by
  unfold SparseLowerFactor.colTerm
  apply Finset.sum_eq_zero
  intro k hk
  rw [Finset.mem_Ico] at hk
  have hlen : k < f.colindex.length :=
    Nat.lt_of_lt_of_le hk.2 (h.rs_le_len (i + 1) (by omega))
  have := h.lower i hi k hlen hk.1 hk.2
  rw [if_neg (by omega)]

/-- The loop of line 131 on row `i`: it does not fault and subtracts from every `x[j]` the
entries of row `i` in column `j` times `x[i]`. -/
theorem solveEntries_spec [Field T] {f : SparseLowerFactor T} (h : StorageInv f) (i : Nat)
    (hi : i < f.n) (x1 : List T) (hx1 : x1.length = f.n) :
    ∃ y, forLoop (solveEntry f i) (f.rs (i + 1) - f.rs i) (f.rs i) x1 = some y ∧
      y.length = f.n ∧
      ∀ j, y.getD j 0 = x1.getD j 0 - f.colTerm j (x1.getD i 0) i := by
  have hmono := h.mono i hi
  have hend : f.rs (i + 1) ≤ f.colindex.length := h.rs_le_len (i + 1) (by omega)
  obtain ⟨y, hy, hP⟩ := forLoop_inv (solveEntry f i)
    (fun k y => y.length = f.n ∧ y.getD i 0 = x1.getD i 0 ∧
      ∀ j, y.getD j 0 = x1.getD j 0 -
        ∑ k' ∈ Finset.Ico (f.rs i) k, if f.col k' = j then f.val k' * x1.getD i 0 else 0)
    (f.rs (i + 1) - f.rs i) (f.rs i) x1
    ⟨hx1, rfl, by intro j; simp⟩
    (by
      intro k y hk1 hk2 ⟨hlen, hyi, hsum⟩
      have hk3 : k < f.rs (i + 1) := by omega
      have hkc : k < f.colindex.length := by omega
      have hkv : k < f.value.length := by rw [h.value_len]; exact hkc
      have hc : f.col k < i := h.lower i hi k hkc hk1 hk3
      refine ⟨y.set (f.col k) (y.getD (f.col k) 0 - f.val k * y.getD i 0), ?_, ?_, ?_, ?_⟩
      · unfold solveEntry
        rw [getElem?_eq_some_getD f.colindex k 0 hkc, Option.some_bind,
          getElem?_eq_some_getD f.value k 0 hkv, Option.some_bind,
          getElem?_eq_some_getD y i 0 (by omega), Option.some_bind,
          getElem?_eq_some_getD y (f.colindex.getD k 0) 0
            (by have : f.colindex.getD k 0 = f.col k := rfl
                omega), Option.some_bind]
        exact vset_eq_some _ _ _ (by have : f.colindex.getD k 0 = f.col k := rfl
                                     omega)
      · simp [hlen]
      · rw [getD_set_ne _ _ _ _ _ (by omega)]; exact hyi
      · intro j
        rw [Finset.sum_Ico_succ_top hk1, getD_set]
        by_cases hj : f.col k = j
        · rw [if_pos ⟨hj, by omega⟩, if_pos hj, hj, hsum j, hyi]
          ring
        · rw [if_neg (fun hh => hj hh.1), if_neg hj, hsum j]
          ring)
  refine ⟨y, hy, hP.1, ?_⟩
  intro j
  have hP3 := hP.2.2 j
  have : f.rs i + (f.rs (i + 1) - f.rs i) = f.rs (i + 1) := by omega
  rw [this] at hP3
  exact hP3

/-- One pass of the `do`/`while` loop for row `i`: scale `x[i]`, then push it to the columns of
row `i`. -/
theorem solveRow_spec [Field T] {f : SparseLowerFactor T} (h : StorageInv f) (i : Nat)
    (hi : i < f.n) (x : List T) (hx : x.length = f.n) :
    ∃ y, solveRow f i x = some y ∧ y.length = f.n ∧
      ∀ j, y.getD j 0 =
        if j = i then x.getD i 0 * f.idg i
        else x.getD j 0 - f.colTerm j (x.getD i 0 * f.idg i) i := by
  have hx1 : (x.set i (x.getD i 0 * f.idg i)).length = f.n := by simp [hx]
  obtain ⟨y, hy, hlen, hval⟩ := solveEntries_spec h i hi _ hx1
  refine ⟨y, ?_, hlen, ?_⟩
  · unfold solveRow
    rw [getElem?_eq_some_getD x i 0 (by omega), Option.some_bind,
      getElem?_eq_some_getD f.invdiag i 0 (by rw [h.invdiag_len]; exact hi), Option.some_bind,
      vset_eq_some _ _ _ (by omega), Option.some_bind,
      getElem?_eq_some_getD f.rowstart i 0 (by rw [h.rowstart_len]; omega), Option.some_bind,
      getElem?_eq_some_getD f.rowstart (i + 1) 0 (by rw [h.rowstart_len]; omega),
      Option.some_bind]
    exact hy
  · intro j
    rw [hval j, getD_set_self _ _ _ _ (by omega)]
    by_cases hj : j = i
    · subst hj
      rw [if_pos rfl, getD_set_self _ _ _ _ (by omega),
        colTerm_eq_zero h j j _ hi (Nat.le_refl _)]
      simp
    · rw [if_neg hj, getD_set_ne _ _ _ _ _ (fun hh => hj hh.symm)]

theorem solveRow_inv [Field T] {f : SparseLowerFactor T} (h : StorageInv f)
    (hnz : ∀ i < f.n, f.idg i ≠ 0) (x : List T) (i : Nat) (hi : i < f.n) (y : List T)
    (hy : SolveInv f x (i + 1) y) :
    ∃ y', solveRow f i y = some y' ∧ SolveInv f x i y' := by
  obtain ⟨hlen, hsum⟩ := hy
  obtain ⟨y', hrow, hlen', hval⟩ := solveRow_spec h i hi y hlen
  refine ⟨y', hrow, hlen', ?_⟩
  intro j hj
  have hrest : ∑ r ∈ Finset.Ico (i + 1) f.n, f.colTerm j (y'.getD r 0) r =
      ∑ r ∈ Finset.Ico (i + 1) f.n, f.colTerm j (y.getD r 0) r := by
    apply Finset.sum_congr rfl
    intro r hr
    rw [Finset.mem_Ico] at hr
    rw [hval r, if_neg (by omega), colTerm_eq_zero h i r _ hi (by omega)]
    simp
  rw [Finset.sum_eq_sum_Ico_succ_bot hi, hrest]
  have hyi : y'.getD i 0 = y.getD i 0 * f.idg i := by rw [hval i, if_pos rfl]
  rw [hyi]
  have hs := hsum j hj
  rcases Nat.lt_trichotomy j i with hlt | heq | hgt
  · rw [if_neg (by omega)]
    rw [if_neg (by omega)] at hs
    rw [hval j, if_neg (by omega), ← hs]
    ring
  · subst heq
    rw [if_pos (Nat.le_refl _), hyi, colTerm_eq_zero h j j _ hi (Nat.le_refl _)]
    rw [if_neg (by omega)] at hs
    rw [← hs]
    field_simp [hnz j hi]
  · rw [if_pos (by omega), hval j, if_neg (by omega)]
    simp only [colTerm_eq_zero h i j _ hi (by omega)]
    rw [if_pos (by omega)] at hs
    rw [← hs]
    ring

theorem solveLoop_spec [Field T] {f : SparseLowerFactor T} (h : StorageInv f)
    (hnz : ∀ i < f.n, f.idg i ≠ 0) (x : List T) :
    ∀ (i : Nat) (y : List T), i < f.n → SolveInv f x (i + 1) y →
      ∃ r, solveLoop f i y = some r ∧ SolveInv f x 0 r := by
  intro i
  induction i with
  | zero =>
    intro y hi hy
    exact solveRow_inv h hnz x 0 hi y hy
  | succ i ih =>
    intro y hi hy
    obtain ⟨y', hrow, hy'⟩ := solveRow_inv h hnz x (i + 1) hi y hy
    obtain ⟨r, hr, hinv⟩ := ih y' (by omega) hy'
    refine ⟨r, ?_, hinv⟩
    show (solveRow f (i + 1) y).bind (solveLoop f i) = some r
    rw [hrow]; exact hr

/-- C2: on a factor of dimension at least one that satisfies the storage invariant and has
nonzero `invdiag`, and a vector `x` of length `n`, the solve returns a vector `r` with
`(1/invdiag[j])·r[j] + Σ value(i,j)·r[i] = x[j]` for every column `j`, the sum running over the
stored entries of column `j` (all of them in rows `i > j`): `Lᵗ·r = x`. -/
theorem solve_lower_transpose_solves [Field T] (factor : SparseLowerFactor T) (x : List T)
    (hn : 1 ≤ factor.n) (hinv : StorageInv factor) (hnz : ∀ i < factor.n, factor.idg i ≠ 0)
    (hx : x.length = factor.n) :
    ∃ r, solve_lower_transpose_in_place factor x = .returned r ∧ r.length = factor.n ∧
      ∀ j < factor.n, 1 / factor.idg j * r.getD j 0 +
        ∑ i ∈ Finset.Ico (j + 1) factor.n,
          ∑ k ∈ Finset.Ico (factor.rs i) (factor.rs (i + 1)),
            (if factor.col k = j then factor.val k * r.getD i 0 else 0) = x.getD j 0 := by
  have hstart : SolveInv factor x (factor.n - 1 + 1) x := by
    refine ⟨hx, ?_⟩
    intro j hj
    have : factor.n - 1 + 1 = factor.n := by omega
    rw [this, if_neg (by omega)]
    simp
  obtain ⟨r, hr, hlen, hsum⟩ := solveLoop_spec hinv hnz x (factor.n - 1) x (by omega) hstart
  refine ⟨r, ?_, hlen, ?_⟩
  · unfold solve_lower_transpose_in_place
    have hu : udec factor.n = factor.n - 1 := by
      unfold udec; rw [if_neg (by omega)]
    rw [if_pos hx.symm, hu, hr]
  · intro j hj
    have hs := hsum j hj
    rw [if_pos (Nat.zero_le _)] at hs
    rw [← hs]
    congr 1
    have hsplit := Finset.sum_Ico_consecutive
      (fun i => factor.colTerm j (r.getD i 0) i) (Nat.zero_le (j + 1)) (show j + 1 ≤ factor.n by omega)
    rw [← hsplit]
    have hz : ∑ i ∈ Finset.Ico 0 (j + 1), factor.colTerm j (r.getD i 0) i = 0 := by
      apply Finset.sum_eq_zero
      intro i hi
      rw [Finset.mem_Ico] at hi
      exact colTerm_eq_zero hinv i j _ (by omega) (by omega)
    rw [hz, zero_add]
    rfl

/-- C9: the solve stops on the assertion exactly when the length of `x` differs from `factor.n`,
and the vector then still holds the `x` it was called with. -/
theorem solve_dimension_check [Mul T] [Sub T] (factor : SparseLowerFactor T) (x : List T) :
    ((∃ y, solve_lower_transpose_in_place factor x = .assertionFailed y) ↔
        x.length ≠ factor.n) ∧
      ∀ y, solve_lower_transpose_in_place factor x = .assertionFailed y → y = x := by
  unfold solve_lower_transpose_in_place
  by_cases h : factor.n = x.length
  · simp only [h, if_true]
    constructor
    · constructor
      · rintro ⟨y, hy⟩
        cases hs : solveLoop factor (udec x.length) x <;> rw [hs] at hy <;> cases hy
      · intro hne; exact absurd rfl hne
    · intro y hy
      cases hs : solveLoop factor (udec x.length) x <;> rw [hs] at hy <;> cases hy
  · simp only [h, if_false]
    constructor
    · constructor
      · intro _ hx; exact h hx.symm
      · intro _; exact ⟨x, rfl⟩
    · intro y hy
      cases hy; rfl

/-- C8: on the empty system the factorization returns the empty factor (no stored entry, a
single `rowstart` entry), but the solve on that factor and the empty vector decrements the
counter `0` to `4294967295` and indexes the empty vector there. -/
theorem empty_system_solve_out_of_range :
    factor_incomplete_cholesky0 Real.sqrt ⟨0, [], []⟩ (SparseLowerFactor.init 0) (1 / 4)
        = some (⟨0, [], [], [], [0]⟩, 0) ∧
      solve_lower_transpose_in_place (⟨0, [], [], [], [0]⟩ : SparseLowerFactor ℚ) []
        = .undefinedBehaviour := by
  constructor
  · rfl
  · rfl

end SolveProofs

/-! ## The copy of the lower triangle -/

section CopyProofs

variable {T : Type}

theorem copyRow_spec [Zero T] (m : SparseMatrix T) (i : Nat) (row : List T)
    (hrow : m.value[i]? = some row) :
    ∀ (idx : List Nat) (j : Nat) (f : SparseLowerFactor T),
      row.length = j + idx.length → i < f.invdiag.length →
      ∃ f', copyRow m i idx j f = some f' ∧ f'.n = f.n ∧ f'.rowstart = f.rowstart ∧
        f'.colindex = f.colindex ++ lowerCols i idx ∧
        f'.value = f.value ++ lowerVals i idx (row.drop j) ∧
        f'.invdiag.length = f.invdiag.length ∧
        ∀ r, f'.invdiag.getD r 0 =
          if r = i then copiedDiag i idx (row.drop j) (f.invdiag.getD i 0)
          else f.invdiag.getD r 0 := by
  intro idx
  induction idx with
  | nil =>
    intro j f _ _
    refine ⟨f, rfl, rfl, rfl, by simp [lowerCols], by simp [lowerVals], rfl, ?_⟩
    intro r
    by_cases hr : r = i
    · subst hr; simp [copiedDiag]
    · simp [hr]
  | cons c rest ih =>
    intro j f hlen hi
    have hj : j < row.length := by simp at hlen; omega
    have hdrop : row.drop j = row[j] :: row.drop (j + 1) := List.drop_eq_getElem_cons hj
    have hget : row[j]? = some row[j] := List.getElem?_eq_getElem hj
    have hlen' : row.length = j + 1 + rest.length := by simp at hlen; omega
    by_cases h1 : c < i
    · obtain ⟨f', hf', hn, hrs, hcol, hval, hil, hid⟩ :=
        ih (j + 1) { f with colindex := f.colindex ++ [c], value := f.value ++ [row[j]] }
          hlen' hi
      refine ⟨f', ?_, hn, hrs, ?_, ?_, hil, ?_⟩
      · simp only [copyRow, if_pos h1, hrow, hget, Option.some_bind]
        exact hf'
      · rw [hcol]; simp [lowerCols, h1]
      · rw [hval, hdrop]; simp [lowerVals, h1]
      · intro r
        rw [hid r, hdrop]
        simp [copiedDiag, h1]
    · by_cases h2 : c = i
      · obtain ⟨f', hf', hn, hrs, hcol, hval, hil, hid⟩ :=
          ih (j + 1) { f with invdiag := f.invdiag.set i row[j] } hlen'
            (by simpa using hi)
        refine ⟨f', ?_, hn, hrs, ?_, ?_, ?_, ?_⟩
        · simp only [copyRow, if_neg h1, if_pos h2, hrow, hget, Option.some_bind,
            vset_eq_some _ _ _ hi]
          exact hf'
        · rw [hcol]; simp [lowerCols, h1, h2]
        · rw [hval, hdrop]; simp [lowerVals, h1, h2]
        · rw [hil]; simp
        · intro r
          rw [hid r, hdrop]
          by_cases hr : r = i
          · subst hr
            simp only [if_true]
            rw [getD_set_self _ _ _ _ hi]
            simp [copiedDiag, h1, h2]
          · simp only [if_neg hr]
            rw [getD_set_ne _ _ _ _ _ (fun hh => hr hh.symm)]
      · refine ⟨f, ?_, rfl, rfl, ?_, ?_, rfl, ?_⟩
        · simp only [copyRow, if_neg h1, if_neg h2]
        · simp [lowerCols, h1, h2]
        · rw [hdrop]; simp [lowerVals, h1, h2]
        · intro r
          rw [hdrop]
          by_cases hr : r = i
          · subst hr; simp [copiedDiag, h1, h2]
          · simp [hr]

end CopyProofs

section CopyLoop

variable {T : Type}

theorem concatRows_succ {α : Type} (g : Nat → List α) (r : Nat) :
    concatRows g (r + 1) = concatRows g r ++ g r := rfl

theorem concatRows_length_le {α : Type} (g : Nat → List α) :
    ∀ (s r : Nat), r ≤ s → (concatRows g r).length ≤ (concatRows g s).length := by
  intro s
  induction s with
  | zero => intro r hr; have : r = 0 := by omega
            subst this; exact Nat.le_refl _
  | succ s ih =>
    intro r hr
    by_cases hrs : r = s + 1
    · subst hrs; exact Nat.le_refl _
    · have := ih r (by omega)
      rw [concatRows_succ, List.length_append]
      omega

theorem copiedCols_length_le (m : SparseMatrix T) (r s : Nat) (h : r ≤ s) :
    (copiedCols m r).length ≤ (copiedCols m s).length :=
  concatRows_length_le _ s r h

theorem copyBody_inv [Zero T] (m : SparseMatrix T) (hm : m.Tables) (ginv : List T) (i : Nat)
    (hi : i < m.n) (hc : (copiedCols m i).length < 4294967296) (f : SparseLowerFactor T)
    (hf : CopyInv m ginv i f) :
    ∃ f', copyBody m i f = some f' ∧ CopyInv m ginv (i + 1) f' := by
  obtain ⟨hn, hil, hrl, hcol, hval, hrs, hid⟩ := hf
  have hmod : f.colindex.length % 4294967296 = f.colindex.length :=
    Nat.mod_eq_of_lt (by rw [hcol]; exact hc)
  have hidx : m.index[i]? = some (m.idx i) :=
    getElem?_eq_some_getD m.index i [] (by rw [hm.index_len]; exact hi)
  have hrow : m.value[i]? = some (m.vals i) :=
    getElem?_eq_some_getD m.value i [] (by rw [hm.value_len]; exact hi)
  obtain ⟨f', hf', hn', hrs', hcol', hval', hil', hid'⟩ :=
    copyRow_spec m i (m.vals i) hrow (m.idx i) 0
      { f with rowstart := f.rowstart.set i f.colindex.length }
      (by simpa using hm.row_len i hi) (by show i < f.invdiag.length; omega)
  refine ⟨f', ?_, ?_⟩
  · unfold copyBody
    rw [hmod, vset_eq_some _ _ _ (by omega), Option.some_bind, hidx, Option.some_bind]
    exact hf'
  · refine ⟨hn'.trans hn, hil'.trans hil, ?_, ?_, ?_, ?_, ?_⟩
    · rw [hrs']; simp [hrl]
    · rw [hcol']; show f.colindex ++ _ = copiedCols m (i + 1)
      rw [hcol]; rfl
    · rw [hval']; show f.value ++ _ = copiedVals m (i + 1)
      rw [hval, List.drop_zero]; rfl
    · intro r hr
      show f'.rowstart.getD r 0 = _
      rw [hrs']
      show (f.rowstart.set i f.colindex.length).getD r 0 = _
      by_cases hri : r = i
      · subst hri
        rw [getD_set_self _ _ _ _ (by omega), hcol]
      · rw [getD_set_ne _ _ _ _ _ (fun hh => hri hh.symm)]
        exact hrs r (by omega)
    · intro r hr
      show f'.invdiag.getD r 0 = _
      rw [hid' r]
      by_cases hri : r = i
      · subst hri
        rw [if_pos rfl, if_pos (Nat.lt_succ_self r), List.drop_zero]
        have := hid r hr
        rw [if_neg (Nat.lt_irrefl r)] at this
        show copiedDiag r (m.idx r) (m.vals r) (f.idg r) = _
        rw [this]
      · rw [if_neg hri]
        have := hid r hr
        by_cases hlt : r < i
        · rw [if_pos (by omega)]; rw [if_pos hlt] at this; exact this
        · rw [if_neg (by omega)]; rw [if_neg hlt] at this; exact this

/-- The copy (lines 71-87) of a matrix held in two `n`-row tables, whose sizes fit
`unsigned int`, does not fault, whatever the factor held before, and leaves the pattern
described by `CopyPost`. -/
theorem copyPhase_spec [Zero T] (m : SparseMatrix T) (hm : m.Tables) (hfit : m.Fits)
    (f0 : SparseLowerFactor T) :
    ∃ f1, copyPhase m f0 = some f1 ∧ CopyPost m f0 f1 := by
  have hb := hfit.dim
  have hwrap : (m.n + 1) % 4294967296 = m.n + 1 := Nat.mod_eq_of_lt (by omega)
  obtain ⟨f2, hloop, hn, hil, hrl, hcol, hval, hrs, hid⟩ :=
    forLoop_inv (copyBody m) (CopyInv m (vresize f0.invdiag m.n 0)) m.n 0
      { (f0.resize m.n) with
        value := vresize (f0.resize m.n).value 0 0,
        colindex := vresize (f0.resize m.n).colindex 0 0 }
      ⟨rfl, vresize_length _ _ _, (vresize_length _ _ _).trans hwrap,
        by simp [vresize, copiedCols, concatRows],
        by simp [vresize, copiedVals, concatRows], by intro r hr; omega,
        by intro r _; rw [if_neg (by omega)]; rfl⟩
      (fun i f _ hi hf => copyBody_inv m hm _ i (by omega)
        (lt_of_le_of_lt (copiedCols_length_le m i m.n (by omega)) hfit.entries) f hf)
  rw [Nat.zero_add] at hcol hval hrs hid
  have hmod : f2.colindex.length % 4294967296 = f2.colindex.length :=
    Nat.mod_eq_of_lt (by rw [hcol]; exact hfit.entries)
  refine ⟨{ f2 with rowstart := f2.rowstart.set m.n f2.colindex.length }, ?_, ?_⟩
  · unfold copyPhase
    simp only []
    rw [hloop, Option.some_bind, hmod, vset_eq_some _ _ _ (by omega), Option.some_bind]
  · refine ⟨hn, hil, by simp [hrl], hcol, hval, ?_, ?_⟩
    · intro r hr
      show (f2.rowstart.set m.n f2.colindex.length).getD r 0 = _
      by_cases hrn : r = m.n
      · subst hrn
        rw [getD_set_self _ _ _ _ (by omega), hcol]
      · rw [getD_set_ne _ _ _ _ _ (fun hh => hrn hh.symm)]
        exact hrs r (by omega)
    · intro r hr
      have := hid r hr
      rw [if_pos hr] at this
      exact this

end CopyLoop

/-! ## The merge walk -/

section Merge

variable {T : Type}

theorem set_getD_self {α : Type} (xs : List α) (k : Nat) (d : α) :
    xs.set k (xs.getD k d) = xs := by
  apply List.ext_getElem?
  intro j
  rw [List.getElem?_set]
  by_cases h : k = j
  · subst h
    by_cases h2 : k < xs.length
    · rw [if_pos rfl, if_pos h2, getElem?_eq_some_getD xs k d h2]
    · rw [if_pos rfl, if_neg h2, List.getElem?_eq_none (Nat.le_of_not_lt h2)]
  · rw [if_neg h]

theorem crossSum_left_empty [Field T] (c : Nat → Nat) (v : Nat → T) (a k b e : Nat)
    (h : k ≤ a) : crossSum c v a k b e = 0 := by
  unfold crossSum
  rw [Finset.Ico_eq_empty (by omega)]
  simp

theorem crossSum_right_empty [Field T] (c : Nat → Nat) (v : Nat → T) (a k b e : Nat)
    (h : e ≤ b) : crossSum c v a k b e = 0 := by
  unfold crossSum
  rw [Finset.Ico_eq_empty (show ¬ b < e by omega)]
  simp

theorem crossSum_congr [Field T] (c : Nat → Nat) (v v' : Nat → T) (a k b e : Nat)
    (h1 : ∀ p, a ≤ p → p < k → v' p = v p) (h2 : ∀ q, b ≤ q → q < e → v' q = v q) :
    crossSum c v' a k b e = crossSum c v a k b e := by
  unfold crossSum
  apply Finset.sum_congr rfl
  intro p hp
  rw [Finset.mem_Ico] at hp
  apply Finset.sum_congr rfl
  intro q hq
  rw [Finset.mem_Ico] at hq
  rw [h1 p hp.1 hp.2, h2 q hq.1 hq.2]

theorem crossSum_step_lt [Field T] (c : Nat → Nat) (v : Nat → T) (a k b e : Nat)
    (ha : a < k) (hab : c a < c b) (hq : ∀ q, b < q → q < e → c b < c q) :
    crossSum c v a k b e = crossSum c v (a + 1) k b e := by
  unfold crossSum
  rw [Finset.sum_eq_sum_Ico_succ_bot ha]
  have hz : ∑ q ∈ Finset.Ico b e, (if c a = c q then v a * v q else 0) = 0 := by
    apply Finset.sum_eq_zero
    intro q hq'
    rw [Finset.mem_Ico] at hq'
    have : c a < c q := by
      by_cases hbq : b = q
      · subst hbq; exact hab
      · exact Nat.lt_trans hab (hq q (by omega) hq'.2)
    rw [if_neg (by omega)]
  rw [hz, zero_add]

theorem crossSum_step_gt [Field T] (c : Nat → Nat) (v : Nat → T) (a k b e : Nat)
    (hb : b < e) (hab : c b < c a) (hp : ∀ p, a < p → p < k → c a < c p) :
    crossSum c v a k b e = crossSum c v a k (b + 1) e := by
  unfold crossSum
  apply Finset.sum_congr rfl
  intro p hp'
  rw [Finset.mem_Ico] at hp'
  rw [Finset.sum_eq_sum_Ico_succ_bot hb]
  have : c b < c p := by
    by_cases hap : a = p
    · subst hap; exact hab
    · exact Nat.lt_trans hab (hp p (by omega) hp'.2)
  rw [if_neg (by omega), zero_add]

theorem crossSum_step_eq [Field T] (c : Nat → Nat) (v : Nat → T) (a k b e : Nat)
    (ha : a < k) (hb : b < e) (hab : c a = c b) (hp : ∀ p, a < p → p < k → c a < c p)
    (hq : ∀ q, b < q → q < e → c b < c q) :
    crossSum c v a k b e = v a * v b + crossSum c v (a + 1) k (b + 1) e := by
  unfold crossSum
  rw [Finset.sum_eq_sum_Ico_succ_bot ha, Finset.sum_eq_sum_Ico_succ_bot hb, if_pos hab]
  have hz : ∑ q ∈ Finset.Ico (b + 1) e, (if c a = c q then v a * v q else 0) = 0 := by
    apply Finset.sum_eq_zero
    intro q hq'
    rw [Finset.mem_Ico] at hq'
    have := hq q (by omega) hq'.2
    rw [if_neg (by omega)]
  rw [hz, add_zero]
  congr 1
  apply Finset.sum_congr rfl
  intro p hp'
  rw [Finset.mem_Ico] at hp'
  rw [Finset.sum_eq_sum_Ico_succ_bot hb]
  have := hp p (by omega) hp'.2
  rw [if_neg (by omega), zero_add]

/-- The merge walk does not fault on a well-formed pattern and subtracts from `value[k]` an
amount `acc`; when the two stretches walked are strictly increasing, `acc` is the sum of the
products over the common columns. -/
theorem mergeLoop_spec [Field T] (C : List Nat) (e k : Nat) (hek : e ≤ k)
    (hkC : k < C.length) :
    ∀ (n a b : Nat) (V : List T), (k - a) + (e - b) ≤ n → V.length = C.length →
      ∃ acc, mergeLoop C (some e) k a b V = some (V.set k (V.getD k 0 - acc)) ∧
        ((∀ p q, a ≤ p → p < q → q < k → C.getD p 0 < C.getD q 0) →
          (∀ p q, b ≤ p → p < q → q < e → C.getD p 0 < C.getD q 0) →
          acc = crossSum (fun p => C.getD p 0) (fun p => V.getD p 0) a k b e) := by
  intro n
  induction n with
  | zero =>
    intro a b V hn hV
    refine ⟨0, ?_, ?_⟩
    · rw [mergeLoop, if_neg (by omega), sub_zero, set_getD_self]
    · intro _ _
      rw [crossSum_left_empty _ _ _ _ _ _ (by omega)]
  | succ n ih =>
    intro a b V hn hV
    by_cases ha : a < k
    · by_cases hb : b < e
      · have hCa : C[a]? = some (C.getD a 0) := getElem?_eq_some_getD C a 0 (by omega)
        have hCb : C[b]? = some (C.getD b 0) := getElem?_eq_some_getD C b 0 (by omega)
        have hVk : V[k]? = some (V.getD k 0) := getElem?_eq_some_getD V k 0 (by omega)
        have hVa : V[a]? = some (V.getD a 0) := getElem?_eq_some_getD V a 0 (by omega)
        have hVb : V[b]? = some (V.getD b 0) := getElem?_eq_some_getD V b 0 (by omega)
        by_cases hab : C.getD a 0 = C.getD b 0
        · obtain ⟨acc, hacc, hsum⟩ := ih (a + 1) (b + 1)
            (V.set k (V.getD k 0 - V.getD a 0 * V.getD b 0)) (by omega) (by simpa using hV)
          refine ⟨V.getD a 0 * V.getD b 0 + acc, ?_, ?_⟩
          · rw [mergeLoop, if_pos ha]
            simp only [if_pos hb, hCa, hCb, hVk, hVa, hVb, if_pos hab]
            rw [hacc, getD_set_self _ _ _ _ (by omega), List.set_set, sub_sub]
          · intro h1 h2
            rw [crossSum_step_eq _ _ a k b e ha hb hab
              (fun p hp1 hp2 => h1 a p (Nat.le_refl _) hp1 hp2)
              (fun q hq1 hq2 => h2 b q (Nat.le_refl _) hq1 hq2)]
            rw [hsum (fun p q hp hpq hq => h1 p q (by omega) hpq hq)
              (fun p q hp hpq hq => h2 p q (by omega) hpq hq)]
            congr 1
            apply crossSum_congr
            · intro p _ hp
              exact getD_set_ne _ _ _ _ _ (by omega)
            · intro q _ hq
              exact getD_set_ne _ _ _ _ _ (by omega)
        · by_cases hlt : C.getD a 0 < C.getD b 0
          · obtain ⟨acc, hacc, hsum⟩ := ih (a + 1) b V (by omega) hV
            refine ⟨acc, ?_, ?_⟩
            · rw [mergeLoop, if_pos ha]
              simp only [if_pos hb, hCa, hCb, if_neg hab, if_pos hlt]
              exact hacc
            · intro h1 h2
              rw [crossSum_step_lt _ _ a k b e ha hlt
                (fun q hq1 hq2 => h2 b q (Nat.le_refl _) hq1 hq2)]
              exact hsum (fun p q hp hpq hq => h1 p q (by omega) hpq hq) h2
          · obtain ⟨acc, hacc, hsum⟩ := ih a (b + 1) V (by omega) hV
            refine ⟨acc, ?_, ?_⟩
            · rw [mergeLoop, if_pos ha]
              simp only [if_pos hb, hCa, hCb, if_neg hab, if_neg hlt]
              exact hacc
            · intro h1 h2
              rw [crossSum_step_gt _ _ a k b e hb (by omega)
                (fun p hp1 hp2 => h1 a p (Nat.le_refl _) hp1 hp2)]
              exact hsum h1 (fun p q hp hpq hq => h2 p q (by omega) hpq hq)
      · refine ⟨0, ?_, ?_⟩
        · rw [mergeLoop, if_pos ha]
          simp only [if_neg hb]
          rw [sub_zero, set_getD_self]
        · intro _ _
          rw [crossSum_right_empty _ _ _ _ _ _ (by omega)]
    · refine ⟨0, ?_, ?_⟩
      · rw [mergeLoop, if_neg ha, sub_zero, set_getD_self]
      · intro _ _
        rw [crossSum_left_empty _ _ _ _ _ _ (by omega)]

end Merge

/-! ## The numeric factorization -/

section Numeric

variable {T : Type}

/-- One off-diagonal entry (lines 94-108): no fault, `value[k]` becomes
`(value[k] - acc) · invdiag[j]` and its square leaves the running diagonal. -/
theorem offdiagEntry_spec [LinearOrderedField T] {f : SparseLowerFactor T}
    (h : StorageInv f) (ID V : List T) (d : T) (i k : Nat) (hi : i < f.n)
    (hk1 : f.rs i ≤ k) (hk2 : k < f.rs (i + 1)) (hV : V.length = f.colindex.length)
    (hID : ID.length = f.n) :
    ∃ acc, offdiagEntry f.colindex f.rowstart ID i k (V, d) =
        some (V.set k ((V.getD k 0 - acc) * ID.getD (f.col k) 0),
          d - sqr ((V.getD k 0 - acc) * ID.getD (f.col k) 0)) ∧
      (RowsIncreasing f → acc = crossSum f.col (fun p => V.getD p 0) (f.rs i) k
        (f.rs (f.col k)) (f.rs (f.col k + 1))) := by
  have hkC : k < f.colindex.length :=
    Nat.lt_of_lt_of_le hk2 (h.rs_le_len (i + 1) (by omega))
  have hj : f.col k < i := h.lower i hi k hkC hk1 hk2
  have hek : f.rs (f.col k + 1) ≤ k :=
    Nat.le_trans (h.rs_le i (f.col k + 1) (by omega) (by omega)) hk1
  obtain ⟨acc, hacc, hsum⟩ := mergeLoop_spec f.colindex (f.rs (f.col k + 1)) k hek hkC
    ((k - f.rs i) + (f.rs (f.col k + 1) - f.rs (f.col k))) (f.rs i) (f.rs (f.col k)) V
    (Nat.le_refl _) hV
  refine ⟨acc, ?_, ?_⟩
  · unfold offdiagEntry
    have e1 : f.colindex[k]? = some (f.col k) := getElem?_eq_some_getD _ _ _ hkC
    have e2 : f.rowstart[i]? = some (f.rs i) :=
      getElem?_eq_some_getD _ _ _ (by rw [h.rowstart_len]; omega)
    have e3 : f.rowstart[f.col k]? = some (f.rs (f.col k)) :=
      getElem?_eq_some_getD _ _ _ (by rw [h.rowstart_len]; omega)
    have e4 : f.rowstart[f.col k + 1]? = some (f.rs (f.col k + 1)) :=
      getElem?_eq_some_getD _ _ _ (by rw [h.rowstart_len]; omega)
    have e5 : ID[f.col k]? = some (ID.getD (f.col k) 0) :=
      getElem?_eq_some_getD _ _ _ (by omega)
    have e6 : (V.set k (V.getD k 0 - acc))[k]? = some (V.getD k 0 - acc) := by
      rw [getElem?_eq_some_getD _ _ 0 (by simp; omega), getD_set_self _ _ _ _ (by omega)]
    simp only [e1, Option.some_bind, e2, e3, e4, hacc, e6, e5]
    rw [vset_eq_some _ _ _ (by simp; omega), Option.some_bind, List.set_set]
  · intro hinc
    exact hsum
      (fun p q hp hpq hq => hinc i hi p q hp hpq (by omega))
      (fun p q hp hpq hq => hinc (f.col k) (by omega) p q hp hpq hq)

end Numeric

section NumericRow

variable {T : Type}

theorem StorageInv.col_lt {f : SparseLowerFactor T} (h : StorageInv f) (i p : Nat)
    (hi : i < f.n) (hp1 : f.rs i ≤ p) (hp2 : p < f.rs (i + 1)) : f.col p < i :=
  h.lower i hi p (Nat.lt_of_lt_of_le hp2 (h.rs_le_len (i + 1) (by omega))) hp1 hp2

/-- The products that enter the entry at position `p` of row `i` only read positions below
`p`, so a write at a position `k ≥ p` of the row leaves them as they are. -/
theorem crossSum_set [Field T] {f : SparseLowerFactor T} (h : StorageInv f) (V : List T)
    (k : Nat) (x : T) (i p : Nat) (hi : i < f.n) (hp1 : f.rs i ≤ p) (hp2 : p ≤ k)
    (hk : k < f.rs (i + 1)) :
    crossSum f.col (fun q => (V.set k x).getD q 0) (f.rs i) p
        (f.rs (f.col p)) (f.rs (f.col p + 1)) =
      crossSum f.col (fun q => V.getD q 0) (f.rs i) p
        (f.rs (f.col p)) (f.rs (f.col p + 1)) := by
  have hc : f.col p < i := h.col_lt i p hi hp1 (by omega)
  have hle : f.rs (f.col p + 1) ≤ f.rs i := h.rs_le i (f.col p + 1) (by omega) (by omega)
  apply crossSum_congr
  · intro q _ hq
    exact getD_set_ne _ _ _ _ _ (by omega)
  · intro q _ hq
    exact getD_set_ne _ _ _ _ _ (by omega)

/-- The loop over the off-diagonal entries of row `i` (lines 93-109). -/
theorem offdiagLoop_spec [LinearOrderedField T] {f : SparseLowerFactor T}
    (h : StorageInv f) (ID V : List T) (d0 : T) (i : Nat) (hi : i < f.n)
    (hV : V.length = f.colindex.length) (hID : ID.length = f.n)
    (hV0 : ∀ p, f.rs i ≤ p → V.getD p 0 = f.val p) :
    ∃ V' d', forLoop (offdiagEntry f.colindex f.rowstart ID i) (f.rs (i + 1) - f.rs i)
        (f.rs i) (V, d0) = some (V', d') ∧
      V'.length = f.colindex.length ∧
      (∀ p, (p < f.rs i ∨ f.rs (i + 1) ≤ p) → V'.getD p 0 = V.getD p 0) ∧
      d' = d0 - ∑ p ∈ Finset.Ico (f.rs i) (f.rs (i + 1)), sqr (V'.getD p 0) ∧
      (RowsIncreasing f → ∀ p, f.rs i ≤ p → p < f.rs (i + 1) →
        EntryRule f (fun q => V'.getD q 0) (fun r => ID.getD r 0) i p) := by
  have hmono := h.mono i hi
  obtain ⟨st, hst, hP⟩ := forLoop_inv (offdiagEntry f.colindex f.rowstart ID i)
    (fun k st => st.1.length = f.colindex.length ∧
      (∀ p, (p < f.rs i ∨ k ≤ p) → st.1.getD p 0 = V.getD p 0) ∧
      st.2 = d0 - ∑ p ∈ Finset.Ico (f.rs i) k, sqr (st.1.getD p 0) ∧
      (RowsIncreasing f → ∀ p, f.rs i ≤ p → p < k →
        EntryRule f (fun q => st.1.getD q 0) (fun r => ID.getD r 0) i p))
    (f.rs (i + 1) - f.rs i) (f.rs i) (V, d0)
    ⟨hV, fun _ _ => rfl, by simp, fun _ p hp1 hp2 => by omega⟩
    (by
      rintro k ⟨V', d'⟩ hk1 hk2 ⟨hlen, hframe, hd, hrule⟩
      dsimp only at hlen hframe hd hrule
      have hk3 : k < f.rs (i + 1) := by omega
      have hkC : k < f.colindex.length :=
        Nat.lt_of_lt_of_le hk3 (h.rs_le_len (i + 1) (by omega))
      obtain ⟨acc, hstep, hacc⟩ := offdiagEntry_spec h ID V' d' i k hi hk1 hk3 hlen hID
      refine ⟨_, hstep, ?_, ?_, ?_, ?_⟩
      · simp [hlen]
      · intro p hp
        show (V'.set k _).getD p 0 = _
        rw [getD_set_ne _ _ _ _ _ (by omega)]
        exact hframe p (by omega)
      · dsimp only
        rw [Finset.sum_Ico_succ_top hk1, hd, getD_set_self _ _ _ _ (by omega)]
        have : ∑ p ∈ Finset.Ico (f.rs i) k,
            sqr ((V'.set k ((V'.getD k 0 - acc) * ID.getD (f.col k) 0)).getD p 0) =
            ∑ p ∈ Finset.Ico (f.rs i) k, sqr (V'.getD p 0) := by
          apply Finset.sum_congr rfl
          intro p hp
          rw [Finset.mem_Ico] at hp
          rw [getD_set_ne _ _ _ _ _ (by omega)]
        rw [this, sub_sub]
      · intro hinc p hp1 hp2
        unfold EntryRule
        show (V'.set k _).getD p 0 = _
        rw [crossSum_set h V' k _ i p hi hp1 (by omega) hk3]
        by_cases hpk : p = k
        · subst hpk
          rw [getD_set_self _ _ _ _ (by omega), hacc hinc,
            hframe p (Or.inr (Nat.le_refl _)), hV0 p hp1]
        · rw [getD_set_ne _ _ _ _ _ (fun hh => hpk hh.symm)]
          exact hrule hinc p hp1 (by omega))
  obtain ⟨V', d'⟩ := st
  have hend : f.rs i + (f.rs (i + 1) - f.rs i) = f.rs (i + 1) := by omega
  rw [hend] at hP
  exact ⟨V', d', hst, hP.1, hP.2.1, hP.2.2.1, hP.2.2.2⟩

end NumericRow

section NumericLoop

variable {T : Type}

theorem pivotResidual_congr [Field T] (f : SparseLowerFactor T) (v v' : Nat → T) (i : Nat)
    (hv : ∀ p, f.rs i ≤ p → p < f.rs (i + 1) → v' p = v p) :
    pivotResidual f v' i = pivotResidual f v i := by
  unfold pivotResidual
  congr 1
  apply Finset.sum_congr rfl
  intro p hp
  rw [Finset.mem_Ico] at hp
  rw [hv p hp.1 hp.2]

theorem RowPost_congr [LinearOrderedField T] (sqrt : T → T) (ratioMin : T)
    {f : SparseLowerFactor T} (h : StorageInv f) (v v' id id' : Nat → T) (r : Nat)
    (hr : r < f.n) (hv : ∀ p, p < f.rs (r + 1) → v' p = v p)
    (hid : ∀ s, s ≤ r → id' s = id s) (hpost : RowPost sqrt ratioMin f v id r) :
    RowPost sqrt ratioMin f v' id' r := by
  have hres : pivotResidual f v' r = pivotResidual f v r :=
    pivotResidual_congr f v v' r (fun p _ hp => hv p hp)
  refine ⟨?_, ?_⟩
  · intro hz
    obtain ⟨h1, h2⟩ := hpost.1 hz
    refine ⟨by rw [hid r (Nat.le_refl _)]; exact h1, ?_⟩
    intro p hp1 hp2
    rw [hv p hp2]; exact h2 p hp1 hp2
  · intro hnz
    obtain ⟨h1, h2⟩ := hpost.2 hnz
    refine ⟨by rw [hid r (Nat.le_refl _), hres]; exact h1, ?_⟩
    intro hinc p hp1 hp2
    have hc : f.col p < r := h.col_lt r p hr hp1 hp2
    have hle : f.rs (f.col p + 1) ≤ f.rs r := h.rs_le r (f.col p + 1) (by omega) (by omega)
    have hmono := h.mono r hr
    have := h2 hinc p hp1 hp2
    unfold EntryRule at this ⊢
    rw [hv p hp2, hid (f.col p) (by omega), this]
    congr 2
    symm
    apply crossSum_congr
    · intro q _ hq; exact hv q (by omega)
    · intro q _ hq; exact hv q (by omega)

theorem smallPivotRows_congr [LinearOrderedField T] (ratioMin : T)
    {f : SparseLowerFactor T} (h : StorageInv f) (v v' : Nat → T) (i : Nat) (hi : i ≤ f.n)
    (hv : ∀ p, p < f.rs i → v' p = v p) :
    smallPivotRows ratioMin f v' i = smallPivotRows ratioMin f v i := by
  unfold smallPivotRows
  apply Finset.filter_congr
  intro r hr
  rw [Finset.mem_range] at hr
  have hle : f.rs (r + 1) ≤ f.rs i := h.rs_le i (r + 1) (by omega) hi
  rw [pivotResidual_congr f v v' r (fun p _ hp => hv p (by omega))]

theorem smallPivotRows_card_succ [LinearOrderedField T] (ratioMin : T)
    (f : SparseLowerFactor T) (v : Nat → T) (i : Nat) :
    (smallPivotRows ratioMin f v (i + 1)).card =
      (smallPivotRows ratioMin f v i).card +
        (if f.idg i ≠ 0 ∧ pivotResidual f v i < ratioMin * f.idg i then 1 else 0) := by
  unfold smallPivotRows
  rw [Finset.range_succ, Finset.filter_insert]
  by_cases hc : f.idg i ≠ 0 ∧ pivotResidual f v i < ratioMin * f.idg i
  · rw [if_pos hc, if_pos hc, Finset.card_insert_of_not_mem]
    simp
  · rw [if_neg hc, if_neg hc, Nat.add_zero]

/-- One pass of the numeric loop (lines 90-115) carries `NumericInv` from `i` to `i+1` and does
not fault. -/
theorem factorRow_inv [LinearOrderedField T] (sqrt : T → T) (ratioMin : T)
    {f : SparseLowerFactor T} (h : StorageInv f) (i : Nat) (hi : i < f.n)
    (st : List T × List T × Nat) (hst : NumericInv sqrt ratioMin f i st) :
    ∃ st', factorRow sqrt ratioMin f.colindex f.rowstart i st = some st' ∧
      NumericInv sqrt ratioMin f (i + 1) st' := by
  obtain ⟨V, ID, cnt⟩ := st
  obtain ⟨hV, hID, hV0, hID0, hrows, hcnt⟩ := hst
  dsimp only at hV hID hV0 hID0 hrows hcnt
  have hmono := h.mono i hi
  have hDi : ID.getD i 0 = f.idg i := hID0 i (Nat.le_refl _)
  have e1 : ID[i]? = some (f.idg i) := by
    rw [getElem?_eq_some_getD ID i 0 (by omega), hDi]
  by_cases hD : f.idg i = 0
  · refine ⟨(V, ID, cnt), ?_, ?_⟩
    · unfold factorRow
      simp only [e1, Option.some_bind, if_pos hD]
    · refine ⟨hV, hID, fun p hp => hV0 p (by omega), fun r hr => hID0 r (by omega), ?_, ?_⟩
      · intro r hr
        by_cases hri : r = i
        · subst hri
          exact ⟨fun _ => ⟨by show ID.getD r 0 = 0; rw [hDi]; exact hD,
            fun p hp1 _ => hV0 p hp1⟩, fun hnz => absurd hD hnz⟩
        · exact hrows r (by omega)
      · dsimp only
        rw [smallPivotRows_card_succ, if_neg (fun hc => hc.1 hD), Nat.add_zero]
        exact hcnt
  · obtain ⟨V', d', hloop, hV', hframe, hd', hrule⟩ :=
      offdiagLoop_spec h ID V (f.idg i) i hi hV hID hV0
    have e2 : f.rowstart[i]? = some (f.rs i) :=
      getElem?_eq_some_getD _ _ _ (by rw [h.rowstart_len]; omega)
    have e3 : f.rowstart[i + 1]? = some (f.rs (i + 1)) :=
      getElem?_eq_some_getD _ _ _ (by rw [h.rowstart_len]; omega)
    have hres : pivotResidual f (fun p => V'.getD p 0) i = d' := by
      rw [hd']; rfl
    refine ⟨(V', ID.set i (1 / sqrt (if d' < ratioMin * f.idg i then f.idg i else d')),
      if d' < ratioMin * f.idg i then cnt + 1 else cnt), ?_, ?_⟩
    · unfold factorRow
      simp only [e1, Option.some_bind, if_neg hD, e2, e3, hloop,
        vset_eq_some _ _ _ (show i < ID.length by omega)]
      by_cases hs : d' < ratioMin * f.idg i
      · simp [hs]
      · simp [hs]
    · refine ⟨hV', by simp [hID], ?_, ?_, ?_, ?_⟩
      · intro p hp
        show V'.getD p 0 = _
        rw [hframe p (Or.inr hp)]
        exact hV0 p (by omega)
      · intro r hr
        show (ID.set i _).getD r 0 = _
        rw [getD_set_ne _ _ _ _ _ (by omega)]
        exact hID0 r (by omega)
      · intro r hr
        by_cases hri : r = i
        · subst hri
          refine ⟨fun hz => absurd hz hD, fun _ => ⟨?_, ?_⟩⟩
          · show (ID.set r _).getD r 0 = _
            rw [getD_set_self _ _ _ _ (by omega), hres]
          · intro hinc p hp1 hp2
            have hc : f.col p < r := h.col_lt r p hi hp1 hp2
            have := hrule hinc p hp1 hp2
            unfold EntryRule at this ⊢
            show V'.getD p 0 = _ * (ID.set r _).getD (f.col p) 0
            rw [getD_set_ne _ _ _ _ _ (by omega)]
            exact this
        · have hri' : r < i := by omega
          have hle : f.rs (r + 1) ≤ f.rs i := h.rs_le i (r + 1) (by omega) (by omega)
          apply RowPost_congr sqrt ratioMin h (fun p => V.getD p 0) _
            (fun r => ID.getD r 0) _ r (by omega) _ _ (hrows r hri')
          · intro p hp
            exact hframe p (Or.inl (by omega))
          · intro s hs
            show (ID.set i _).getD s 0 = _
            rw [getD_set_ne _ _ _ _ _ (by omega)]
      · dsimp only
        rw [smallPivotRows_card_succ, hres,
          smallPivotRows_congr ratioMin h (fun p => V.getD p 0) _ i (by omega)
            (fun p hp => hframe p (Or.inl hp)), ← hcnt]
        by_cases hs : d' < ratioMin * f.idg i
        · rw [if_pos hs, if_pos ⟨hD, hs⟩]
        · rw [if_neg hs, if_neg (fun hc => hs hc.2), Nat.add_zero]

/-- The numeric factorization (lines 86-116) of a factor that satisfies the storage invariant
does not fault, and its result is described by `NumericPost`. -/
theorem numericPhase_spec [LinearOrderedField T] (sqrt : T → T) (ratioMin : T)
    {f : SparseLowerFactor T} (h : StorageInv f) :
    ∃ F c, numericPhase sqrt ratioMin f = some (F, c) ∧ NumericPost sqrt ratioMin f F c := by
  obtain ⟨st, hloop, hV, hID, _, _, hrows, hcnt⟩ :=
    forLoop_inv (factorRow sqrt ratioMin f.colindex f.rowstart)
      (NumericInv sqrt ratioMin f) f.n 0 (f.value, f.invdiag, 0)
      ⟨h.value_len, h.invdiag_len, fun _ _ => rfl, fun _ _ => rfl,
        fun r hr => by omega, by simp [smallPivotRows]⟩
      (fun i st _ hi hst => factorRow_inv sqrt ratioMin h i (by omega) st hst)
  rw [Nat.zero_add] at hrows hcnt
  refine ⟨{ f with value := st.1, invdiag := st.2.1 }, st.2.2, ?_, ?_⟩
  · unfold numericPhase
    rw [hloop, Option.some_bind]
  · exact ⟨rfl, rfl, rfl, hV, hID, hrows, hcnt⟩

end NumericLoop

/-! ## The copied pattern -/

section Pattern

variable {T : Type}

theorem concatRows_getD {α : Type} (g : Nat → List α) (d : α) :
    ∀ (s i t : Nat), i < s → t < (g i).length →
      (concatRows g s).getD ((concatRows g i).length + t) d = (g i).getD t d := by
  intro s
  induction s with
  | zero => intro i t hi _; omega
  | succ s ih =>
    intro i t hi ht
    rw [concatRows_succ]
    by_cases his : i = s
    · subst his
      rw [List.getD_append_right _ _ _ _ (by omega)]
      congr 1
      omega
    · have h1 : (concatRows g (i + 1)).length ≤ (concatRows g s).length :=
        concatRows_length_le g s (i + 1) (by omega)
      rw [concatRows_succ, List.length_append] at h1
      rw [List.getD_append _ _ _ _ (by omega)]
      exact ih i t (by omega) ht

theorem concatRows_slice {α : Type} (g : Nat → List α) :
    ∀ (s i : Nat), i < s →
      ((concatRows g s).drop (concatRows g i).length).take
        ((concatRows g (i + 1)).length - (concatRows g i).length) = g i := by
  intro s
  induction s with
  | zero => intro i hi; omega
  | succ s ih =>
    intro i hi
    by_cases his : i = s
    · subst his
      rw [concatRows_succ, List.drop_left, List.length_append, Nat.add_sub_cancel_left,
        List.take_length]
    · have h1 : (concatRows g (i + 1)).length ≤ (concatRows g s).length :=
        concatRows_length_le g s (i + 1) (by omega)
      have h0 : (concatRows g i).length ≤ (concatRows g (i + 1)).length :=
        concatRows_length_le g (i + 1) i (by omega)
      have := ih i (by omega)
      rw [concatRows_succ g s, List.drop_append_of_le_length (by omega),
        List.take_append_of_le_length (by rw [List.length_drop]; omega)]
      exact this

theorem lowerCols_lt (i : Nat) : ∀ (idx : List Nat), ∀ c ∈ lowerCols i idx, c < i := by
  intro idx
  induction idx with
  | nil => intro c hc; simp [lowerCols] at hc
  | cons a rest ih =>
    intro c hc
    unfold lowerCols at hc
    by_cases h1 : a < i
    · rw [if_pos h1] at hc
      rcases List.mem_cons.mp hc with h | h
      · rw [h]; exact h1
      · exact ih c h
    · rw [if_neg h1] at hc
      by_cases h2 : a = i
      · rw [if_pos h2] at hc; exact ih c hc
      · rw [if_neg h2] at hc; simp at hc

theorem lowerCols_sublist (i : Nat) : ∀ (idx : List Nat), (lowerCols i idx).Sublist idx := by
  intro idx
  induction idx with
  | nil => simp [lowerCols]
  | cons a rest ih =>
    unfold lowerCols
    by_cases h1 : a < i
    · rw [if_pos h1]; exact ih.cons₂ a
    · rw [if_neg h1]
      by_cases h2 : a = i
      · rw [if_pos h2]; exact ih.cons a
      · rw [if_neg h2]; exact List.nil_sublist _

theorem lowerVals_length (i : Nat) : ∀ (idx : List Nat) (vals : List T),
    vals.length = idx.length → (lowerVals i idx vals).length = (lowerCols i idx).length := by
  intro idx
  induction idx with
  | nil => intro vals _; cases vals <;> simp [lowerVals, lowerCols]
  | cons a rest ih =>
    intro vals hlen
    cases vals with
    | nil => simp at hlen
    | cons v vs =>
      have hl : vs.length = rest.length := by simpa using hlen
      unfold lowerVals lowerCols
      by_cases h1 : a < i
      · rw [if_pos h1, if_pos h1, List.length_cons, List.length_cons, ih vs hl]
      · rw [if_neg h1, if_neg h1]
        by_cases h2 : a = i
        · rw [if_pos h2, if_pos h2]; exact ih vs hl
        · rw [if_neg h2, if_neg h2]; rfl

theorem copiedVals_length (m : SparseMatrix T) (hm : m.Tables) :
    ∀ r, r ≤ m.n → (copiedVals m r).length = (copiedCols m r).length := by
  intro r
  induction r with
  | zero => intro _; rfl
  | succ r ih =>
    intro hr
    show (concatRows _ (r + 1)).length = (concatRows _ (r + 1)).length
    rw [concatRows_succ, concatRows_succ, List.length_append, List.length_append]
    have := ih (by omega)
    unfold copiedVals copiedCols at this
    rw [this, lowerVals_length r _ _ (hm.row_len r (by omega))]

/-- The copied factor satisfies the storage invariant. -/
theorem CopyPost.copied_storageInv [Zero T] {m : SparseMatrix T} {f0 f1 : SparseLowerFactor T}
    (hm : m.Tables) (h : CopyPost m f0 f1) : StorageInv f1 := by
  have hvl : f1.value.length = f1.colindex.length := by
    rw [h.value_eq, h.colindex_eq]; exact copiedVals_length m hm m.n (Nat.le_refl _)
  refine ⟨by rw [h.invdiag_len, h.n_eq], by rw [h.rowstart_len, h.n_eq], hvl, ?_, ?_, ?_⟩
  · rw [h.n_eq, h.rs_eq m.n (Nat.le_refl _), hvl, h.colindex_eq]
  · intro i hi
    rw [h.n_eq] at hi
    rw [h.rs_eq i (by omega), h.rs_eq (i + 1) (by omega)]
    exact concatRows_length_le _ (i + 1) i (by omega)
  · intro i hi k _ hk1 hk2
    rw [h.n_eq] at hi
    rw [h.rs_eq i (by omega)] at hk1
    rw [h.rs_eq (i + 1) (by omega)] at hk2
    have hk2' : k < (copiedCols m i).length + (lowerCols i (m.idx i)).length := by
      have : (copiedCols m (i + 1)).length =
          (copiedCols m i).length + (lowerCols i (m.idx i)).length := by
        show (concatRows _ (i + 1)).length = _
        rw [concatRows_succ, List.length_append]; rfl
      omega
    have hcol : f1.col k = (lowerCols i (m.idx i)).getD (k - (copiedCols m i).length) 0 := by
      show f1.colindex.getD k 0 = _
      rw [h.colindex_eq]
      have := concatRows_getD (fun i => lowerCols i (m.idx i)) 0 m.n i
        (k - (copiedCols m i).length) hi
        (show k - (copiedCols m i).length < (lowerCols i (m.idx i)).length by omega)
      rw [← this]
      congr 1
      show k = (copiedCols m i).length + _
      omega
    rw [hcol, List.getD_eq_getElem _ _ (by omega)]
    exact lowerCols_lt i _ _ (List.getElem_mem _)

end Pattern

section SortedRows

variable {T : Type}

theorem concatRows_length_sum {α : Type} (g : Nat → List α) :
    ∀ r, (concatRows g r).length = ∑ i ∈ Finset.range r, (g i).length := by
  intro r
  induction r with
  | zero => rfl
  | succ r ih => rw [concatRows_succ, List.length_append, ih, Finset.sum_range_succ]

theorem lowerCols_eq_nil_of_lt (i : Nat) (idx : List Nat) (h : ∀ c ∈ idx, i < c) :
    lowerCols i idx = [] := by
  cases idx with
  | nil => rfl
  | cons a rest =>
    have := h a (List.mem_cons_self _ _)
    unfold lowerCols
    rw [if_neg (by omega), if_neg (by omega)]

theorem copiedDiag_eq_of_lt (i : Nat) (idx : List Nat) (vals : List T) (d : T)
    (h : ∀ c ∈ idx, i < c) : copiedDiag i idx vals d = d := by
  cases idx with
  | nil => cases vals <;> rfl
  | cons a rest =>
    have := h a (List.mem_cons_self _ _)
    cases vals with
    | nil => rfl
    | cons v vs =>
      unfold copiedDiag
      rw [if_neg (by omega), if_neg (by omega)]

/-- On a strictly increasing row the scan copies exactly the columns below `i`. -/
theorem lowerCols_eq_filter (i : Nat) : ∀ (idx : List Nat), idx.Pairwise (· < ·) →
    lowerCols i idx = idx.filter (fun c => decide (c < i)) := by
  intro idx
  induction idx with
  | nil => intro _; rfl
  | cons a rest ih =>
    intro hp
    rw [List.pairwise_cons] at hp
    unfold lowerCols
    by_cases h1 : a < i
    · rw [if_pos h1, List.filter_cons_of_pos (by simpa using h1), ih hp.2]
    · rw [if_neg h1, List.filter_cons_of_neg (by simpa using h1)]
      by_cases h2 : a = i
      · rw [if_pos h2]; exact ih hp.2
      · rw [if_neg h2]
        symm
        rw [List.filter_eq_nil_iff]
        intro c hc
        have := hp.1 c hc
        simp only [decide_eq_true_eq]
        omega

/-- On a strictly increasing row, an entry at position `t` with a column below `i` is copied
to position `t` of the row of the factor, with its value. -/
theorem lower_at_of_sorted (i : Nat) : ∀ (idx : List Nat) (vals : List T) (d0 : T),
    idx.Pairwise (· < ·) → vals.length = idx.length →
    ∀ t, t < idx.length → idx.getD t 0 < i →
      t < (lowerCols i idx).length ∧ (lowerCols i idx).getD t 0 = idx.getD t 0 ∧
        (lowerVals i idx vals).getD t d0 = vals.getD t d0 := by
  intro idx
  induction idx with
  | nil => intro vals d0 _ _ t ht; simp at ht
  | cons a rest ih =>
    intro vals d0 hp hlen t ht hlt
    rw [List.pairwise_cons] at hp
    cases vals with
    | nil => simp at hlen
    | cons v vs =>
      have hl : vs.length = rest.length := by simpa using hlen
      have ha : a < i := by
        cases t with
        | zero => simpa using hlt
        | succ t =>
          have h1 : t < rest.length := by simpa using ht
          have h2 : rest.getD t 0 < i := by simpa using hlt
          have h3 : rest.getD t 0 ∈ rest := by
            rw [List.getD_eq_getElem _ _ h1]; exact List.getElem_mem _
          have := hp.1 _ h3
          omega
      unfold lowerCols lowerVals
      rw [if_pos ha, if_pos ha]
      cases t with
      | zero => simp
      | succ t =>
        have h1 : t < rest.length := by simpa using ht
        obtain ⟨h4, h5, h6⟩ := ih vs d0 hp.2 hl t h1 (by simpa using hlt)
        refine ⟨by simpa using h4, by simpa using h5, by simpa using h6⟩

/-- On a strictly increasing row that stores column `i` at position `t`, the scan leaves the
value at position `t` in `invdiag[i]`. -/
theorem diag_at_of_sorted (i : Nat) : ∀ (idx : List Nat) (vals : List T) (d d0 : T),
    idx.Pairwise (· < ·) → vals.length = idx.length →
    ∀ t, t < idx.length → idx.getD t 0 = i → copiedDiag i idx vals d = vals.getD t d0 := by
  intro idx
  induction idx with
  | nil => intro vals d d0 _ _ t ht; simp at ht
  | cons a rest ih =>
    intro vals d d0 hp hlen t ht heq
    rw [List.pairwise_cons] at hp
    cases vals with
    | nil => simp at hlen
    | cons v vs =>
      have hl : vs.length = rest.length := by simpa using hlen
      cases t with
      | zero =>
        have ha : a = i := by simpa using heq
        unfold copiedDiag
        rw [if_neg (by omega), if_pos ha,
          copiedDiag_eq_of_lt i rest vs v (fun c hc => by have := hp.1 c hc; omega)]
        simp
      | succ t =>
        have h1 : t < rest.length := by simpa using ht
        have h2 : rest.getD t 0 = i := by simpa using heq
        have h3 : rest.getD t 0 ∈ rest := by
          rw [List.getD_eq_getElem _ _ h1]; exact List.getElem_mem _
        have ha : a < i := by have := hp.1 _ h3; omega
        unfold copiedDiag
        rw [if_pos ha, ih vs d d0 hp.2 hl t h1 h2]
        simp

/-- The factor copied from a matrix with strictly increasing rows has strictly increasing
rows. -/
theorem CopyPost.copied_rowsIncreasing [Zero T] {m : SparseMatrix T} {f0 f1 : SparseLowerFactor T}
    (hs : m.RowsSorted) (h : CopyPost m f0 f1) : RowsIncreasing f1 := by
  intro i hi p q hp hpq hq
  rw [h.n_eq] at hi
  rw [h.rs_eq i (by omega)] at hp
  rw [h.rs_eq (i + 1) (by omega)] at hq
  have hlen : (copiedCols m (i + 1)).length =
      (copiedCols m i).length + (lowerCols i (m.idx i)).length := by
    show (concatRows _ (i + 1)).length = _
    rw [concatRows_succ, List.length_append]; rfl
  have hcol : ∀ k, (copiedCols m i).length ≤ k → k < (copiedCols m (i + 1)).length →
      f1.col k = (lowerCols i (m.idx i)).getD (k - (copiedCols m i).length) 0 := by
    intro k hk1 hk2
    show f1.colindex.getD k 0 = _
    rw [h.colindex_eq]
    have := concatRows_getD (fun i => lowerCols i (m.idx i)) 0 m.n i
      (k - (copiedCols m i).length) hi
      (show k - (copiedCols m i).length < (lowerCols i (m.idx i)).length by omega)
    rw [← this]
    congr 1
    show k = (copiedCols m i).length + _
    omega
  rw [hcol p hp (by omega), hcol q (by omega) hq,
    List.getD_eq_getElem _ _ (by omega), List.getD_eq_getElem _ _ (by omega)]
  have hpw : (lowerCols i (m.idx i)).Pairwise (· < ·) :=
    List.Pairwise.sublist (lowerCols_sublist i _) (hs i hi)
  exact List.pairwise_iff_getElem.mp hpw _ _ _ _ (by omega)

/-- The two phases together: on a matrix held in two `n`-row tables the factorization returns,
whatever the factor held before. -/
theorem factor_spec [LinearOrderedField T] (sqrt : T → T) (m : SparseMatrix T)
    (f0 : SparseLowerFactor T) (ratioMin : T) (hm : m.Tables) (hfit : m.Fits) :
    ∃ f1 F c, CopyPost m f0 f1 ∧ StorageInv f1 ∧
      factor_incomplete_cholesky0 sqrt m f0 ratioMin = some (F, c) ∧
      NumericPost sqrt ratioMin f1 F c := by
  obtain ⟨f1, hcopy, hpost⟩ := copyPhase_spec m hm hfit f0
  have hinv := hpost.copied_storageInv hm
  obtain ⟨F, c, hnum, hnp⟩ := numericPhase_spec sqrt ratioMin hinv
  refine ⟨f1, F, c, hpost, hinv, ?_, hnp⟩
  unfold factor_incomplete_cholesky0
  rw [hcopy, Option.some_bind]
  exact hnum

end SortedRows

/-! ## The factorization: pattern, invariant, pivots -/

section FactorClaims

variable {T : Type}

theorem NumericPost.numeric_rs_eq [LinearOrderedField T] {sqrt : T → T} {ratioMin : T}
    {f F : SparseLowerFactor T} {c : Nat} (h : NumericPost sqrt ratioMin f F c) (i : Nat) :
    F.rs i = f.rs i := by
  show F.rowstart.getD i 0 = f.rowstart.getD i 0
  rw [h.rowstart_eq]

theorem NumericPost.numeric_col_eq [LinearOrderedField T] {sqrt : T → T} {ratioMin : T}
    {f F : SparseLowerFactor T} {c : Nat} (h : NumericPost sqrt ratioMin f F c) (k : Nat) :
    F.col k = f.col k := by
  show F.colindex.getD k 0 = f.colindex.getD k 0
  rw [h.colindex_eq]

theorem NumericPost.numeric_storageInv [LinearOrderedField T] {sqrt : T → T} {ratioMin : T}
    {f F : SparseLowerFactor T} {c : Nat} (h : NumericPost sqrt ratioMin f F c)
    (hf : StorageInv f) : StorageInv F := by
  refine ⟨by rw [h.invdiag_len, h.n_eq], by rw [h.rowstart_eq, hf.rowstart_len, h.n_eq],
    by rw [h.value_len, h.colindex_eq], ?_, ?_, ?_⟩
  · rw [h.numeric_rs_eq, h.n_eq, hf.rowstart_end, hf.value_len, h.value_len]
  · intro i hi
    rw [h.numeric_rs_eq, h.numeric_rs_eq]; exact hf.mono i (by rw [← h.n_eq]; exact hi)
  · intro i hi k hk hk1 hk2
    rw [h.numeric_rs_eq] at hk1 hk2
    rw [h.numeric_col_eq]
    exact hf.lower i (by rw [← h.n_eq]; exact hi) k (by rw [← h.colindex_eq]; exact hk) hk1 hk2

theorem NumericPost.numeric_rowsIncreasing [LinearOrderedField T] {sqrt : T → T} {ratioMin : T}
    {f F : SparseLowerFactor T} {c : Nat} (h : NumericPost sqrt ratioMin f F c)
    (hf : RowsIncreasing f) : RowsIncreasing F := by
  intro i hi p q hp hpq hq
  rw [h.numeric_rs_eq] at hp hq
  rw [h.numeric_col_eq, h.numeric_col_eq]
  exact hf i (by rw [← h.n_eq]; exact hi) p q hp hpq hq

theorem NumericPost.residual_eq [LinearOrderedField T] {sqrt : T → T} {ratioMin : T}
    {f F : SparseLowerFactor T} {c : Nat} (h : NumericPost sqrt ratioMin f F c) (i : Nat) :
    pivotResidual f F.val i = rowResidual (f.idg i) F i := by
  unfold pivotResidual rowResidual
  rw [h.numeric_rs_eq, h.numeric_rs_eq]

/-- C3 (as amended): on an `n×n` matrix with strictly increasing rows whose sizes fit
`unsigned int` the factorization returns a factor of dimension `n` in which `rowstart[i]`
counts the entries with column below the row over the rows `0 .. i-1` (for every `i ≤ n`, so
`rowstart[n]` is the size of `colindex` and of `value`),
and the columns stored in `[rowstart[i], rowstart[i+1])` are the columns of row `i` of the
matrix that are below `i`, in their order. -/
theorem factor_pattern_copy [LinearOrderedField T] (sqrt : T → T) (matrix : SparseMatrix T)
    (factor : SparseLowerFactor T) (min_diagonal_ratio : T) (hm : matrix.Tables)
    (hfit : matrix.Fits)
    (hs : matrix.RowsSorted) :
    ∃ F c, factor_incomplete_cholesky0 sqrt matrix factor min_diagonal_ratio = some (F, c) ∧
      F.n = matrix.n ∧
      (∀ i ≤ matrix.n, F.rs i =
        ∑ r ∈ Finset.range i, ((matrix.idx r).filter (fun c => decide (c < r))).length) ∧
      F.rs matrix.n = F.colindex.length ∧ F.colindex.length = F.value.length ∧
      ∀ i < matrix.n, (F.colindex.drop (F.rs i)).take (F.rs (i + 1) - F.rs i) =
        (matrix.idx i).filter (fun c => decide (c < i)) := by
  obtain ⟨f1, F, c, hcp, hinv, hfac, hnp⟩ :=
    factor_spec sqrt matrix factor min_diagonal_ratio hm hfit
  have hF := hnp.numeric_storageInv hinv
  have hrs : ∀ i ≤ matrix.n, F.rs i = (copiedCols matrix i).length := by
    intro i hi; rw [hnp.numeric_rs_eq, hcp.rs_eq i hi]
  refine ⟨F, c, hfac, by rw [hnp.n_eq, hcp.n_eq], ?_, ?_, ?_, ?_⟩
  · intro i hi
    rw [hrs i hi]
    show (concatRows _ i).length = _
    rw [concatRows_length_sum]
    apply Finset.sum_congr rfl
    intro r hr
    rw [Finset.mem_range] at hr
    show (lowerCols r (matrix.idx r)).length = _
    rw [lowerCols_eq_filter r _ (hs r (by omega))]
  · rw [hrs matrix.n (Nat.le_refl _), hnp.colindex_eq, hcp.colindex_eq]
  · exact hF.value_len.symm
  · intro i hi
    rw [hrs i (by omega), hrs (i + 1) (by omega), hnp.colindex_eq, hcp.colindex_eq]
    have := concatRows_slice (fun i => lowerCols i (matrix.idx i)) matrix.n i hi
    show ((concatRows _ matrix.n).drop (concatRows _ i).length).take
      ((concatRows _ (i + 1)).length - (concatRows _ i).length) = _
    rw [this]
    exact lowerCols_eq_filter i _ (hs i hi)

/-- C4 (as amended): on a matrix with strictly increasing rows whose sizes fit `unsigned int`
the factorization returns, and the returned factor has, in every row `i`, the columns stored
in `[rowstart[i], rowstart[i+1])` strictly increasing and below `i`, `rowstart` non-decreasing
with `rowstart[0] = 0`, and `value`, `colindex` of size `rowstart[n]`. -/
theorem factor_storage_invariant [LinearOrderedField T] (sqrt : T → T)
    (matrix : SparseMatrix T) (factor : SparseLowerFactor T) (min_diagonal_ratio : T)
    (hm : matrix.Tables) (hfit : matrix.Fits) (hs : matrix.RowsSorted) :
    ∃ F c, factor_incomplete_cholesky0 sqrt matrix factor min_diagonal_ratio = some (F, c) ∧
      F.n = matrix.n ∧ F.rowstart.length = matrix.n + 1 ∧
      (∀ i < matrix.n,
        (∀ p q, F.rs i ≤ p → p < q → q < F.rs (i + 1) → F.col p < F.col q) ∧
        (∀ p, F.rs i ≤ p → p < F.rs (i + 1) → F.col p < i)) ∧
      (∀ i < matrix.n, F.rs i ≤ F.rs (i + 1)) ∧ F.rs 0 = 0 ∧
      F.value.length = F.rs matrix.n ∧ F.colindex.length = F.rs matrix.n := by
  obtain ⟨f1, F, c, hcp, hinv, hfac, hnp⟩ :=
    factor_spec sqrt matrix factor min_diagonal_ratio hm hfit
  have hF := hnp.numeric_storageInv hinv
  have hinc := hnp.numeric_rowsIncreasing (hcp.copied_rowsIncreasing hs)
  have hn : F.n = matrix.n := by rw [hnp.n_eq, hcp.n_eq]
  refine ⟨F, c, hfac, hn, by rw [hF.rowstart_len, hn], ?_, ?_, ?_, ?_, ?_⟩
  · intro i hi
    exact ⟨hinc i (by omega), fun p hp1 hp2 => hF.col_lt i p (by omega) hp1 hp2⟩
  · intro i hi; exact hF.mono i (by omega)
  · rw [hnp.numeric_rs_eq, hcp.rs_eq 0 (Nat.zero_le _)]; rfl
  · rw [← hn, hF.rowstart_end]
  · rw [← hn, hF.rowstart_end, hF.value_len]

/-- The small-pivot rule of lines 110-115 in terms of what the copy leaves.  With `A` the
content of `invdiag[i]` after the copy (the diagonal entry stored in row `i` of the matrix when
the row stores one, else what the factor held there before) and `d` the residual `A` minus the squares of
the final off-diagonal values of row `i`: every row with `A ≠ 0` gets `invdiag[i] = 1/sqrt(A)`
when `d < min_diagonal_ratio·A` and `1/sqrt(d)` otherwise, and the count reported is the number
of rows with `A ≠ 0` and `d < min_diagonal_ratio·A`. -/
theorem small_pivot_rule [LinearOrderedField T] (sqrt : T → T) (matrix : SparseMatrix T)
    (factor : SparseLowerFactor T) (min_diagonal_ratio : T) (hm : matrix.Tables)
    (hfit : matrix.Fits) :
    ∃ F c, factor_incomplete_cholesky0 sqrt matrix factor min_diagonal_ratio = some (F, c) ∧
      (matrix.RowsSorted → ∀ i < matrix.n, ∀ t < (matrix.idx i).length,
        (matrix.idx i).getD t 0 = i →
          copiedDiagonal matrix factor i = (matrix.vals i).getD t 0) ∧
      (∀ i < matrix.n, copiedDiagonal matrix factor i ≠ 0 →
        F.idg i =
          if rowResidual (copiedDiagonal matrix factor i) F i
              < min_diagonal_ratio * copiedDiagonal matrix factor i
          then 1 / sqrt (copiedDiagonal matrix factor i)
          else 1 / sqrt (rowResidual (copiedDiagonal matrix factor i) F i)) ∧
      c = ((Finset.range matrix.n).filter (fun i =>
        copiedDiagonal matrix factor i ≠ 0 ∧
          rowResidual (copiedDiagonal matrix factor i) F i
            < min_diagonal_ratio * copiedDiagonal matrix factor i)).card := by
  obtain ⟨f1, F, c, hcp, hinv, hfac, hnp⟩ :=
    factor_spec sqrt matrix factor min_diagonal_ratio hm hfit
  have hD : ∀ i < matrix.n, f1.idg i = copiedDiagonal matrix factor i := hcp.idg_eq
  refine ⟨F, c, hfac, ?_, ?_, ?_⟩
  · intro hs i hi t ht heq
    exact diag_at_of_sorted i _ _ _ 0 (hs i hi) (hm.row_len i hi) t ht heq
  · intro i hi hnz
    have hrow := (hnp.rows i (by rw [hcp.n_eq]; exact hi)).2 (by rw [hD i hi]; exact hnz)
    rw [hrow.1, hnp.residual_eq, hD i hi]
    split <;> rfl
  · rw [hnp.count, hcp.n_eq]
    unfold smallPivotRows
    apply congrArg
    apply Finset.filter_congr
    intro i hi
    rw [Finset.mem_range] at hi
    rw [hnp.residual_eq, hD i hi]

end FactorClaims

section PivotClaims

/-- Over the reals, with a ratio in `(0, 1]`, every row whose original diagonal `A` (the
diagonal the copy left in `invdiag[i]`, the entry stored in column `i` of the row) is positive
has the square root taken of a value `d ≥ min_diagonal_ratio·A > 0`, so `invdiag[i]` is a
positive real; and when the residual is `≤ 0` the fallback gives `invdiag[i] = 1/sqrt(A)`. -/
theorem pivot_bounds (matrix : SparseMatrix ℝ) (factor : SparseLowerFactor ℝ)
    (min_diagonal_ratio : ℝ) (hm : matrix.Tables) (hfit : matrix.Fits)
    (h0 : 0 < min_diagonal_ratio)
    (h1 : min_diagonal_ratio ≤ 1) :
    ∃ F c,
      factor_incomplete_cholesky0 Real.sqrt matrix factor min_diagonal_ratio = some (F, c) ∧
      (matrix.RowsSorted → ∀ i < matrix.n, ∀ t < (matrix.idx i).length,
        (matrix.idx i).getD t 0 = i →
          copiedDiagonal matrix factor i = (matrix.vals i).getD t 0) ∧
      ∀ i < matrix.n, 0 < copiedDiagonal matrix factor i →
        ∃ d, d = (if rowResidual (copiedDiagonal matrix factor i) F i
                    < min_diagonal_ratio * copiedDiagonal matrix factor i
                  then copiedDiagonal matrix factor i
                  else rowResidual (copiedDiagonal matrix factor i) F i) ∧
          F.idg i = 1 / Real.sqrt d ∧
          min_diagonal_ratio * copiedDiagonal matrix factor i ≤ d ∧
          0 < min_diagonal_ratio * copiedDiagonal matrix factor i ∧
          0 < F.idg i ∧
          (rowResidual (copiedDiagonal matrix factor i) F i ≤ 0 →
            F.idg i = 1 / Real.sqrt (copiedDiagonal matrix factor i)) := by
  obtain ⟨f1, F, c, hcp, hinv, hfac, hnp⟩ :=
    factor_spec Real.sqrt matrix factor min_diagonal_ratio hm hfit
  have hD : ∀ i < matrix.n, f1.idg i = copiedDiagonal matrix factor i := hcp.idg_eq
  refine ⟨F, c, hfac, ?_, ?_⟩
  · intro hs i hi t ht heq
    exact diag_at_of_sorted i _ _ _ 0 (hs i hi) (hm.row_len i hi) t ht heq
  · intro i hi hpos
    have hrow := (hnp.rows i (by rw [hcp.n_eq]; exact hi)).2
      (by rw [hD i hi]; exact ne_of_gt hpos)
    have hid := hrow.1
    rw [hnp.residual_eq, hD i hi] at hid
    have hrA : 0 < min_diagonal_ratio * copiedDiagonal matrix factor i := mul_pos h0 hpos
    have hle : min_diagonal_ratio * copiedDiagonal matrix factor i ≤
        (if rowResidual (copiedDiagonal matrix factor i) F i
            < min_diagonal_ratio * copiedDiagonal matrix factor i
          then copiedDiagonal matrix factor i
          else rowResidual (copiedDiagonal matrix factor i) F i) := by
      split
      · calc min_diagonal_ratio * copiedDiagonal matrix factor i
            ≤ 1 * copiedDiagonal matrix factor i :=
              mul_le_mul_of_nonneg_right h1 (le_of_lt hpos)
          _ = copiedDiagonal matrix factor i := one_mul _
      · rename_i hns
        exact not_lt.mp hns
    refine ⟨_, rfl, hid, hle, hrA, ?_, ?_⟩
    · rw [hid]
      exact one_div_pos.mpr (Real.sqrt_pos.mpr (lt_of_lt_of_le hrA hle))
    · intro hres
      rw [hid, if_pos (lt_of_le_of_lt hres hrA)]

variable {T : Type}

theorem copiedCols_diagonal_only (m : SparseMatrix T)
    (hd : ∀ i < m.n, m.idx i = [i]) : ∀ r ≤ m.n, copiedCols m r = [] := by
  intro r
  induction r with
  | zero => intro _; rfl
  | succ r ih =>
    intro hr
    show concatRows _ (r + 1) = []
    rw [concatRows_succ]
    have := ih (by omega)
    unfold copiedCols at this
    rw [this, List.nil_append]
    show lowerCols r (m.idx r) = []
    rw [hd r (by omega)]
    simp [lowerCols]

/-- C7 (as amended): on a matrix of dimension `n < 4294967295` that stores in every row only
a positive diagonal entry `A(i,i)`, the factorization with ratio `1/4` gives
`invdiag[i] = 1/sqrt(A(i,i))`, empty `value` and `colindex` (every `rowstart[i]` is `0`) and
a small-pivot count of zero. -/
theorem diagonal_only_factor [LinearOrderedField T] (sqrt : T → T) (matrix : SparseMatrix T)
    (factor : SparseLowerFactor T) (hm : matrix.Tables) (hb : matrix.n < 4294967295)
    (hd : ∀ i < matrix.n, matrix.idx i = [i] ∧ ∃ a, 0 < a ∧ matrix.vals i = [a]) :
    ∃ F, factor_incomplete_cholesky0 sqrt matrix factor (1 / 4) = some (F, 0) ∧
      F.n = matrix.n ∧ F.value = [] ∧ F.colindex = [] ∧ F.rowstart.length = matrix.n + 1 ∧
      (∀ i ≤ matrix.n, F.rs i = 0) ∧
      ∀ i < matrix.n, F.idg i = 1 / sqrt ((matrix.vals i).getD 0 0) := by
  have hcols := copiedCols_diagonal_only matrix (fun i hi => (hd i hi).1)
  have hfit : matrix.Fits :=
    ⟨hb, fun i hi => by rw [(hd i hi).1]; exact Nat.one_lt_two.trans (by decide),
      by rw [hcols matrix.n (Nat.le_refl _)]; decide⟩
  obtain ⟨f1, F, c, hcp, hinv, hfac, hnp⟩ := factor_spec sqrt matrix factor (1 / 4) hm hfit
  have hF := hnp.numeric_storageInv hinv
  have hn : F.n = matrix.n := by rw [hnp.n_eq, hcp.n_eq]
  have hcol : F.colindex = [] := by
    rw [hnp.colindex_eq, hcp.colindex_eq]; exact hcols matrix.n (Nat.le_refl _)
  have hrs : ∀ i ≤ matrix.n, F.rs i = 0 := by
    intro i hi
    rw [hnp.numeric_rs_eq, hcp.rs_eq i hi, hcols i hi]; rfl
  have hDa : ∀ i < matrix.n, f1.idg i = (matrix.vals i).getD 0 0 ∧
      0 < (matrix.vals i).getD 0 0 := by
    intro i hi
    obtain ⟨hidx, a, ha, hvals⟩ := hd i hi
    rw [hcp.idg_eq i hi, hidx, hvals]
    simp [copiedDiag, ha]
  have hres : ∀ i < matrix.n, pivotResidual f1 F.val i = f1.idg i := by
    intro i hi
    rw [hnp.residual_eq]
    unfold rowResidual
    rw [hrs i (by omega), hrs (i + 1) (by omega)]
    simp
  have hnot : ∀ i < matrix.n, ¬ (f1.idg i < 1 / 4 * f1.idg i) := by
    intro i hi
    have := (hDa i hi).2
    rw [← (hDa i hi).1] at this
    intro hlt
    linarith
  have hc : c = 0 := by
    rw [hnp.count, Finset.card_eq_zero]
    unfold smallPivotRows
    rw [Finset.filter_eq_empty_iff]
    intro i hi
    rw [Finset.mem_range, hcp.n_eq] at hi
    rw [hres i hi]
    exact fun hh => hnot i hi hh.2
  subst hc
  refine ⟨F, hfac, hn, ?_, hcol, by rw [hF.rowstart_len, hn], hrs, ?_⟩
  · apply List.eq_nil_of_length_eq_zero
    rw [hF.value_len, hcol]; rfl
  · intro i hi
    have hnz : f1.idg i ≠ 0 := by
      have := (hDa i hi).2
      rw [← (hDa i hi).1] at this
      exact ne_of_gt this
    have hrow := ((hnp.rows i (by rw [hcp.n_eq]; exact hi)).2 hnz).1
    rw [hres i hi, if_neg (hnot i hi), (hDa i hi).1] at hrow
    exact hrow

end PivotClaims

/-! ## The dense reading of the factor -/

section Dense

variable {T : Type}

theorem RowsIncreasing.col_ne {f : SparseLowerFactor T} (h : RowsIncreasing f) (i : Nat)
    (hi : i < f.n) (p q : Nat) (hp1 : f.rs i ≤ p) (hp2 : p < f.rs (i + 1))
    (hq1 : f.rs i ≤ q) (hq2 : q < f.rs (i + 1)) (hpq : p ≠ q) : f.col p ≠ f.col q := by
  rcases Nat.lt_or_gt_of_ne hpq with hlt | hgt
  · have := h i hi p q hp1 hlt hq2; omega
  · have := h i hi q p hq1 hgt hp2; omega

/-- A stored position reads back its own value. -/
theorem stored_at [Field T] {F : SparseLowerFactor T} (hinc : RowsIncreasing F) (i : Nat)
    (hi : i < F.n) (p : Nat) (hp1 : F.rs i ≤ p) (hp2 : p < F.rs (i + 1)) :
    F.stored i (F.col p) = F.val p := by
  unfold SparseLowerFactor.stored
  rw [Finset.sum_eq_single p]
  · rw [if_pos rfl]
  · intro q hq hqp
    rw [Finset.mem_Ico] at hq
    rw [if_neg (hinc.col_ne i hi q p hq.1 hq.2 hp1 hp2 hqp)]
  · intro hnot
    exact absurd (Finset.mem_Ico.mpr ⟨hp1, hp2⟩) hnot

theorem stored_zero_of_le [Field T] {F : SparseLowerFactor T} (hF : StorageInv F) (i k : Nat)
    (hi : i < F.n) (hik : i ≤ k) : F.stored i k = 0 := by
  unfold SparseLowerFactor.stored
  apply Finset.sum_eq_zero
  intro p hp
  rw [Finset.mem_Ico] at hp
  have := hF.col_lt i p hi hp.1 hp.2
  rw [if_neg (by omega)]

/-- The sum over a set `S` of columns of the products of the stored entries of two rows is the
sum of the products of the stored values over the pairs of positions with a common column in
`S`. -/
theorem stored_dot [Field T] (F : SparseLowerFactor T) (i j : Nat) (S : Finset Nat) :
    ∑ k ∈ S, F.stored i k * F.stored j k =
      ∑ p ∈ Finset.Ico (F.rs i) (F.rs (i + 1)), ∑ q ∈ Finset.Ico (F.rs j) (F.rs (j + 1)),
        if F.col p = F.col q ∧ F.col p ∈ S then F.val p * F.val q else 0 := by
  unfold SparseLowerFactor.stored
  simp only [Finset.sum_mul_sum]
  rw [Finset.sum_comm]
  apply Finset.sum_congr rfl
  intro p _
  rw [Finset.sum_comm]
  apply Finset.sum_congr rfl
  intro q _
  by_cases hS : F.col p ∈ S
  · rw [Finset.sum_eq_single (F.col p)]
    · by_cases hpq : F.col p = F.col q
      · rw [if_pos rfl, if_pos hpq.symm, if_pos ⟨hpq, hS⟩]
      · rw [if_pos rfl, if_neg (fun hh => hpq hh.symm), if_neg (fun hh => hpq hh.1),
          mul_zero]
    · intro k _ hk
      rw [if_neg (fun hh => hk hh.symm), zero_mul]
    · intro hnot; exact absurd hS hnot
  · rw [if_neg (fun hh => hS hh.2)]
    apply Finset.sum_eq_zero
    intro k hk
    have : F.col p ≠ k := fun hh => hS (hh ▸ hk)
    rw [if_neg this, zero_mul]

/-- Below the diagonal of column `j = col k0`, the dot product of the rows `i` and `j` is the
sum the merge walk accumulates for the entry at position `k0`. -/
theorem dot_offdiag [Field T] {F : SparseLowerFactor T} (hF : StorageInv F)
    (hinc : RowsIncreasing F) (i : Nat) (hi : i < F.n) (k0 : Nat) (hk1 : F.rs i ≤ k0)
    (hk2 : k0 < F.rs (i + 1)) :
    ∑ k ∈ Finset.range (F.col k0), F.stored i k * F.stored (F.col k0) k =
      crossSum F.col F.val (F.rs i) k0 (F.rs (F.col k0)) (F.rs (F.col k0 + 1)) := by
  have hj : F.col k0 < i := hF.col_lt i k0 hi hk1 hk2
  rw [stored_dot]
  rw [← Finset.sum_Ico_consecutive _ hk1 (Nat.le_of_lt hk2)]
  have hz : ∑ p ∈ Finset.Ico k0 (F.rs (i + 1)),
      ∑ q ∈ Finset.Ico (F.rs (F.col k0)) (F.rs (F.col k0 + 1)),
        (if F.col p = F.col q ∧ F.col p ∈ Finset.range (F.col k0)
          then F.val p * F.val q else 0) = 0 := by
    apply Finset.sum_eq_zero
    intro p hp
    rw [Finset.mem_Ico] at hp
    apply Finset.sum_eq_zero
    intro q _
    have : F.col k0 ≤ F.col p := by
      by_cases hpk : p = k0
      · subst hpk; exact Nat.le_refl _
      · exact Nat.le_of_lt (hinc i hi k0 p hk1 (by omega) hp.2)
    rw [if_neg]
    rw [Finset.mem_range]
    omega
  rw [hz, add_zero]
  unfold crossSum
  apply Finset.sum_congr rfl
  intro p hp
  rw [Finset.mem_Ico] at hp
  apply Finset.sum_congr rfl
  intro q _
  have : F.col p < F.col k0 := hinc i hi p k0 hp.1 hp.2 hk2
  by_cases hpq : F.col p = F.col q
  · rw [if_pos ⟨hpq, Finset.mem_range.mpr this⟩, if_pos hpq]
  · rw [if_neg (fun hh => hpq hh.1), if_neg hpq]

/-- Below the diagonal, the dot product of row `i` with itself is the sum of the squares of its
stored values. -/
theorem dot_diag [Field T] {F : SparseLowerFactor T} (hF : StorageInv F)
    (hinc : RowsIncreasing F) (i : Nat) (hi : i < F.n) :
    ∑ k ∈ Finset.range i, F.stored i k * F.stored i k =
      ∑ p ∈ Finset.Ico (F.rs i) (F.rs (i + 1)), sqr (F.val p) := by
  rw [stored_dot]
  apply Finset.sum_congr rfl
  intro p hp
  rw [Finset.mem_Ico] at hp
  rw [Finset.sum_eq_single p]
  · rw [if_pos ⟨rfl, Finset.mem_range.mpr (hF.col_lt i p hi hp.1 hp.2)⟩]; rfl
  · intro q hq hqp
    rw [Finset.mem_Ico] at hq
    rw [if_neg (fun hh => hinc.col_ne i hi p q hp.1 hp.2 hq.1 hq.2
      (fun h => hqp h.symm) hh.1)]
  · intro hnot
    exact absurd (Finset.mem_Ico.mpr hp) hnot

/-- The dot product of the rows `i` and `j ≤ i` of the dense factor over all the columns is
the part below column `j` plus the product at column `j`. -/
theorem entry_dot_split [Field T] {F : SparseLowerFactor T} (hF : StorageInv F) (i j : Nat)
    (hi : i < F.n) (hji : j ≤ i) :
    ∑ k ∈ Finset.range F.n, F.entry i k * F.entry j k =
      ∑ k ∈ Finset.range j, F.stored i k * F.stored j k + F.entry i j * F.entry j j := by
  rw [Finset.range_eq_Ico, ← Finset.sum_Ico_consecutive _ (Nat.zero_le j) (show j ≤ F.n by omega),
    Finset.sum_eq_sum_Ico_succ_bot (show j < F.n by omega)]
  have hz : ∑ k ∈ Finset.Ico (j + 1) F.n, F.entry i k * F.entry j k = 0 := by
    apply Finset.sum_eq_zero
    intro k hk
    rw [Finset.mem_Ico] at hk
    have : F.entry j k = 0 := by
      unfold SparseLowerFactor.entry
      rw [if_neg (by omega)]
      exact stored_zero_of_le hF j k (by omega) (by omega)
    rw [this, mul_zero]
  rw [hz, add_zero]
  congr 1
  apply Finset.sum_congr rfl
  intro k hk
  rw [Finset.mem_Ico] at hk
  unfold SparseLowerFactor.entry
  rw [if_neg (by omega), if_neg (by omega)]

end Dense

/-! ## The incomplete factorization identity -/

section Identity

/-- Position `rowstart[i] + t` of the copied factor holds the entry at position `t` of row `i`
of a matrix with strictly increasing rows, when its column is below `i`. -/
theorem CopyPost.entry_at {T : Type} [Zero T] {m : SparseMatrix T}
    {f0 f1 : SparseLowerFactor T} (hm : m.Tables) (hs : m.RowsSorted) (h : CopyPost m f0 f1)
    (i : Nat) (hi : i < m.n) (t : Nat) (ht : t < (m.idx i).length)
    (hlt : (m.idx i).getD t 0 < i) :
    f1.rs i + t < f1.rs (i + 1) ∧ f1.col (f1.rs i + t) = (m.idx i).getD t 0 ∧
      f1.val (f1.rs i + t) = (m.vals i).getD t 0 := by
  obtain ⟨h1, h2, h3⟩ := lower_at_of_sorted i (m.idx i) (m.vals i) 0 (hs i hi)
    (hm.row_len i hi) t ht hlt
  have hlen : (copiedCols m (i + 1)).length =
      (copiedCols m i).length + (lowerCols i (m.idx i)).length := by
    show (concatRows _ (i + 1)).length = _
    rw [concatRows_succ, List.length_append]; rfl
  rw [h.rs_eq i (by omega), h.rs_eq (i + 1) (by omega)]
  refine ⟨by omega, ?_, ?_⟩
  · show f1.colindex.getD _ 0 = _
    rw [h.colindex_eq, ← h2]
    exact concatRows_getD (fun i => lowerCols i (m.idx i)) 0 m.n i t hi h1
  · show f1.value.getD _ 0 = _
    rw [h.value_eq, ← h3, ← copiedVals_length m hm i (by omega)]
    exact concatRows_getD (fun i => lowerVals i (m.idx i) (m.vals i)) 0 m.n i t hi
      (by show t < (lowerVals i (m.idx i) (m.vals i)).length
          rw [lowerVals_length i _ _ (hm.row_len i hi)]; exact h1)

/-- C1 (as amended): over the reals, for a matrix in two `n`-row tables whose sizes fit
`unsigned int`, with strictly increasing rows and a positive diagonal entry stored in every
row, and a positive ratio, the factorization returns;
and when it reports no small pivot (no row took the fallback), the factor `L` read from the
result (`L(i,i) = 1/invdiag[i]`, the stored values below the diagonal) satisfies
`Σ_k L(i,k)·L(j,k) = A(i,j)` at every stored position `(i,j)` of the matrix with `j ≤ i`. -/
theorem incomplete_factorization_identity (matrix : SparseMatrix ℝ)
    (factor : SparseLowerFactor ℝ) (min_diagonal_ratio : ℝ) (hm : matrix.Tables)
    (hfit : matrix.Fits)
    (hs : matrix.RowsSorted)
    (hdiag : ∀ i < matrix.n, ∃ t, t < (matrix.idx i).length ∧
      (matrix.idx i).getD t 0 = i ∧ 0 < (matrix.vals i).getD t 0)
    (hr : 0 < min_diagonal_ratio) :
    ∃ F c,
      factor_incomplete_cholesky0 Real.sqrt matrix factor min_diagonal_ratio = some (F, c) ∧
      (c = 0 → ∀ i < matrix.n, ∀ t < (matrix.idx i).length, (matrix.idx i).getD t 0 ≤ i →
        ∑ k ∈ Finset.range matrix.n, F.entry i k * F.entry ((matrix.idx i).getD t 0) k =
          (matrix.vals i).getD t 0) := by
  obtain ⟨f1, F, c, hcp, hinv, hfac, hnp⟩ :=
    factor_spec Real.sqrt matrix factor min_diagonal_ratio hm hfit
  refine ⟨F, c, hfac, ?_⟩
  intro hc
  have hF := hnp.numeric_storageInv hinv
  have hinc1 := hcp.copied_rowsIncreasing hs
  have hincF := hnp.numeric_rowsIncreasing hinc1
  have hn : F.n = matrix.n := by rw [hnp.n_eq, hcp.n_eq]
  have hcolf : F.col = f1.col := funext hnp.numeric_col_eq
  have hrsf : F.rs = f1.rs := funext hnp.numeric_rs_eq
  have hDval : ∀ i < matrix.n, ∀ t < (matrix.idx i).length, (matrix.idx i).getD t 0 = i →
      f1.idg i = (matrix.vals i).getD t 0 := by
    intro i hi t ht heq
    rw [hcp.idg_eq i hi]
    exact diag_at_of_sorted i _ _ _ 0 (hs i hi) (hm.row_len i hi) t ht heq
  have hDpos : ∀ i < matrix.n, 0 < f1.idg i := by
    intro i hi
    obtain ⟨t, ht, heq, hpos⟩ := hdiag i hi
    rw [hDval i hi t ht heq]; exact hpos
  have hnf : ∀ i < matrix.n,
      ¬ (pivotResidual f1 F.val i < min_diagonal_ratio * f1.idg i) := by
    intro i hi hlt
    have hcount := hnp.count
    rw [hc] at hcount
    have hempty := Finset.card_eq_zero.mp hcount.symm
    unfold smallPivotRows at hempty
    rw [Finset.filter_eq_empty_iff] at hempty
    exact hempty (Finset.mem_range.mpr (by rw [hcp.n_eq]; exact hi))
      ⟨ne_of_gt (hDpos i hi), hlt⟩
  have hres : ∀ i < matrix.n, 0 < pivotResidual f1 F.val i := by
    intro i hi
    exact lt_of_lt_of_le (mul_pos hr (hDpos i hi)) (not_lt.mp (hnf i hi))
  have hrow : ∀ i < matrix.n,
      F.idg i = 1 / Real.sqrt (pivotResidual f1 F.val i) ∧
      ∀ p, f1.rs i ≤ p → p < f1.rs (i + 1) → EntryRule f1 F.val F.idg i p := by
    intro i hi
    obtain ⟨h1, h2⟩ := (hnp.rows i (by rw [hcp.n_eq]; exact hi)).2
      (ne_of_gt (hDpos i hi))
    rw [if_neg (hnf i hi)] at h1
    exact ⟨h1, h2 hinc1⟩
  have hidnz : ∀ i < matrix.n, F.idg i ≠ 0 := by
    intro i hi
    rw [(hrow i hi).1]
    exact ne_of_gt (one_div_pos.mpr (Real.sqrt_pos.mpr (hres i hi)))
  intro i hi t ht hle
  rw [← hn, entry_dot_split hF i _ (by omega) hle]
  rcases Nat.lt_or_eq_of_le hle with hlt | heq
  · obtain ⟨hk2, hcol, hval⟩ := hcp.entry_at hm hs i hi t ht hlt
    have hk1 : F.rs i ≤ f1.rs i + t := by rw [hrsf]; omega
    have hk2' : f1.rs i + t < F.rs (i + 1) := by rw [hrsf]; exact hk2
    have hcolF : F.col (f1.rs i + t) = (matrix.idx i).getD t 0 := by rw [hcolf]; exact hcol
    have hdot := dot_offdiag hF hincF i (by omega) (f1.rs i + t) hk1 hk2'
    have hst := stored_at hincF i (by omega) (f1.rs i + t) hk1 hk2'
    rw [hcolF] at hdot hst
    have hrule := (hrow i hi).2 (f1.rs i + t) (by omega) hk2
    unfold EntryRule at hrule
    rw [hcol, hval] at hrule
    rw [hrsf, hcolf] at hdot
    rw [hdot]
    have he1 : F.entry i ((matrix.idx i).getD t 0) = F.val (f1.rs i + t) := by
      unfold SparseLowerFactor.entry
      rw [if_neg (by omega), hst]
    have he2 : F.entry ((matrix.idx i).getD t 0) ((matrix.idx i).getD t 0) =
        1 / F.idg ((matrix.idx i).getD t 0) := by
      unfold SparseLowerFactor.entry
      rw [if_pos rfl]
    rw [he1, he2, hrule]
    have key : ∀ (x y z : ℝ), z ≠ 0 → x + (y - x) * z * (1 / z) = y := by
      intro x y z hz
      field_simp
    exact key _ _ _ (hidnz ((matrix.idx i).getD t 0) (by omega))
  · rw [heq, dot_diag hF hincF i (by omega)]
    have he : F.entry i i = Real.sqrt (pivotResidual f1 F.val i) := by
      unfold SparseLowerFactor.entry
      rw [if_pos rfl, (hrow i hi).1, one_div_one_div]
    rw [he, Real.mul_self_sqrt (le_of_lt (hres i hi)), ← hDval i hi t ht heq]
    unfold pivotResidual
    rw [hrsf]
    ring

end Identity

/-! ## The theorems at concrete inputs -/

section Witnesses

theorem exampleMatrix_tables : exampleMatrix.Tables :=
  ⟨rfl, rfl, by intro i hi; have : i < 2 := hi; interval_cases i <;> rfl⟩

theorem exampleMatrix_fits : exampleMatrix.Fits := by
  refine ⟨by decide, ?_, ?_⟩
  · intro i hi
    have : i < 2 := hi
    interval_cases i <;> simp [SparseMatrix.idx, exampleMatrix]
  · simp [copiedCols, concatRows, lowerCols, SparseMatrix.idx, exampleMatrix]

theorem exampleMatrix_sorted : exampleMatrix.RowsSorted := by
  intro i hi
  have : i < 2 := hi
  interval_cases i <;> simp [SparseMatrix.idx, exampleMatrix]

theorem exampleMatrix_diag : ∀ i < exampleMatrix.n,
    ∃ t, t < (exampleMatrix.idx i).length ∧
      (exampleMatrix.idx i).getD t 0 = i ∧ 0 < (exampleMatrix.vals i).getD t 0 := by
  intro i hi
  have : i < 2 := hi
  interval_cases i
  · exact ⟨0, by decide, rfl, by norm_num [SparseMatrix.vals, exampleMatrix]⟩
  · exact ⟨1, by decide, rfl, by norm_num [SparseMatrix.vals, exampleMatrix]⟩

theorem exampleDiagonal_tables : exampleDiagonal.Tables :=
  ⟨rfl, rfl, by intro i hi; have : i < 2 := hi; interval_cases i <;> rfl⟩

theorem exampleDiagonal_fits : exampleDiagonal.Fits := by
  refine ⟨by decide, ?_, ?_⟩
  · intro i hi
    have : i < 2 := hi
    interval_cases i <;> simp [SparseMatrix.idx, exampleDiagonal]
  · simp [copiedCols, concatRows, lowerCols, SparseMatrix.idx, exampleDiagonal]

theorem exampleDiagonal_rows : ∀ i < exampleDiagonal.n,
    exampleDiagonal.idx i = [i] ∧ ∃ a, 0 < a ∧ exampleDiagonal.vals i = [a] := by
  intro i hi
  have : i < 2 := hi
  interval_cases i
  · exact ⟨rfl, 4, by norm_num, rfl⟩
  · exact ⟨rfl, 9, by norm_num, rfl⟩

theorem exampleFactor_inv : StorageInv exampleFactor := by
  refine ⟨rfl, rfl, rfl, rfl, ?_, ?_⟩
  · intro i hi
    have : i < 2 := hi
    interval_cases i <;> decide
  · intro i hi k hk hk1 hk2
    have : i < 2 := hi
    have hk0 : k = 0 := by
      have : k < 1 := hk
      omega
    subst hk0
    interval_cases i
    · exact absurd hk2 (by decide)
    · decide

theorem exampleFactor_nonzero : ∀ i < exampleFactor.n, exampleFactor.idg i ≠ 0 := by
  intro i hi
  have : i < 2 := hi
  interval_cases i <;> norm_num [SparseLowerFactor.idg, exampleFactor]

theorem sqrt_four : Real.sqrt 4 = 2 := by
  rw [show (4 : ℝ) = 2 ^ 2 by norm_num]
  exact Real.sqrt_sq (by norm_num)

/-- The factorization of `[[4, 2], [2, 5]]` over the reals is the Cholesky factor
`[[2, 0], [1, 2]]`, and no row takes the fallback. -/
theorem exampleMatrix_factor :
    factor_incomplete_cholesky0 Real.sqrt exampleMatrix (SparseLowerFactor.init 0) (1 / 4)
      = some (⟨2, [1 / 2, 1 / 2], [1], [0], [0, 0, 1]⟩, 0) := by
  simp [exampleMatrix, factor_incomplete_cholesky0, copyPhase, numericPhase, forLoop,
    copyBody, copyRow, vset, vresize, factorRow, offdiagEntry, sqr, SparseLowerFactor.init,
    SparseLowerFactor.resize]
  rw [mergeLoop]
  simp [sqrt_four]
  norm_num [sqrt_four]

/-- C1 at the matrix `[[4, 2], [2, 5]]`, a fresh factor and the ratio `1/4`; there the count
reported is `0` and the factor is the Cholesky factor `[[2, 0], [1, 2]]`. -/
theorem incomplete_factorization_identity_witness :
    exampleMatrix.Tables ∧ exampleMatrix.Fits ∧ exampleMatrix.RowsSorted ∧
    (∀ i < exampleMatrix.n, ∃ t, t < (exampleMatrix.idx i).length ∧
      (exampleMatrix.idx i).getD t 0 = i ∧ 0 < (exampleMatrix.vals i).getD t 0) ∧
    (0 : ℝ) < 1 / 4 ∧
    (∃ F c,
      factor_incomplete_cholesky0 Real.sqrt exampleMatrix (SparseLowerFactor.init 0)
        (1 / 4) = some (F, c) ∧
      (c = 0 → ∀ i < exampleMatrix.n, ∀ t < (exampleMatrix.idx i).length,
        (exampleMatrix.idx i).getD t 0 ≤ i →
        ∑ k ∈ Finset.range exampleMatrix.n,
          F.entry i k * F.entry ((exampleMatrix.idx i).getD t 0) k =
          (exampleMatrix.vals i).getD t 0)) ∧
    factor_incomplete_cholesky0 Real.sqrt exampleMatrix (SparseLowerFactor.init 0) (1 / 4)
      = some (⟨2, [1 / 2, 1 / 2], [1], [0], [0, 0, 1]⟩, 0) :=
  ⟨exampleMatrix_tables, exampleMatrix_fits, exampleMatrix_sorted, exampleMatrix_diag, by norm_num,
    incomplete_factorization_identity exampleMatrix (SparseLowerFactor.init 0) (1 / 4)
      exampleMatrix_tables exampleMatrix_fits exampleMatrix_sorted exampleMatrix_diag (by norm_num),
    exampleMatrix_factor⟩

/-- C2 at the factor `[[2, 0], [1, 2]]` and the right-hand side `[1, 2]`. -/
theorem solve_lower_transpose_solves_witness :
    1 ≤ exampleFactor.n ∧ StorageInv exampleFactor ∧
    (∀ i < exampleFactor.n, exampleFactor.idg i ≠ 0) ∧
    ([1, 2] : List ℚ).length = exampleFactor.n ∧
    ∃ r, solve_lower_transpose_in_place exampleFactor [1, 2] = .returned r ∧
      r.length = exampleFactor.n ∧
      ∀ j < exampleFactor.n, 1 / exampleFactor.idg j * r.getD j 0 +
        ∑ i ∈ Finset.Ico (j + 1) exampleFactor.n,
          ∑ k ∈ Finset.Ico (exampleFactor.rs i) (exampleFactor.rs (i + 1)),
            (if exampleFactor.col k = j then exampleFactor.val k * r.getD i 0 else 0)
          = ([1, 2] : List ℚ).getD j 0 :=
  ⟨by decide, exampleFactor_inv, exampleFactor_nonzero, rfl,
    solve_lower_transpose_solves exampleFactor [1, 2] (by decide) exampleFactor_inv
      exampleFactor_nonzero rfl⟩

/-- C3 at the matrix `[[4, 2], [2, 5]]`. -/
theorem factor_pattern_copy_witness :
    exampleMatrix.Tables ∧ exampleMatrix.Fits ∧ exampleMatrix.RowsSorted ∧
    ∃ F c, factor_incomplete_cholesky0 Real.sqrt exampleMatrix
        (SparseLowerFactor.init 0) (1 / 4) = some (F, c) ∧
      F.n = exampleMatrix.n ∧
      (∀ i ≤ exampleMatrix.n, F.rs i =
        ∑ r ∈ Finset.range i,
          ((exampleMatrix.idx r).filter (fun c => decide (c < r))).length) ∧
      F.rs exampleMatrix.n = F.colindex.length ∧ F.colindex.length = F.value.length ∧
      ∀ i < exampleMatrix.n, (F.colindex.drop (F.rs i)).take (F.rs (i + 1) - F.rs i) =
        (exampleMatrix.idx i).filter (fun c => decide (c < i)) :=
  ⟨exampleMatrix_tables, exampleMatrix_fits, exampleMatrix_sorted,
    factor_pattern_copy Real.sqrt exampleMatrix (SparseLowerFactor.init 0) (1 / 4)
      exampleMatrix_tables exampleMatrix_fits exampleMatrix_sorted⟩

/-- C4 at the matrix `[[4, 2], [2, 5]]`. -/
theorem factor_storage_invariant_witness :
    exampleMatrix.Tables ∧ exampleMatrix.Fits ∧ exampleMatrix.RowsSorted ∧
    ∃ F c, factor_incomplete_cholesky0 Real.sqrt exampleMatrix
        (SparseLowerFactor.init 0) (1 / 4) = some (F, c) ∧
      F.n = exampleMatrix.n ∧ F.rowstart.length = exampleMatrix.n + 1 ∧
      (∀ i < exampleMatrix.n,
        (∀ p q, F.rs i ≤ p → p < q → q < F.rs (i + 1) → F.col p < F.col q) ∧
        (∀ p, F.rs i ≤ p → p < F.rs (i + 1) → F.col p < i)) ∧
      (∀ i < exampleMatrix.n, F.rs i ≤ F.rs (i + 1)) ∧ F.rs 0 = 0 ∧
      F.value.length = F.rs exampleMatrix.n ∧ F.colindex.length = F.rs exampleMatrix.n :=
  ⟨exampleMatrix_tables, exampleMatrix_fits, exampleMatrix_sorted,
    factor_storage_invariant Real.sqrt exampleMatrix (SparseLowerFactor.init 0)
      (1 / 4) exampleMatrix_tables exampleMatrix_fits exampleMatrix_sorted⟩

/-- The small-pivot rule at the matrix `[[4, 2], [2, 5]]`. -/
theorem small_pivot_rule_example :
    exampleMatrix.Tables ∧ exampleMatrix.Fits ∧
    ∃ F c, factor_incomplete_cholesky0 Real.sqrt exampleMatrix
        (SparseLowerFactor.init 0) (1 / 4) = some (F, c) ∧
      (exampleMatrix.RowsSorted → ∀ i < exampleMatrix.n, ∀ t < (exampleMatrix.idx i).length,
        (exampleMatrix.idx i).getD t 0 = i →
          copiedDiagonal exampleMatrix (SparseLowerFactor.init 0) i =
            (exampleMatrix.vals i).getD t 0) ∧
      (∀ i < exampleMatrix.n, copiedDiagonal exampleMatrix (SparseLowerFactor.init 0) i ≠ 0 →
        F.idg i =
          if rowResidual (copiedDiagonal exampleMatrix (SparseLowerFactor.init 0) i) F i
              < 1 / 4 * copiedDiagonal exampleMatrix (SparseLowerFactor.init 0) i
          then 1 / Real.sqrt (copiedDiagonal exampleMatrix (SparseLowerFactor.init 0) i)
          else 1 / Real.sqrt
            (rowResidual (copiedDiagonal exampleMatrix (SparseLowerFactor.init 0) i) F i)) ∧
      c = ((Finset.range exampleMatrix.n).filter (fun i =>
        copiedDiagonal exampleMatrix (SparseLowerFactor.init 0) i ≠ 0 ∧
          rowResidual (copiedDiagonal exampleMatrix (SparseLowerFactor.init 0) i) F i
            < 1 / 4 * copiedDiagonal exampleMatrix (SparseLowerFactor.init 0) i)).card :=
  ⟨exampleMatrix_tables, exampleMatrix_fits,
    small_pivot_rule Real.sqrt exampleMatrix (SparseLowerFactor.init 0) (1 / 4)
      exampleMatrix_tables exampleMatrix_fits⟩

/-- The bounds on the pivots at the matrix `[[4, 2], [2, 5]]` and the ratio `1/4`. -/
theorem pivot_bounds_example :
    exampleMatrix.Tables ∧ exampleMatrix.Fits ∧ (0 : ℝ) < 1 / 4 ∧ (1 / 4 : ℝ) ≤ 1 ∧
    ∃ F c,
      factor_incomplete_cholesky0 Real.sqrt exampleMatrix (SparseLowerFactor.init 0)
        (1 / 4) = some (F, c) ∧
      (exampleMatrix.RowsSorted → ∀ i < exampleMatrix.n,
        ∀ t < (exampleMatrix.idx i).length, (exampleMatrix.idx i).getD t 0 = i →
          copiedDiagonal exampleMatrix (SparseLowerFactor.init 0) i =
            (exampleMatrix.vals i).getD t 0) ∧
      ∀ i < exampleMatrix.n,
        0 < copiedDiagonal exampleMatrix (SparseLowerFactor.init 0) i →
        ∃ d, d = (if rowResidual (copiedDiagonal exampleMatrix
                      (SparseLowerFactor.init 0) i) F i
                    < 1 / 4 * copiedDiagonal exampleMatrix (SparseLowerFactor.init 0) i
                  then copiedDiagonal exampleMatrix (SparseLowerFactor.init 0) i
                  else rowResidual (copiedDiagonal exampleMatrix
                      (SparseLowerFactor.init 0) i) F i) ∧
          F.idg i = 1 / Real.sqrt d ∧
          1 / 4 * copiedDiagonal exampleMatrix (SparseLowerFactor.init 0) i ≤ d ∧
          0 < 1 / 4 * copiedDiagonal exampleMatrix (SparseLowerFactor.init 0) i ∧
          0 < F.idg i ∧
          (rowResidual (copiedDiagonal exampleMatrix (SparseLowerFactor.init 0) i) F i
              ≤ 0 →
            F.idg i =
              1 / Real.sqrt (copiedDiagonal exampleMatrix (SparseLowerFactor.init 0) i)) :=
  ⟨exampleMatrix_tables, exampleMatrix_fits, by norm_num, by norm_num,
    pivot_bounds exampleMatrix (SparseLowerFactor.init 0) (1 / 4)
      exampleMatrix_tables exampleMatrix_fits (by norm_num) (by norm_num)⟩

/-- C7 at the matrix `diag(4, 9)`. -/
theorem diagonal_only_factor_witness :
    exampleDiagonal.Tables ∧ exampleDiagonal.n < 4294967295 ∧
    (∀ i < exampleDiagonal.n,
      exampleDiagonal.idx i = [i] ∧ ∃ a, 0 < a ∧ exampleDiagonal.vals i = [a]) ∧
    ∃ F, factor_incomplete_cholesky0 Real.sqrt exampleDiagonal
        (SparseLowerFactor.init 0) (1 / 4) = some (F, 0) ∧
      F.n = exampleDiagonal.n ∧ F.value = [] ∧ F.colindex = [] ∧
      F.rowstart.length = exampleDiagonal.n + 1 ∧
      (∀ i ≤ exampleDiagonal.n, F.rs i = 0) ∧
      ∀ i < exampleDiagonal.n,
        F.idg i = 1 / Real.sqrt ((exampleDiagonal.vals i).getD 0 0) :=
  ⟨exampleDiagonal_tables, by decide, exampleDiagonal_rows,
    diagonal_only_factor Real.sqrt exampleDiagonal (SparseLowerFactor.init 0)
      exampleDiagonal_tables (by decide) exampleDiagonal_rows⟩

end Witnesses

/-! ## Reuse of a factor -/

section Reuse

theorem sqrt_sixteen : Real.sqrt 16 = 4 := by
  rw [show (16 : ℝ) = 4 ^ 2 by norm_num]
  exact Real.sqrt_sq (by norm_num)

/-- C11 fails on the code: the 1×1 matrix `[[1/16]]` factors to `invdiag = [4]`; factoring
next the 1×1 matrix whose only row stores nothing gives `invdiag = [0]` from a fresh factor
but `invdiag = [1/2]` from the factor just computed, whose `invdiag[0] = 4` is taken as the
diagonal of the row. -/
theorem stale_diagonal_survives :
    factor_incomplete_cholesky0 Real.sqrt ⟨1, [[0]], [[1 / 16]]⟩ (SparseLowerFactor.init 0)
        (1 / 4) = some (⟨1, [4], [], [], [0, 0]⟩, 0) ∧
      factor_incomplete_cholesky0 Real.sqrt ⟨1, [[]], [[]]⟩ (SparseLowerFactor.init 0)
        (1 / 4) = some (⟨1, [0], [], [], [0, 0]⟩, 0) ∧
      factor_incomplete_cholesky0 Real.sqrt ⟨1, [[]], [[]]⟩ ⟨1, [4], [], [], [0, 0]⟩
        (1 / 4) = some (⟨1, [1 / 2], [], [], [0, 0]⟩, 0) := by
  refine ⟨?_, ?_, ?_⟩
  · simp [factor_incomplete_cholesky0, copyPhase, numericPhase, forLoop, copyBody, copyRow,
      vset, vresize, factorRow, SparseLowerFactor.init, SparseLowerFactor.resize]
    exact ⟨sqrt_sixteen, by norm_num⟩
  · simp [factor_incomplete_cholesky0, copyPhase, numericPhase, forLoop, copyBody, copyRow,
      vset, vresize, factorRow, SparseLowerFactor.init, SparseLowerFactor.resize]
  · simp [factor_incomplete_cholesky0, copyPhase, numericPhase, forLoop, copyBody, copyRow,
      vset, vresize, factorRow, SparseLowerFactor.resize]
    norm_num [sqrt_four]

end Reuse

section Determinism

variable {T : Type}

theorem list_eq_of_getD {α : Type} (xs ys : List α) (d : α) (hlen : xs.length = ys.length)
    (h : ∀ i < xs.length, xs.getD i d = ys.getD i d) : xs = ys := by
  apply List.ext_getElem hlen
  intro i h1 h2
  have := h i h1
  rw [List.getD_eq_getElem _ _ h1, List.getD_eq_getElem _ _ h2] at this
  exact this

/-- Two copies that produce the same pattern, values and diagonals leave the same factor. -/
theorem copyPost_eq [Zero T] {m m' : SparseMatrix T} {f0 f0' f1 f1' : SparseLowerFactor T}
    (h : CopyPost m f0 f1) (h' : CopyPost m' f0' f1') (hn : m.n = m'.n)
    (hcols : ∀ r ≤ m.n, copiedCols m r = copiedCols m' r)
    (hvals : copiedVals m m.n = copiedVals m' m.n)
    (hd : ∀ r < m.n, copiedDiagonal m f0 r = copiedDiagonal m' f0' r) : f1 = f1' := by
  have e1 : f1.n = f1'.n := by rw [h.n_eq, h'.n_eq, hn]
  have e2 : f1.invdiag = f1'.invdiag := by
    apply list_eq_of_getD _ _ 0 (by rw [h.invdiag_len, h'.invdiag_len, hn])
    intro i hi
    rw [h.invdiag_len] at hi
    have a := h.idg_eq i hi
    have b := h'.idg_eq i (by omega)
    show f1.idg i = f1'.idg i
    rw [a, b]
    exact hd i hi
  have e3 : f1.value = f1'.value := by rw [h.value_eq, h'.value_eq, ← hn]; exact hvals
  have e4 : f1.colindex = f1'.colindex := by
    rw [h.colindex_eq, h'.colindex_eq, ← hn]; exact hcols m.n (Nat.le_refl _)
  have e5 : f1.rowstart = f1'.rowstart := by
    apply list_eq_of_getD _ _ 0 (by rw [h.rowstart_len, h'.rowstart_len, hn])
    intro i hi
    rw [h.rowstart_len] at hi
    show f1.rs i = f1'.rs i
    rw [h.rs_eq i (by omega), h'.rs_eq i (by omega), hcols i (by omega)]
  cases f1; cases f1'
  simp only [SparseLowerFactor.mk.injEq]
  exact ⟨e1, e2, e3, e4, e5⟩

/-- When every row of a matrix with strictly increasing rows stores its diagonal entry, the
factorization does not depend on what the factor held before. -/
theorem factor_prior_independent [LinearOrderedField T] (sqrt : T → T) (m : SparseMatrix T)
    (ratioMin : T) (hm : m.Tables) (hfit : m.Fits) (hs : m.RowsSorted)
    (hdiag : ∀ i < m.n, ∃ t, t < (m.idx i).length ∧ (m.idx i).getD t 0 = i)
    (f0 f0' : SparseLowerFactor T) :
    factor_incomplete_cholesky0 sqrt m f0 ratioMin =
      factor_incomplete_cholesky0 sqrt m f0' ratioMin := by
  obtain ⟨f1, hc, hp⟩ := copyPhase_spec m hm hfit f0
  obtain ⟨f1', hc', hp'⟩ := copyPhase_spec m hm hfit f0'
  have : f1 = f1' := by
    apply copyPost_eq hp hp' rfl (fun _ _ => rfl) rfl
    intro r hr
    obtain ⟨t, ht, heq⟩ := hdiag r hr
    unfold copiedDiagonal
    rw [diag_at_of_sorted r _ _ _ 0 (hs r hr) (hm.row_len r hr) t ht heq,
      diag_at_of_sorted r _ _ _ 0 (hs r hr) (hm.row_len r hr) t ht heq]
  unfold factor_incomplete_cholesky0
  rw [hc, hc', this]

end Determinism

/-! ## The tridiagonal scenario -/

section Tridiagonal

theorem exampleTridiagonal_tables : exampleTridiagonal.Tables :=
  ⟨rfl, rfl, by intro i hi; have : i < 3 := hi; interval_cases i <;> rfl⟩

theorem exampleTridiagonal_fits : exampleTridiagonal.Fits := by
  refine ⟨by decide, ?_, ?_⟩
  · intro i hi
    have : i < 3 := hi
    interval_cases i <;> simp [SparseMatrix.idx, exampleTridiagonal]
  · simp [copiedCols, concatRows, lowerCols, SparseMatrix.idx, exampleTridiagonal]

theorem exampleTridiagonal_sorted : exampleTridiagonal.RowsSorted := by
  intro i hi
  have : i < 3 := hi
  interval_cases i <;> simp [SparseMatrix.idx, exampleTridiagonal]

theorem exampleTridiagonal_diag : ∀ i < exampleTridiagonal.n,
    ∃ t, t < (exampleTridiagonal.idx i).length ∧ (exampleTridiagonal.idx i).getD t 0 = i := by
  intro i hi
  have : i < 3 := hi
  interval_cases i
  · exact ⟨0, by decide, rfl⟩
  · exact ⟨1, by decide, rfl⟩
  · exact ⟨1, by decide, rfl⟩

theorem sqrt_fifteen_sq : Real.sqrt 15 * Real.sqrt 15 = 15 :=
  Real.mul_self_sqrt (by norm_num)

theorem sqrt_fifteen_pos : 0 < Real.sqrt 15 := Real.sqrt_pos.mpr (by norm_num)

/-- The factorization of the tridiagonal matrix from a fresh factor. -/
theorem exampleTridiagonal_fresh :
    factor_incomplete_cholesky0 Real.sqrt exampleTridiagonal (SparseLowerFactor.init 0)
        (1 / 4) =
      some (⟨3, [1 / 2, 2 / Real.sqrt 15, 1 / Real.sqrt (56 / 15)], [1 / 2, 2 / Real.sqrt 15],
        [0, 1], [0, 0, 1, 2]⟩, 0) := by
  have e1 : (4 : ℝ) - 2⁻¹ * 2⁻¹ = 15 / 4 := by norm_num
  have e2 : ¬ ((15 : ℝ) / 4 < 1) := by norm_num
  have e3 : (Real.sqrt (15 / 4))⁻¹ = 2 / Real.sqrt 15 := by
    rw [Real.sqrt_div (by norm_num), sqrt_four, inv_div]
  have e4 : (4 : ℝ) - 2 / Real.sqrt 15 * (2 / Real.sqrt 15) = 56 / 15 := by
    rw [div_mul_div_comm, sqrt_fifteen_sq]; norm_num
  have e5 : ¬ ((56 : ℝ) / 15 < 1) := by norm_num
  have e6 : (Real.sqrt (56 / 15))⁻¹ = Real.sqrt 15 / Real.sqrt 56 := by
    rw [Real.sqrt_div (by norm_num), inv_div]
  simp [exampleTridiagonal, factor_incomplete_cholesky0, copyPhase, numericPhase, forLoop,
    copyBody, copyRow, vset, vresize, factorRow, offdiagEntry, sqr, SparseLowerFactor.init,
    SparseLowerFactor.resize]
  rw [mergeLoop]
  simp [sqrt_four]
  rw [mergeLoop]
  simp
  simp only [e1, e2, if_false, e3, e4, e5, e6]
  simp

end Tridiagonal

section TridiagonalClaim

theorem sqrt_ratio_sq : Real.sqrt (56 / 15) * Real.sqrt (56 / 15) = 56 / 15 :=
  Real.mul_self_sqrt (by norm_num)

/-- C12: for the matrix `[[4, 1, 0], [1, 4, 1], [0, 1, 4]]` and the ratio `1/4`, whatever the
factor held before, the factorization reports no small pivot and returns
`invdiag = [1/2, 2/√15, 1/√(56/15)]`, `value = [1/2, 2/√15]`, `colindex = [0, 1]`,
`rowstart = [0, 0, 1, 2]`; the factor read from it is
`L = [[2, 0, 0], [1/2, √15/2, 0], [0, 2/√15, √(56/15)]]`, and `L·Lᵗ` is the matrix on all nine
entries. -/
theorem tridiagonal_scenario (factor : SparseLowerFactor ℝ) :
    ∃ F : SparseLowerFactor ℝ,
      factor_incomplete_cholesky0 Real.sqrt exampleTridiagonal factor (1 / 4) = some (F, 0) ∧
      F = ⟨3, [1 / 2, 2 / Real.sqrt 15, 1 / Real.sqrt (56 / 15)], [1 / 2, 2 / Real.sqrt 15],
        [0, 1], [0, 0, 1, 2]⟩ ∧
      (∀ i < 3, ∀ k < 3, F.entry i k =
        (([[2, 0, 0], [1 / 2, Real.sqrt 15 / 2, 0],
          [0, 2 / Real.sqrt 15, Real.sqrt (56 / 15)]] : List (List ℝ)).getD i []).getD k 0) ∧
      ∀ i < 3, ∀ j < 3, ∑ k ∈ Finset.range 3, F.entry i k * F.entry j k =
        (([[4, 1, 0], [1, 4, 1], [0, 1, 4]] : List (List ℝ)).getD i []).getD j 0 := by
  have hent : ∀ i < 3, ∀ k < 3,
      (⟨3, [1 / 2, 2 / Real.sqrt 15, 1 / Real.sqrt (56 / 15)], [1 / 2, 2 / Real.sqrt 15],
        [0, 1], [0, 0, 1, 2]⟩ : SparseLowerFactor ℝ).entry i k =
        (([[2, 0, 0], [1 / 2, Real.sqrt 15 / 2, 0],
          [0, 2 / Real.sqrt 15, Real.sqrt (56 / 15)]] : List (List ℝ)).getD i []).getD k 0 := by
    intro i hi k hk
    interval_cases i <;> interval_cases k <;>
      simp [SparseLowerFactor.entry, SparseLowerFactor.stored, SparseLowerFactor.rs,
        SparseLowerFactor.col, SparseLowerFactor.val, SparseLowerFactor.idg]
  refine ⟨_, ?_, rfl, hent, ?_⟩
  · rw [factor_prior_independent Real.sqrt exampleTridiagonal (1 / 4)
      exampleTridiagonal_tables exampleTridiagonal_fits exampleTridiagonal_sorted
      exampleTridiagonal_diag factor
      (SparseLowerFactor.init 0)]
    exact exampleTridiagonal_fresh
  · intro i hi j hj
    have h56 := sqrt_ratio_sq
    have hne : Real.sqrt 15 ≠ 0 := ne_of_gt sqrt_fifteen_pos
    have hA : 2 / Real.sqrt 15 * (2 / Real.sqrt 15) = 4 / 15 := by
      rw [div_mul_div_comm, sqrt_fifteen_sq]; norm_num
    have hB : Real.sqrt 15 / 2 * (2 / Real.sqrt 15) = 1 := by field_simp
    have hB' : 2 / Real.sqrt 15 * (Real.sqrt 15 / 2) = 1 := by field_simp
    have hC : Real.sqrt 15 / 2 * (Real.sqrt 15 / 2) = 15 / 4 := by
      rw [div_mul_div_comm, sqrt_fifteen_sq]; norm_num
    simp only [Finset.sum_range_succ, Finset.sum_range_zero, zero_add]
    rw [hent i hi 0 (by norm_num), hent i hi 1 (by norm_num), hent i hi 2 (by norm_num),
      hent j hj 0 (by norm_num), hent j hj 1 (by norm_num), hent j hj 2 (by norm_num)]
    interval_cases i <;> interval_cases j <;>
      simp only [List.getD_cons_zero, List.getD_cons_succ] <;>
      first
        | linear_combination (0 : ℝ) * hA
        | linear_combination hC
        | linear_combination hB
        | linear_combination hB'
        | linear_combination hA + h56

end TridiagonalClaim

/-! ## Null rows -/

section NullRows

variable {T : Type}

/-- C13 (as amended): in a matrix whose sizes fit `unsigned int`, a row `i` whose diagonal,
as the copy leaves it in `invdiag[i]` (the entry the row stores in column `i`), is exactly `0`
is skipped: `invdiag[i]` stays `0`, every off-diagonal
value of the row stays the value copied from the matrix, and the row is not counted as a small
pivot. -/
theorem null_rows_skipped [LinearOrderedField T] (sqrt : T → T) (matrix : SparseMatrix T)
    (factor : SparseLowerFactor T) (min_diagonal_ratio : T) (i : Nat) (hm : matrix.Tables)
    (hfit : matrix.Fits)
    (hi : i < matrix.n) (hz : copiedDiagonal matrix factor i = 0) :
    ∃ f1 F c, copyPhase matrix factor = some f1 ∧
      factor_incomplete_cholesky0 sqrt matrix factor min_diagonal_ratio = some (F, c) ∧
      (matrix.RowsSorted → ∀ t < (matrix.idx i).length, (matrix.idx i).getD t 0 = i →
        copiedDiagonal matrix factor i = (matrix.vals i).getD t 0) ∧
      F.idg i = 0 ∧
      (∀ p, F.rs i ≤ p → p < F.rs (i + 1) → F.val p = f1.val p) ∧
      (matrix.RowsSorted → ∀ t < (matrix.idx i).length, (matrix.idx i).getD t 0 < i →
        F.rs i + t < F.rs (i + 1) ∧ F.col (F.rs i + t) = (matrix.idx i).getD t 0 ∧
          F.val (F.rs i + t) = (matrix.vals i).getD t 0) ∧
      c = ((Finset.range matrix.n).filter (fun r => r ≠ i ∧
        copiedDiagonal matrix factor r ≠ 0 ∧
          rowResidual (copiedDiagonal matrix factor r) F r
            < min_diagonal_ratio * copiedDiagonal matrix factor r)).card := by
  obtain ⟨f1, hcopy, hcp⟩ := copyPhase_spec matrix hm hfit factor
  have hinv := hcp.copied_storageInv hm
  obtain ⟨F, c, hnum, hnp⟩ := numericPhase_spec sqrt min_diagonal_ratio hinv
  have hD : ∀ r < matrix.n, f1.idg r = copiedDiagonal matrix factor r := hcp.idg_eq
  have hrow := (hnp.rows i (by rw [hcp.n_eq]; exact hi)).1 (by rw [hD i hi]; exact hz)
  have hval : ∀ p, F.rs i ≤ p → p < F.rs (i + 1) → F.val p = f1.val p := by
    intro p hp1 hp2
    rw [hnp.numeric_rs_eq] at hp1 hp2
    exact hrow.2 p hp1 hp2
  refine ⟨f1, F, c, hcopy, ?_, ?_, hrow.1, hval, ?_, ?_⟩
  · unfold factor_incomplete_cholesky0
    rw [hcopy, Option.some_bind]
    exact hnum
  · intro hs t ht heq
    exact diag_at_of_sorted i _ _ _ 0 (hs i hi) (hm.row_len i hi) t ht heq
  · intro hs t ht hlt
    obtain ⟨h1, h2, h3⟩ := hcp.entry_at hm hs i hi t ht hlt
    rw [hnp.numeric_rs_eq, hnp.numeric_rs_eq, hnp.numeric_col_eq]
    refine ⟨h1, h2, ?_⟩
    rw [← h3]
    exact hrow.2 _ (by omega) h1
  · rw [hnp.count, hcp.n_eq]
    unfold smallPivotRows
    apply congrArg
    apply Finset.filter_congr
    intro r hr
    rw [Finset.mem_range] at hr
    rw [hnp.residual_eq, hD r hr]
    constructor
    · intro h
      refine ⟨?_, h⟩
      intro hri
      rw [hri] at h
      exact h.1 hz
    · intro h; exact h.2

theorem exampleNullRow_tables : exampleNullRow.Tables :=
  ⟨rfl, rfl, by intro i hi; have : i < 2 := hi; interval_cases i <;> rfl⟩

theorem exampleNullRow_fits : exampleNullRow.Fits := by
  refine ⟨by decide, ?_, ?_⟩
  · intro i hi
    have : i < 2 := hi
    interval_cases i <;> simp [SparseMatrix.idx, exampleNullRow]
  · simp [copiedCols, concatRows, lowerCols, SparseMatrix.idx, exampleNullRow]

theorem exampleNullRow_sorted : exampleNullRow.RowsSorted := by
  intro i hi
  have : i < 2 := hi
  interval_cases i <;> simp [SparseMatrix.idx, exampleNullRow]

/-- The diagonal the copy leaves in `invdiag[i]` is the entry a sorted row stores in column
`i`, whatever the factor held before. -/
theorem copiedDiagonal_of_stored [Zero T] (m : SparseMatrix T) (f0 : SparseLowerFactor T)
    (hm : m.Tables) (hs : m.RowsSorted) (i : Nat) (hi : i < m.n) (t : Nat)
    (ht : t < (m.idx i).length) (heq : (m.idx i).getD t 0 = i) :
    copiedDiagonal m f0 i = (m.vals i).getD t 0 :=
  diag_at_of_sorted i _ _ _ 0 (hs i hi) (hm.row_len i hi) t ht heq

/-- Row 1 of the example stores the value `0` in column 1, so the copy leaves `0` in
`invdiag[1]`. -/
theorem exampleNullRow_zero :
    copiedDiagonal exampleNullRow (SparseLowerFactor.init 0) 1 = 0 := by
  rw [copiedDiagonal_of_stored exampleNullRow _ exampleNullRow_tables exampleNullRow_sorted 1
    (by decide) 1 (by decide) rfl]
  rfl

/-- C13 at row 1 of a 2×2 matrix that stores `2` in column 0 and `0` on the diagonal of that
row. -/
theorem null_rows_skipped_witness :
    exampleNullRow.Tables ∧ exampleNullRow.Fits ∧ 1 < exampleNullRow.n ∧
    copiedDiagonal exampleNullRow (SparseLowerFactor.init 0) 1 = 0 ∧
    ∃ f1 F c, copyPhase exampleNullRow (SparseLowerFactor.init 0) = some f1 ∧
      factor_incomplete_cholesky0 Real.sqrt exampleNullRow (SparseLowerFactor.init 0) (1 / 4)
        = some (F, c) ∧
      (exampleNullRow.RowsSorted → ∀ t < (exampleNullRow.idx 1).length,
        (exampleNullRow.idx 1).getD t 0 = 1 →
        copiedDiagonal exampleNullRow (SparseLowerFactor.init 0) 1 =
          (exampleNullRow.vals 1).getD t 0) ∧
      F.idg 1 = 0 ∧
      (∀ p, F.rs 1 ≤ p → p < F.rs (1 + 1) → F.val p = f1.val p) ∧
      (exampleNullRow.RowsSorted → ∀ t < (exampleNullRow.idx 1).length,
        (exampleNullRow.idx 1).getD t 0 < 1 →
        F.rs 1 + t < F.rs (1 + 1) ∧ F.col (F.rs 1 + t) = (exampleNullRow.idx 1).getD t 0 ∧
          F.val (F.rs 1 + t) = (exampleNullRow.vals 1).getD t 0) ∧
      c = ((Finset.range exampleNullRow.n).filter (fun r => r ≠ 1 ∧
        copiedDiagonal exampleNullRow (SparseLowerFactor.init 0) r ≠ 0 ∧
          rowResidual (copiedDiagonal exampleNullRow (SparseLowerFactor.init 0) r) F r
            < 1 / 4 * copiedDiagonal exampleNullRow (SparseLowerFactor.init 0) r)).card :=
  ⟨exampleNullRow_tables, exampleNullRow_fits, by decide, exampleNullRow_zero,
    null_rows_skipped Real.sqrt exampleNullRow (SparseLowerFactor.init 0) (1 / 4) 1
      exampleNullRow_tables exampleNullRow_fits (by decide) exampleNullRow_zero⟩

end NullRows

/-! ## Null rows in the solve -/

section NullSolve

variable {T : Type}

theorem colTerm_zero [Field T] (f : SparseLowerFactor T) (j i : Nat) :
    f.colTerm j 0 i = 0 := by
  unfold SparseLowerFactor.colTerm
  apply Finset.sum_eq_zero
  intro k _
  split
  · exact mul_zero _
  · rfl

/-- The `do`/`while` loop entered at row `k` does not fault on a factor that satisfies the
storage invariant, leaves the entries above `k` as they are, and gives `0` at every row with
`invdiag` zero. -/
theorem solveLoop_frame [Field T] {f : SparseLowerFactor T} (h : StorageInv f) :
    ∀ (k : Nat) (y : List T), k < f.n → y.length = f.n →
      ∃ r, solveLoop f k y = some r ∧ r.length = f.n ∧
        (∀ j, k < j → r.getD j 0 = y.getD j 0) ∧
        (∀ j, j ≤ k → f.idg j = 0 → r.getD j 0 = 0) := by
  intro k
  induction k with
  | zero =>
    intro y hk hy
    obtain ⟨y', hrow, hlen, hval⟩ := solveRow_spec h 0 hk y hy
    refine ⟨y', hrow, hlen, ?_, ?_⟩
    · intro j hj
      rw [hval j, if_neg (by omega), colTerm_eq_zero h 0 j _ hk (by omega), sub_zero]
    · intro j hj hz
      have : j = 0 := by omega
      subst this
      rw [hval 0, if_pos rfl, hz, mul_zero]
  | succ k ih =>
    intro y hk hy
    obtain ⟨y', hrow, hlen, hval⟩ := solveRow_spec h (k + 1) hk y hy
    obtain ⟨r, hr, hrlen, hframe, hzero⟩ := ih y' (by omega) hlen
    refine ⟨r, ?_, hrlen, ?_, ?_⟩
    · show (solveRow f (k + 1) y).bind (solveLoop f k) = some r
      rw [hrow]; exact hr
    · intro j hj
      rw [hframe j (by omega), hval j, if_neg (by omega),
        colTerm_eq_zero h (k + 1) j _ hk (by omega), sub_zero]
    · intro j hj hz
      by_cases hjk : j = k + 1
      · subst hjk
        rw [hframe (k + 1) (by omega), hval (k + 1), if_pos rfl, hz, mul_zero]
      · exact hzero j (by omega) hz

/-- In a field: when row `i` of the matrix has diagonal `0` (as the copy leaves it in
`invdiag[i]`), the solve on the factor returned and any vector `x` of length `n` returns a
vector whose entry `i` is `0`, and the pass of the loop for row `i` sets entry `i` to `0` and
changes no other entry. -/
theorem null_row_solve_exact [LinearOrderedField T] (sqrt : T → T) (matrix : SparseMatrix T)
    (factor : SparseLowerFactor T) (min_diagonal_ratio : T) (i : Nat) (x : List T)
    (hm : matrix.Tables) (hfit : matrix.Fits)
    (hi : i < matrix.n) (hz : copiedDiagonal matrix factor i = 0)
    (hx : x.length = matrix.n) :
    ∃ F c r,
      factor_incomplete_cholesky0 sqrt matrix factor min_diagonal_ratio = some (F, c) ∧
      solve_lower_transpose_in_place F x = .returned r ∧ r.getD i 0 = 0 ∧
      ∀ y : List T, y.length = matrix.n →
        ∃ y', solveRow F i y = some y' ∧ y'.length = matrix.n ∧ y'.getD i 0 = 0 ∧
          ∀ j, j ≠ i → y'.getD j 0 = y.getD j 0 := by
  obtain ⟨f1, F, c, hcp, hinv, hfac, hnp⟩ :=
    factor_spec sqrt matrix factor min_diagonal_ratio hm hfit
  have hF := hnp.numeric_storageInv hinv
  have hn : F.n = matrix.n := by rw [hnp.n_eq, hcp.n_eq]
  have hid : F.idg i = 0 :=
    ((hnp.rows i (by rw [hcp.n_eq]; exact hi)).1 (by rw [hcp.idg_eq i hi]; exact hz)).1
  obtain ⟨r, hr, _, _, hzero⟩ := solveLoop_frame hF (F.n - 1) x (by omega) (by omega)
  refine ⟨F, c, r, hfac, ?_, hzero i (by omega) hid, ?_⟩
  · unfold solve_lower_transpose_in_place
    have hu : udec F.n = F.n - 1 := by
      unfold udec; rw [if_neg (by omega)]
    rw [if_pos (by omega), hu, hr]
  · intro y hy
    obtain ⟨y', hrow, hlen, hval⟩ := solveRow_spec hF i (by omega) y (by omega)
    refine ⟨y', hrow, by omega, ?_, ?_⟩
    · rw [hval i, if_pos rfl, hid, mul_zero]
    · intro j hj
      rw [hval j, if_neg hj, hid, mul_zero, colTerm_zero, sub_zero]

/-- The solve at row 1 of a 2×2 matrix that stores `2` in column 0 and `0` on the diagonal of
that row, with the right-hand side `[1, 1]`. -/
theorem null_row_solve_exact_example :
    exampleNullRow.Tables ∧ exampleNullRow.Fits ∧ 1 < exampleNullRow.n ∧
    copiedDiagonal exampleNullRow (SparseLowerFactor.init 0) 1 = 0 ∧
    ([1, 1] : List ℝ).length = exampleNullRow.n ∧
    ∃ F c r,
      factor_incomplete_cholesky0 Real.sqrt exampleNullRow (SparseLowerFactor.init 0) (1 / 4)
        = some (F, c) ∧
      solve_lower_transpose_in_place F [1, 1] = .returned r ∧ r.getD 1 0 = 0 ∧
      ∀ y : List ℝ, y.length = exampleNullRow.n →
        ∃ y', solveRow F 1 y = some y' ∧ y'.length = exampleNullRow.n ∧ y'.getD 1 0 = 0 ∧
          ∀ j, j ≠ 1 → y'.getD j 0 = y.getD j 0 :=
  ⟨exampleNullRow_tables, exampleNullRow_fits, by decide, exampleNullRow_zero, rfl,
    null_row_solve_exact Real.sqrt exampleNullRow (SparseLowerFactor.init 0) (1 / 4) 1 [1, 1]
      exampleNullRow_tables exampleNullRow_fits (by decide) exampleNullRow_zero rfl⟩

end NullSolve

/-! ## Shape of the container and index safety -/

section Shape

variable {T : Type}

/-- C18 (as stated) fails for `clear()`: after it `rowstart` is empty, so it has not `n+1 = 1`
entries and is not the `rowstart` of a factor constructed with `n = 0`. -/
theorem clear_breaks_rowstart_shape :
    ¬ (exampleFactor.clear.n = 0 ∧ exampleFactor.clear.invdiag.length = exampleFactor.clear.n ∧
        exampleFactor.clear.rowstart.length = exampleFactor.clear.n + 1 ∧
        exampleFactor.clear.rowstart.length =
          (SparseLowerFactor.init 0 : SparseLowerFactor ℚ).rowstart.length) := by
  intro h
  exact absurd h.2.2.1 (by decide)

/-- C18 (as amended): construction with `n` and `resize(n)` leave `invdiag` of length `n` and
`rowstart` of the length `n+1` as computed in `unsigned int` (`n+1` for `n < 4294967295`, `0`
for `n = 4294967295`); the factorization of a matrix with `n < 4294967295` rows leaves
`invdiag` of length `n` and `rowstart` of length `n+1`; `clear()` sets `n = 0` and empties all
four vectors, `rowstart` included. -/
theorem container_shape [LinearOrderedField T] (sqrt : T → T) (n : Nat)
    (f : SparseLowerFactor T) (matrix : SparseMatrix T) (min_diagonal_ratio : T)
    (hm : matrix.Tables) (hfit : matrix.Fits) :
    ((SparseLowerFactor.init n : SparseLowerFactor T).n = n ∧
      (SparseLowerFactor.init n : SparseLowerFactor T).invdiag.length = n ∧
      (SparseLowerFactor.init n : SparseLowerFactor T).rowstart.length
        = (n + 1) % 4294967296) ∧
    ((f.resize n).n = n ∧ (f.resize n).invdiag.length = n ∧
      (f.resize n).rowstart.length = (n + 1) % 4294967296) ∧
    (n < 4294967295 →
      (SparseLowerFactor.init n : SparseLowerFactor T).rowstart.length = n + 1 ∧
        (f.resize n).rowstart.length = n + 1) ∧
    (n = 4294967295 →
      (SparseLowerFactor.init n : SparseLowerFactor T).rowstart.length = 0 ∧
        (f.resize n).rowstart.length = 0) ∧
    (f.clear.n = 0 ∧ f.clear.invdiag = [] ∧ f.clear.value = [] ∧ f.clear.colindex = [] ∧
      f.clear.rowstart = []) ∧
    ∃ F c, factor_incomplete_cholesky0 sqrt matrix f min_diagonal_ratio = some (F, c) ∧
      F.n = matrix.n ∧ F.invdiag.length = F.n ∧ F.rowstart.length = F.n + 1 := by
  have hinit : (SparseLowerFactor.init n : SparseLowerFactor T).rowstart.length
      = (n + 1) % 4294967296 := by simp [SparseLowerFactor.init]
  have hres : (f.resize n).rowstart.length = (n + 1) % 4294967296 := vresize_length _ _ _
  refine ⟨⟨rfl, by simp [SparseLowerFactor.init], hinit⟩, ⟨rfl, vresize_length _ _ _, hres⟩,
    ?_, ?_, ⟨rfl, rfl, rfl, rfl, rfl⟩, ?_⟩
  · intro h
    rw [hinit, hres, Nat.mod_eq_of_lt (by omega)]
    exact ⟨rfl, rfl⟩
  · intro h
    rw [hinit, hres, h]
    exact ⟨rfl, rfl⟩
  · obtain ⟨f1, F, c, hcp, hinv, hfac, hnp⟩ :=
      factor_spec sqrt matrix f min_diagonal_ratio hm hfit
    have hF := hnp.numeric_storageInv hinv
    exact ⟨F, c, hfac, by rw [hnp.n_eq, hcp.n_eq], hF.invdiag_len, hF.rowstart_len⟩

/-- C19 (as amended): on a matrix held in two `n`-row tables with as many values as indices in
every row (rows sorted or not) whose sizes fit `unsigned int`, and whatever the factor held
before, the factorization makes no access
out of range (it returns); in the factor every column stored in row `i` is below `i`, so
`rowstart[j]`, `rowstart[j+1]` and `invdiag[j]` exist for it, and every row ends at or before
`rowstart[n] = colindex.size()`, which bounds the merge cursors. -/
theorem factor_index_safe [LinearOrderedField T] (sqrt : T → T) (matrix : SparseMatrix T)
    (factor : SparseLowerFactor T) (min_diagonal_ratio : T) (hm : matrix.Tables)
    (hfit : matrix.Fits) :
    ∃ F c, factor_incomplete_cholesky0 sqrt matrix factor min_diagonal_ratio = some (F, c) ∧
      F.n = matrix.n ∧ F.invdiag.length = matrix.n ∧ F.rowstart.length = matrix.n + 1 ∧
      F.rs matrix.n = F.colindex.length ∧ F.value.length = F.colindex.length ∧
      (∀ i < matrix.n, F.rs i ≤ F.rs (i + 1) ∧ F.rs (i + 1) ≤ F.colindex.length) ∧
      ∀ i < matrix.n, ∀ k, F.rs i ≤ k → k < F.rs (i + 1) →
        F.col k < i ∧ F.col k + 1 < F.rowstart.length ∧ F.col k < F.invdiag.length ∧
          F.rs (F.col k + 1) ≤ F.rs i := by
  obtain ⟨f1, F, c, hcp, hinv, hfac, hnp⟩ :=
    factor_spec sqrt matrix factor min_diagonal_ratio hm hfit
  have hF := hnp.numeric_storageInv hinv
  have hn : F.n = matrix.n := by rw [hnp.n_eq, hcp.n_eq]
  refine ⟨F, c, hfac, hn, by rw [hF.invdiag_len, hn], by rw [hF.rowstart_len, hn], ?_,
    hF.value_len, ?_, ?_⟩
  · rw [← hn, hF.rowstart_end, hF.value_len]
  · intro i hi
    exact ⟨hF.mono i (by omega), hF.rs_le_len (i + 1) (by omega)⟩
  · intro i hi k hk1 hk2
    have hc := hF.col_lt i k (by omega) hk1 hk2
    refine ⟨hc, by rw [hF.rowstart_len]; omega, by rw [hF.invdiag_len]; omega, ?_⟩
    exact hF.rs_le i (F.col k + 1) (by omega) (by omega)

theorem exampleUnsorted_tables : exampleUnsorted.Tables :=
  ⟨rfl, rfl, by intro i hi; have : i < 3 := hi; interval_cases i <;> rfl⟩

theorem exampleUnsorted_fits : exampleUnsorted.Fits := by
  refine ⟨by decide, ?_, ?_⟩
  · intro i hi
    have : i < 3 := hi
    interval_cases i <;> simp [SparseMatrix.idx, exampleUnsorted]
  · simp [copiedCols, concatRows, lowerCols, SparseMatrix.idx, exampleUnsorted]

/-- C18 (as amended) at `n = 2`, a freshly constructed factor and the matrix
`[[4, 2], [2, 5]]`. -/
theorem container_shape_witness :
    exampleMatrix.Tables ∧ exampleMatrix.Fits ∧
    (((SparseLowerFactor.init 2 : SparseLowerFactor ℝ).n = 2 ∧
      (SparseLowerFactor.init 2 : SparseLowerFactor ℝ).invdiag.length = 2 ∧
      (SparseLowerFactor.init 2 : SparseLowerFactor ℝ).rowstart.length
        = (2 + 1) % 4294967296) ∧
    (((SparseLowerFactor.init 0 : SparseLowerFactor ℝ).resize 2).n = 2 ∧
      ((SparseLowerFactor.init 0 : SparseLowerFactor ℝ).resize 2).invdiag.length = 2 ∧
      ((SparseLowerFactor.init 0 : SparseLowerFactor ℝ).resize 2).rowstart.length
        = (2 + 1) % 4294967296) ∧
    (2 < 4294967295 →
      (SparseLowerFactor.init 2 : SparseLowerFactor ℝ).rowstart.length = 2 + 1 ∧
        ((SparseLowerFactor.init 0 : SparseLowerFactor ℝ).resize 2).rowstart.length = 2 + 1) ∧
    (2 = 4294967295 →
      (SparseLowerFactor.init 2 : SparseLowerFactor ℝ).rowstart.length = 0 ∧
        ((SparseLowerFactor.init 0 : SparseLowerFactor ℝ).resize 2).rowstart.length = 0) ∧
    ((SparseLowerFactor.init 0 : SparseLowerFactor ℝ).clear.n = 0 ∧
      (SparseLowerFactor.init 0 : SparseLowerFactor ℝ).clear.invdiag = [] ∧
      (SparseLowerFactor.init 0 : SparseLowerFactor ℝ).clear.value = [] ∧
      (SparseLowerFactor.init 0 : SparseLowerFactor ℝ).clear.colindex = [] ∧
      (SparseLowerFactor.init 0 : SparseLowerFactor ℝ).clear.rowstart = []) ∧
    ∃ F c, factor_incomplete_cholesky0 Real.sqrt exampleMatrix (SparseLowerFactor.init 0)
        (1 / 4) = some (F, c) ∧
      F.n = exampleMatrix.n ∧ F.invdiag.length = F.n ∧ F.rowstart.length = F.n + 1) :=
  ⟨exampleMatrix_tables, exampleMatrix_fits,
    container_shape Real.sqrt 2 (SparseLowerFactor.init 0) exampleMatrix (1 / 4)
      exampleMatrix_tables exampleMatrix_fits⟩

/-- C19 at a 3×3 matrix with unsorted rows. -/
theorem factor_index_safe_witness :
    exampleUnsorted.Tables ∧ exampleUnsorted.Fits ∧
    ∃ F c, factor_incomplete_cholesky0 Real.sqrt exampleUnsorted (SparseLowerFactor.init 0)
        (1 / 4) = some (F, c) ∧
      F.n = exampleUnsorted.n ∧ F.invdiag.length = exampleUnsorted.n ∧
      F.rowstart.length = exampleUnsorted.n + 1 ∧
      F.rs exampleUnsorted.n = F.colindex.length ∧ F.value.length = F.colindex.length ∧
      (∀ i < exampleUnsorted.n, F.rs i ≤ F.rs (i + 1) ∧ F.rs (i + 1) ≤ F.colindex.length) ∧
      ∀ i < exampleUnsorted.n, ∀ k, F.rs i ≤ k → k < F.rs (i + 1) →
        F.col k < i ∧ F.col k + 1 < F.rowstart.length ∧ F.col k < F.invdiag.length ∧
          F.rs (F.col k + 1) ≤ F.rs i :=
  ⟨exampleUnsorted_tables, exampleUnsorted_fits,
    factor_index_safe Real.sqrt exampleUnsorted (SparseLowerFactor.init 0) (1 / 4)
      exampleUnsorted_tables exampleUnsorted_fits⟩

end Shape

/-! ## Only the lower triangle is read -/

section LowerOnly

variable {T : Type}

theorem concatRows_congr {α : Type} (g g' : Nat → List α) :
    ∀ r, (∀ i < r, g i = g' i) → concatRows g r = concatRows g' r := by
  intro r
  induction r with
  | zero => intro _; rfl
  | succ r ih =>
    intro h
    rw [concatRows_succ, concatRows_succ, ih (fun i hi => h i (by omega)), h r (by omega)]

/-- On a strictly increasing row the scan of lines 76-84 only depends on the entries with
column at most `i`. -/
theorem scan_of_sorted (i : Nat) : ∀ (idx : List Nat) (vals : List T) (d : T),
    idx.Pairwise (· < ·) → vals.length = idx.length →
    lowerCols i idx =
        lowerCols i (((idx.zip vals).filter (fun p => decide (p.1 ≤ i))).map Prod.fst) ∧
      lowerVals i idx vals =
        lowerVals i (((idx.zip vals).filter (fun p => decide (p.1 ≤ i))).map Prod.fst)
          (((idx.zip vals).filter (fun p => decide (p.1 ≤ i))).map Prod.snd) ∧
      copiedDiag i idx vals d =
        copiedDiag i (((idx.zip vals).filter (fun p => decide (p.1 ≤ i))).map Prod.fst)
          (((idx.zip vals).filter (fun p => decide (p.1 ≤ i))).map Prod.snd) d := by
  intro idx
  induction idx with
  | nil => intro vals d _ _; cases vals <;> simp [lowerCols, lowerVals, copiedDiag]
  | cons c rest ih =>
    intro vals d hp hlen
    rw [List.pairwise_cons] at hp
    cases vals with
    | nil => simp at hlen
    | cons v vs =>
      have hl : vs.length = rest.length := by simpa using hlen
      by_cases hc : c ≤ i
      · rw [List.zip_cons_cons, List.filter_cons_of_pos (by simpa using hc)]
        simp only [List.map_cons]
        by_cases h1 : c < i
        · obtain ⟨a1, a2, _⟩ := ih vs d hp.2 hl
          obtain ⟨_, _, a3⟩ := ih vs d hp.2 hl
          refine ⟨?_, ?_, ?_⟩
          · simp only [lowerCols, if_pos h1]; rw [← a1]
          · simp only [lowerVals, if_pos h1]; rw [← a2]
          · simp only [copiedDiag, if_pos h1]; rw [← a3]
        · have h2 : c = i := by omega
          obtain ⟨a1, a2, _⟩ := ih vs d hp.2 hl
          obtain ⟨_, _, a3⟩ := ih vs v hp.2 hl
          refine ⟨?_, ?_, ?_⟩
          · simp only [lowerCols, if_neg h1, if_pos h2]; rw [← a1]
          · simp only [lowerVals, if_neg h1, if_pos h2]; rw [← a2]
          · simp only [copiedDiag, if_neg h1, if_pos h2]; rw [← a3]
      · have hnil : (rest.zip vs).filter (fun p => decide (p.1 ≤ i)) = [] := by
          rw [List.filter_eq_nil_iff]
          intro p hp'
          have := hp.1 p.1 (List.of_mem_zip hp').1
          simp only [decide_eq_true_eq]
          omega
        rw [List.zip_cons_cons, List.filter_cons_of_neg (by simpa using hc), hnil]
        simp [lowerCols, lowerVals, copiedDiag, show ¬ c < i by omega, show ¬ c = i by omega]

/-- C15 (as amended): two matrices of the same dimension with strictly increasing rows, whose
sizes fit `unsigned int`, that agree, in every row `i`, on the stored entries with column at
most `i` give, from the same factor state and ratio, the same factor and the same small-pivot
count. -/
theorem lower_triangle_only [LinearOrderedField T] (sqrt : T → T) (m m' : SparseMatrix T)
    (factor : SparseLowerFactor T) (min_diagonal_ratio : T) (hn : m.n = m'.n)
    (hm : m.Tables) (hm' : m'.Tables) (hfit : m.Fits) (hfit' : m'.Fits)
    (hs : m.RowsSorted) (hs' : m'.RowsSorted)
    (hagree : ∀ i < m.n, m.lowerPart i = m'.lowerPart i) :
    factor_incomplete_cholesky0 sqrt m factor min_diagonal_ratio =
        factor_incomplete_cholesky0 sqrt m' factor min_diagonal_ratio ∧
      ∃ F c, factor_incomplete_cholesky0 sqrt m factor min_diagonal_ratio = some (F, c) := by
  obtain ⟨f1, hc, hp⟩ := copyPhase_spec m hm hfit factor
  obtain ⟨f1', hc', hp'⟩ := copyPhase_spec m' hm' hfit' factor
  have hscan : ∀ i < m.n, lowerCols i (m.idx i) = lowerCols i (m'.idx i) ∧
      lowerVals i (m.idx i) (m.vals i) = lowerVals i (m'.idx i) (m'.vals i) ∧
      ∀ d, copiedDiag i (m.idx i) (m.vals i) d = copiedDiag i (m'.idx i) (m'.vals i) d := by
    intro i hi
    have ha := hagree i hi
    unfold SparseMatrix.lowerPart at ha
    refine ⟨?_, ?_, ?_⟩
    · rw [(scan_of_sorted i _ (m.vals i) 0 (hs i hi) (hm.row_len i hi)).1,
        (scan_of_sorted i _ (m'.vals i) 0 (hs' i (by omega)) (hm'.row_len i (by omega))).1, ha]
    · rw [(scan_of_sorted i _ (m.vals i) 0 (hs i hi) (hm.row_len i hi)).2.1,
        (scan_of_sorted i _ (m'.vals i) 0 (hs' i (by omega))
          (hm'.row_len i (by omega))).2.1, ha]
    · intro d
      rw [(scan_of_sorted i _ (m.vals i) d (hs i hi) (hm.row_len i hi)).2.2,
        (scan_of_sorted i _ (m'.vals i) d (hs' i (by omega))
          (hm'.row_len i (by omega))).2.2, ha]
  have heq : f1 = f1' := by
    apply copyPost_eq hp hp' hn
    · intro r hr
      exact concatRows_congr _ _ r (fun i hi => (hscan i (by omega)).1)
    · exact concatRows_congr _ _ m.n (fun i hi => (hscan i hi).2.1)
    · intro r hr
      unfold copiedDiagonal
      rw [(hscan r hr).2.2, hn]
  obtain ⟨F, c, hnum, _⟩ := numericPhase_spec sqrt min_diagonal_ratio (hp.copied_storageInv hm)
  constructor
  · unfold factor_incomplete_cholesky0
    rw [hc, hc', heq]
  · refine ⟨F, c, ?_⟩
    unfold factor_incomplete_cholesky0
    rw [hc, Option.some_bind]
    exact hnum

theorem exampleUpperChanged_tables : exampleUpperChanged.Tables :=
  ⟨rfl, rfl, by intro i hi; have : i < 2 := hi; interval_cases i <;> rfl⟩

theorem exampleUpperChanged_fits : exampleUpperChanged.Fits := by
  refine ⟨by decide, ?_, ?_⟩
  · intro i hi
    have : i < 2 := hi
    interval_cases i <;> simp [SparseMatrix.idx, exampleUpperChanged]
  · simp [copiedCols, concatRows, lowerCols, SparseMatrix.idx, exampleUpperChanged]

theorem exampleUpperChanged_sorted : exampleUpperChanged.RowsSorted := by
  intro i hi
  have : i < 2 := hi
  interval_cases i <;> simp [SparseMatrix.idx, exampleUpperChanged]

theorem exampleUpperChanged_agree :
    ∀ i < exampleMatrix.n, exampleMatrix.lowerPart i = exampleUpperChanged.lowerPart i := by
  intro i hi
  have : i < 2 := hi
  interval_cases i <;>
    simp [SparseMatrix.lowerPart, SparseMatrix.idx, SparseMatrix.vals, exampleMatrix,
      exampleUpperChanged, List.filter]

/-- C15 at the matrices `[[4, 2], [2, 5]]` and `[[4, 7], [2, 5]]`. -/
theorem lower_triangle_only_witness :
    exampleMatrix.n = exampleUpperChanged.n ∧ exampleMatrix.Tables ∧
    exampleUpperChanged.Tables ∧ exampleMatrix.Fits ∧ exampleUpperChanged.Fits ∧
    exampleMatrix.RowsSorted ∧ exampleUpperChanged.RowsSorted ∧
    (∀ i < exampleMatrix.n, exampleMatrix.lowerPart i = exampleUpperChanged.lowerPart i) ∧
    (factor_incomplete_cholesky0 Real.sqrt exampleMatrix (SparseLowerFactor.init 0) (1 / 4) =
        factor_incomplete_cholesky0 Real.sqrt exampleUpperChanged (SparseLowerFactor.init 0)
          (1 / 4) ∧
      ∃ F c, factor_incomplete_cholesky0 Real.sqrt exampleMatrix (SparseLowerFactor.init 0)
        (1 / 4) = some (F, c)) :=
  ⟨rfl, exampleMatrix_tables, exampleUpperChanged_tables, exampleMatrix_fits,
    exampleUpperChanged_fits, exampleMatrix_sorted,
    exampleUpperChanged_sorted, exampleUpperChanged_agree,
    lower_triangle_only Real.sqrt exampleMatrix exampleUpperChanged (SparseLowerFactor.init 0)
      (1 / 4) rfl exampleMatrix_tables exampleUpperChanged_tables exampleMatrix_fits
      exampleUpperChanged_fits
      exampleMatrix_sorted exampleUpperChanged_sorted exampleUpperChanged_agree⟩

end LowerOnly

/-! ## Row `i` depends on the rows up to `i` -/

section Prefix

variable {T : Type}

theorem crossSum_congr_both [Field T] (c c' : Nat → Nat) (v v' : Nat → T) (a k b e : Nat)
    (hc1 : ∀ p, a ≤ p → p < k → c' p = c p) (hc2 : ∀ q, b ≤ q → q < e → c' q = c q)
    (hv1 : ∀ p, a ≤ p → p < k → v' p = v p) (hv2 : ∀ q, b ≤ q → q < e → v' q = v q) :
    crossSum c' v' a k b e = crossSum c v a k b e := by
  unfold crossSum
  apply Finset.sum_congr rfl
  intro p hp
  rw [Finset.mem_Ico] at hp
  apply Finset.sum_congr rfl
  intro q hq
  rw [Finset.mem_Ico] at hq
  rw [hc1 p hp.1 hp.2, hc2 q hq.1 hq.2, hv1 p hp.1 hp.2, hv2 q hq.1 hq.2]

/-- On sorted rows the description `RowPost` of the numeric loop determines its result: two
factors that agree on the rows below `k` get the same values and reciprocal diagonals there. -/
theorem rowPost_unique [LinearOrderedField T] (sqrt : T → T) (ratioMin : T)
    {f g : SparseLowerFactor T} (hf : StorageInv f) (hincf : RowsIncreasing f)
    (hincg : RowsIncreasing g) (k : Nat) (hkf : k ≤ f.n) (h0 : f.rs 0 = 0)
    (hrs : ∀ r ≤ k, g.rs r = f.rs r) (hcol : ∀ p < f.rs k, g.col p = f.col p)
    (hval : ∀ p < f.rs k, g.val p = f.val p) (hidg : ∀ i < k, g.idg i = f.idg i)
    (v id v' id' : Nat → T) (hpost : ∀ i < k, RowPost sqrt ratioMin f v id i)
    (hpost' : ∀ i < k, RowPost sqrt ratioMin g v' id' i) :
    ∀ i ≤ k, (∀ p < f.rs i, v' p = v p) ∧ (∀ r < i, id' r = id r) := by
  intro i
  induction i with
  | zero =>
    intro _
    exact ⟨fun p hp => by omega, fun r hr => by omega⟩
  | succ i ih =>
    intro hi
    obtain ⟨ihv, ihid⟩ := ih (by omega)
    have hik : f.rs (i + 1) ≤ f.rs k := hf.rs_le k (i + 1) hi hkf
    have hmono : f.rs i ≤ f.rs (i + 1) := hf.mono i (by omega)
    have hv : ∀ p < f.rs (i + 1), v' p = v p := by
      intro p
      induction p using Nat.strong_induction_on with
      | _ p ihp =>
        intro hp
        by_cases hlt : p < f.rs i
        · exact ihv p hlt
        · have hp1 : f.rs i ≤ p := by omega
          have hgp1 : g.rs i ≤ p := by rw [hrs i (by omega)]; exact hp1
          have hgp2 : p < g.rs (i + 1) := by rw [hrs (i + 1) hi]; exact hp
          by_cases hD : f.idg i = 0
          · rw [((hpost i (by omega)).1 hD).2 p hp1 hp,
              ((hpost' i (by omega)).1 (by rw [hidg i (by omega)]; exact hD)).2 p hgp1 hgp2]
            exact hval p (by omega)
          · have r1 := ((hpost i (by omega)).2 hD).2 hincf p hp1 hp
            have r2 := ((hpost' i (by omega)).2
              (by rw [hidg i (by omega)]; exact hD)).2 hincg p hgp1 hgp2
            unfold EntryRule at r1 r2
            have hj : f.col p < i := hf.col_lt i p (by omega) hp1 hp
            have hle : f.rs (f.col p + 1) ≤ f.rs i :=
              hf.rs_le i (f.col p + 1) (by omega) (by omega)
            rw [r1, r2, hcol p (by omega), hval p (by omega), hrs i (by omega),
              hrs (f.col p) (by omega), hrs (f.col p + 1) (by omega), ihid (f.col p) hj]
            congr 2
            apply crossSum_congr_both
            · intro q _ hq; exact hcol q (by omega)
            · intro q _ hq; exact hcol q (by omega)
            · intro q _ hq; exact ihp q hq (by omega)
            · intro q _ hq; exact ihp q (by omega) (by omega)
    refine ⟨hv, ?_⟩
    intro r hr
    by_cases hri : r = i
    · subst hri
      have hres : pivotResidual g v' r = pivotResidual f v r := by
        unfold pivotResidual
        rw [hidg r (by omega), hrs r (by omega), hrs (r + 1) hi]
        congr 1
        apply Finset.sum_congr rfl
        intro p hp
        rw [Finset.mem_Ico] at hp
        rw [hv p hp.2]
      by_cases hD : f.idg r = 0
      · rw [((hpost r (by omega)).1 hD).1,
          ((hpost' r (by omega)).1 (by rw [hidg r (by omega)]; exact hD)).1]
      · rw [((hpost r (by omega)).2 hD).1,
          ((hpost' r (by omega)).2 (by rw [hidg r (by omega)]; exact hD)).1, hres,
          hidg r (by omega)]
    · exact ihid r (by omega)

end Prefix

section PrefixClaim

variable {T : Type}

theorem concatRows_prefix_getD {α : Type} (g : Nat → List α) (d : α) (k p : Nat)
    (hp : p < (concatRows g k).length) :
    ∀ n, k ≤ n → (concatRows g n).getD p d = (concatRows g k).getD p d := by
  intro n
  induction n with
  | zero => intro hk; have : k = 0 := by omega
            subst this; rfl
  | succ n ih =>
    intro hk
    by_cases hkn : k = n + 1
    · subst hkn; rfl
    · have hle := concatRows_length_le g n k (by omega)
      rw [concatRows_succ, List.getD_append _ _ _ _ (by omega)]
      exact ih (by omega)

theorem getD_take {α : Type} (xs : List α) (k i : Nat) (d : α) (hi : i < k) :
    (xs.take k).getD i d = xs.getD i d := by
  rw [List.getD_eq_getElem?_getD, List.getD_eq_getElem?_getD, List.getElem?_take, if_pos hi]

theorem vresize_zeros_getD [Zero T] (a n i : Nat) :
    (vresize (List.replicate a (0 : T)) n 0).getD i 0 = 0 := by
  by_cases hi : i < (vresize (List.replicate a (0 : T)) n 0).length
  · rw [List.getD_eq_getElem _ _ hi]
    have hmem := List.getElem_mem hi
    unfold vresize at hmem
    rcases List.mem_append.mp hmem with h | h
    · exact List.eq_of_mem_replicate (List.mem_of_mem_take h)
    · exact List.eq_of_mem_replicate h
  · exact List.getD_eq_default _ _ (by omega)

/-- The factorization of a `k×k` matrix that agrees with the first `k` rows of a matrix on the
entries with column at most the row is the leading part of the factorization of the matrix,
both started from fresh factors. -/
theorem prefix_of_agreeing [LinearOrderedField T] (sqrt : T → T) (m mk : SparseMatrix T)
    (ratioMin : T) (a b : Nat) (hm : m.Tables) (hmk : mk.Tables)
    (hfit : m.Fits) (hfitk : mk.Fits) (hs : m.RowsSorted)
    (hsk : mk.RowsSorted) (hk : mk.n ≤ m.n)
    (hagree : ∀ i < mk.n, mk.lowerPart i = m.lowerPart i) :
    ∃ F c G c',
      factor_incomplete_cholesky0 sqrt m (SparseLowerFactor.init a) ratioMin = some (F, c) ∧
      factor_incomplete_cholesky0 sqrt mk (SparseLowerFactor.init b) ratioMin
        = some (G, c') ∧
      G.invdiag = F.invdiag.take mk.n ∧ G.rowstart = F.rowstart.take (mk.n + 1) ∧
      G.value = F.value.take (F.rs mk.n) ∧ G.colindex = F.colindex.take (F.rs mk.n) := by
  obtain ⟨f1, F, c, hcp, hinv, hfac, hnp⟩ :=
    factor_spec sqrt m (SparseLowerFactor.init a) ratioMin hm hfit
  obtain ⟨g1, G, c', hcq, hinvg, hfacg, hnq⟩ :=
    factor_spec sqrt mk (SparseLowerFactor.init b) ratioMin hmk hfitk
  have hF := hnp.numeric_storageInv hinv
  have hG := hnq.numeric_storageInv hinvg
  have hscan : ∀ i < mk.n, lowerCols i (mk.idx i) = lowerCols i (m.idx i) ∧
      lowerVals i (mk.idx i) (mk.vals i) = lowerVals i (m.idx i) (m.vals i) ∧
      ∀ d, copiedDiag i (mk.idx i) (mk.vals i) d = copiedDiag i (m.idx i) (m.vals i) d := by
    intro i hi
    have ha := hagree i hi
    unfold SparseMatrix.lowerPart at ha
    refine ⟨?_, ?_, ?_⟩
    · rw [(scan_of_sorted i _ (mk.vals i) 0 (hsk i hi) (hmk.row_len i hi)).1,
        (scan_of_sorted i _ (m.vals i) 0 (hs i (by omega)) (hm.row_len i (by omega))).1, ha]
    · rw [(scan_of_sorted i _ (mk.vals i) 0 (hsk i hi) (hmk.row_len i hi)).2.1,
        (scan_of_sorted i _ (m.vals i) 0 (hs i (by omega)) (hm.row_len i (by omega))).2.1, ha]
    · intro d
      rw [(scan_of_sorted i _ (mk.vals i) d (hsk i hi) (hmk.row_len i hi)).2.2,
        (scan_of_sorted i _ (m.vals i) d (hs i (by omega)) (hm.row_len i (by omega))).2.2, ha]
  have hcc : ∀ r ≤ mk.n, copiedCols mk r = copiedCols m r := fun r hr =>
    concatRows_congr _ _ r (fun i hi => (hscan i (by omega)).1)
  have hcv : ∀ r ≤ mk.n, copiedVals mk r = copiedVals m r := fun r hr =>
    concatRows_congr _ _ r (fun i hi => (hscan i (by omega)).2.1)
  have hrs1 : ∀ r ≤ mk.n, g1.rs r = f1.rs r := by
    intro r hr
    rw [hcq.rs_eq r hr, hcp.rs_eq r (by omega), hcc r hr]
  have hrsk : f1.rs mk.n = (copiedCols m mk.n).length := hcp.rs_eq mk.n hk
  have hcol1 : ∀ p < f1.rs mk.n, g1.col p = f1.col p := by
    intro p hp
    show g1.colindex.getD p 0 = f1.colindex.getD p 0
    rw [hcq.colindex_eq, hcp.colindex_eq, hcc mk.n (Nat.le_refl _)]
    exact (concatRows_prefix_getD _ 0 mk.n p (by rw [hrsk] at hp; exact hp) m.n hk).symm
  have hval1 : ∀ p < f1.rs mk.n, g1.val p = f1.val p := by
    intro p hp
    show g1.value.getD p 0 = f1.value.getD p 0
    rw [hcq.value_eq, hcp.value_eq, hcv mk.n (Nat.le_refl _)]
    exact (concatRows_prefix_getD _ 0 mk.n p
      (by rw [hrsk, ← copiedVals_length m hm mk.n hk] at hp; exact hp) m.n hk).symm
  have hidg1 : ∀ i < mk.n, g1.idg i = f1.idg i := by
    intro i hi
    rw [hcq.idg_eq i hi, hcp.idg_eq i (by omega)]
    show copiedDiag i _ _ ((vresize (List.replicate b 0) mk.n 0).getD i 0) =
      copiedDiag i _ _ ((vresize (List.replicate a 0) m.n 0).getD i 0)
    rw [vresize_zeros_getD, vresize_zeros_getD]
    exact (hscan i hi).2.2 0
  have h0 : f1.rs 0 = 0 := by rw [hcp.rs_eq 0 (Nat.zero_le _)]; rfl
  have huniq := rowPost_unique sqrt ratioMin hinv (hcp.copied_rowsIncreasing hs)
    (hcq.copied_rowsIncreasing hsk) mk.n (by rw [hcp.n_eq]; exact hk) h0 hrs1 hcol1 hval1
    hidg1 F.val F.idg G.val G.idg
    (fun i hi => hnp.rows i (by rw [hcp.n_eq]; omega))
    (fun i hi => hnq.rows i (by rw [hcq.n_eq]; exact hi)) mk.n (Nat.le_refl _)
  have hFrs : F.rs mk.n = f1.rs mk.n := hnp.numeric_rs_eq mk.n
  have hlenk : f1.rs mk.n ≤ f1.colindex.length := hinv.rs_le_len mk.n (by rw [hcp.n_eq]; exact hk)
  have hg1len : g1.colindex.length = f1.rs mk.n := by
    rw [hcq.colindex_eq, hcc mk.n (Nat.le_refl _), hrsk]
  refine ⟨F, c, G, c', hfac, hfacg, ?_, ?_, ?_, ?_⟩
  · apply list_eq_of_getD _ _ 0
    · rw [List.length_take, hnq.invdiag_len, hcq.n_eq, hnp.invdiag_len, hcp.n_eq]; omega
    · intro i hi
      rw [hnq.invdiag_len, hcq.n_eq] at hi
      rw [getD_take _ _ _ _ hi]
      exact huniq.2 i hi
  · rw [hnq.rowstart_eq, hnp.rowstart_eq]
    apply list_eq_of_getD _ _ 0
    · rw [List.length_take, hcq.rowstart_len, hcp.rowstart_len]; omega
    · intro i hi
      rw [hcq.rowstart_len] at hi
      rw [getD_take _ _ _ _ hi]
      exact hrs1 i (by omega)
  · apply list_eq_of_getD _ _ 0
    · rw [List.length_take, hnq.value_len, hnp.value_len, hFrs, hg1len]; omega
    · intro p hp
      rw [hnq.value_len, hg1len] at hp
      rw [getD_take _ _ _ _ (by rw [hFrs]; exact hp)]
      exact huniq.1 p hp
  · rw [hnq.colindex_eq, hnp.colindex_eq, hFrs]
    apply list_eq_of_getD _ _ 0
    · rw [List.length_take, hg1len]; omega
    · intro p hp
      rw [hg1len] at hp
      rw [getD_take _ _ _ _ hp]
      exact hcol1 p hp

end PrefixClaim

section Leading

variable {T : Type}

theorem leading_idx (m : SparseMatrix T) (k i : Nat) (hi : i < k) :
    (m.leading k).idx i = m.idx i :=
  getD_take m.index k i [] hi

theorem leading_vals (m : SparseMatrix T) (k i : Nat) (hi : i < k) :
    (m.leading k).vals i = m.vals i :=
  getD_take m.value k i [] hi

theorem leading_tables (m : SparseMatrix T) (hm : m.Tables) (k : Nat) (hk : k ≤ m.n) :
    (m.leading k).Tables := by
  refine ⟨?_, ?_, ?_⟩
  · show (m.index.take k).length = k
    rw [List.length_take, hm.index_len]; omega
  · show (m.value.take k).length = k
    rw [List.length_take, hm.value_len]; omega
  · intro i hi
    have hi' : i < k := hi
    rw [leading_idx m k i hi', leading_vals m k i hi']
    exact hm.row_len i (by omega)

theorem leading_fits (m : SparseMatrix T) (hfit : m.Fits) (k : Nat) (hk : k ≤ m.n) :
    (m.leading k).Fits := by
  refine ⟨?_, ?_, ?_⟩
  · show k < 4294967295
    have := hfit.dim
    omega
  · intro i hi
    have hi' : i < k := hi
    rw [leading_idx m k i hi']
    exact hfit.rows i (by omega)
  · have heq : copiedCols (m.leading k) k = copiedCols m k :=
      concatRows_congr _ _ k (fun i hi => by
        show lowerCols i ((m.leading k).idx i) = lowerCols i (m.idx i)
        rw [leading_idx m k i hi])
    show (copiedCols (m.leading k) k).length < 4294967296
    rw [heq]
    exact lt_of_le_of_lt (copiedCols_length_le m k m.n hk) hfit.entries

theorem leading_sorted (m : SparseMatrix T) (hs : m.RowsSorted) (k : Nat) (hk : k ≤ m.n) :
    (m.leading k).RowsSorted := by
  intro i hi
  have hi' : i < k := hi
  rw [leading_idx m k i hi']
  exact hs i (by omega)

/-- Between fresh factors: for a matrix with strictly increasing rows and `k ≤ n`, the
factorization of the `k×k` matrix formed by the first `k` rows gives `invdiag[0..k)`,
`rowstart[0..k]` and the `value` and `colindex` entries below `rowstart[k]` of the
factorization of the whole matrix
(both into fresh factors, constructed with any dimensions `a` and `b`). -/
theorem leading_rows_prefix [LinearOrderedField T] (sqrt : T → T) (matrix : SparseMatrix T)
    (min_diagonal_ratio : T) (k a b : Nat) (hm : matrix.Tables)
    (hfit : matrix.Fits) (hs : matrix.RowsSorted)
    (hk : k ≤ matrix.n) :
    ∃ F c G c',
      factor_incomplete_cholesky0 sqrt matrix (SparseLowerFactor.init a) min_diagonal_ratio
        = some (F, c) ∧
      factor_incomplete_cholesky0 sqrt (matrix.leading k) (SparseLowerFactor.init b)
        min_diagonal_ratio = some (G, c') ∧
      G.n = k ∧ G.invdiag = F.invdiag.take k ∧ G.rowstart = F.rowstart.take (k + 1) ∧
      G.value = F.value.take (F.rs k) ∧ G.colindex = F.colindex.take (F.rs k) := by
  obtain ⟨F, c, G, c', h1, h2, h3, h4, h5, h6⟩ :=
    prefix_of_agreeing sqrt matrix (matrix.leading k) min_diagonal_ratio a b hm
      (leading_tables matrix hm k hk) hfit (leading_fits matrix hfit k hk) hs
      (leading_sorted matrix hs k hk) hk
      (by intro i hi
          have hi' : i < k := hi
          unfold SparseMatrix.lowerPart
          rw [leading_idx matrix k i hi', leading_vals matrix k i hi'])
  obtain ⟨g1, G', c'', hcq, hinvg, hfacg, hnq⟩ :=
    factor_spec sqrt (matrix.leading k) (SparseLowerFactor.init b) min_diagonal_ratio
      (leading_tables matrix hm k hk) (leading_fits matrix hfit k hk)
  have hGG : G' = G := by
    have := hfacg.symm.trans h2
    simp only [Option.some.injEq, Prod.mk.injEq] at this
    exact this.1
  have hGn : G.n = k := by
    rw [← hGG, hnq.n_eq, hcq.n_eq]; rfl
  exact ⟨F, c, G, c', h1, h2, hGn, h3, h4, h5, h6⟩

/-- The leading rows at the first two rows of the tridiagonal matrix
`[[4, 1, 0], [1, 4, 1], [0, 1, 4]]`. -/
theorem leading_rows_prefix_example :
    exampleTridiagonal.Tables ∧ exampleTridiagonal.Fits ∧
    exampleTridiagonal.RowsSorted ∧ 2 ≤ exampleTridiagonal.n ∧
    ∃ F c G c',
      factor_incomplete_cholesky0 Real.sqrt exampleTridiagonal (SparseLowerFactor.init 0)
        (1 / 4) = some (F, c) ∧
      factor_incomplete_cholesky0 Real.sqrt (exampleTridiagonal.leading 2)
        (SparseLowerFactor.init 0) (1 / 4) = some (G, c') ∧
      G.n = 2 ∧ G.invdiag = F.invdiag.take 2 ∧ G.rowstart = F.rowstart.take (2 + 1) ∧
      G.value = F.value.take (F.rs 2) ∧ G.colindex = F.colindex.take (F.rs 2) :=
  ⟨exampleTridiagonal_tables, exampleTridiagonal_fits, exampleTridiagonal_sorted, by decide,
    leading_rows_prefix Real.sqrt exampleTridiagonal (1 / 4) 2 0 0 exampleTridiagonal_tables
      exampleTridiagonal_fits exampleTridiagonal_sorted (by decide)⟩

end Leading

/-! ## The forward solve and the round trip -/

section RoundTrip

variable {T : Type}

/-- The loop over the entries of row `i` in the forward solve: it does not fault, changes only
`x[i]`, and subtracts from it the entries of the row times the entries of `x` in their
columns. -/
theorem forwardEntries_spec [Field T] {f : SparseLowerFactor T} (h : StorageInv f) (i : Nat)
    (hi : i < f.n) (y : List T) (hy : y.length = f.n) :
    ∃ y', forLoop (forwardEntry f i) (f.rs (i + 1) - f.rs i) (f.rs i) y = some y' ∧
      y'.length = f.n ∧ (∀ j, j ≠ i → y'.getD j 0 = y.getD j 0) ∧
      y'.getD i 0 = y.getD i 0 -
        ∑ p ∈ Finset.Ico (f.rs i) (f.rs (i + 1)), f.val p * y.getD (f.col p) 0 := by
  have hmono := h.mono i hi
  have hend : f.rs (i + 1) ≤ f.colindex.length := h.rs_le_len (i + 1) (by omega)
  obtain ⟨y', hy', hP⟩ := forLoop_inv (forwardEntry f i)
    (fun k y' => y'.length = f.n ∧ (∀ j, j ≠ i → y'.getD j 0 = y.getD j 0) ∧
      y'.getD i 0 = y.getD i 0 -
        ∑ p ∈ Finset.Ico (f.rs i) k, f.val p * y.getD (f.col p) 0)
    (f.rs (i + 1) - f.rs i) (f.rs i) y
    ⟨hy, fun _ _ => rfl, by simp⟩
    (by
      intro k y' hk1 hk2 ⟨hlen, hframe, hsum⟩
      have hk3 : k < f.rs (i + 1) := by omega
      have hkc : k < f.colindex.length := by omega
      have hkv : k < f.value.length := by rw [h.value_len]; exact hkc
      have hc : f.col k < i := h.lower i hi k hkc hk1 hk3
      have hcc : f.colindex.getD k 0 = f.col k := rfl
      refine ⟨y'.set i (y'.getD i 0 - f.val k * y'.getD (f.col k) 0), ?_, ?_, ?_, ?_⟩
      · unfold forwardEntry
        rw [getElem?_eq_some_getD f.colindex k 0 hkc, Option.some_bind,
          getElem?_eq_some_getD f.value k 0 hkv, Option.some_bind,
          getElem?_eq_some_getD y' (f.colindex.getD k 0) 0 (by rw [hcc]; omega),
          Option.some_bind, getElem?_eq_some_getD y' i 0 (by omega), Option.some_bind]
        exact vset_eq_some _ _ _ (by omega)
      · simp [hlen]
      · intro j hj
        rw [getD_set_ne _ _ _ _ _ (fun hh => hj hh.symm)]
        exact hframe j hj
      · rw [getD_set_self _ _ _ _ (by omega), Finset.sum_Ico_succ_top hk1, hsum,
          hframe (f.col k) (by omega)]
        exact sub_sub _ _ _)
  have hend' : f.rs i + (f.rs (i + 1) - f.rs i) = f.rs (i + 1) := by omega
  rw [hend'] at hP
  exact ⟨y', hy', hP.1, hP.2.1, hP.2.2⟩

/-- One row of the forward solve carries `ForwardInv` from `i` to `i+1`. -/
theorem forwardRow_inv [Field T] {f : SparseLowerFactor T} (h : StorageInv f)
    (hnz : ∀ i < f.n, f.idg i ≠ 0) (x : List T) (i : Nat) (hi : i < f.n) (y : List T)
    (hy : ForwardInv f x i y) :
    ∃ y', forwardRow f i y = some y' ∧ ForwardInv f x (i + 1) y' := by
  obtain ⟨hlen, hrest, hdone⟩ := hy
  obtain ⟨y1, hloop, hlen1, hframe, hval⟩ := forwardEntries_spec h i hi y hlen
  refine ⟨y1.set i (y1.getD i 0 * f.idg i), ?_, ?_, ?_, ?_⟩
  · unfold forwardRow
    rw [getElem?_eq_some_getD f.rowstart i 0 (by rw [h.rowstart_len]; omega),
      Option.some_bind,
      getElem?_eq_some_getD f.rowstart (i + 1) 0 (by rw [h.rowstart_len]; omega),
      Option.some_bind]
    show (forLoop (forwardEntry f i) (f.rs (i + 1) - f.rs i) (f.rs i) y).bind _ = _
    rw [hloop, Option.some_bind, getElem?_eq_some_getD y1 i 0 (by omega), Option.some_bind,
      getElem?_eq_some_getD f.invdiag i 0 (by rw [h.invdiag_len]; exact hi),
      Option.some_bind]
    exact vset_eq_some _ _ _ (by omega)
  · simp [hlen1]
  · intro j hj
    rw [getD_set_ne _ _ _ _ _ (by omega), hframe j (by omega)]
    exact hrest j (by omega)
  · intro r hr
    have hcolr : ∀ s, s ≤ i → ∀ p, f.rs s ≤ p → p < f.rs (s + 1) →
        (y1.set i (y1.getD i 0 * f.idg i)).getD (f.col p) 0 = y.getD (f.col p) 0 := by
      intro s hs p hp1 hp2
      have hc : f.col p < s := h.col_lt s p (by omega) hp1 hp2
      rw [getD_set_ne _ _ _ _ _ (by omega), hframe _ (by omega)]
    have hsumr : ∀ s, s ≤ i →
        ∑ p ∈ Finset.Ico (f.rs s) (f.rs (s + 1)),
          f.val p * (y1.set i (y1.getD i 0 * f.idg i)).getD (f.col p) 0 =
        ∑ p ∈ Finset.Ico (f.rs s) (f.rs (s + 1)), f.val p * y.getD (f.col p) 0 := by
      intro s hs
      apply Finset.sum_congr rfl
      intro p hp
      rw [Finset.mem_Ico] at hp
      rw [hcolr s hs p hp.1 hp.2]
    rw [hsumr r (by omega)]
    by_cases hri : r = i
    · subst hri
      rw [getD_set_self _ _ _ _ (by omega), hval, hrest r (Nat.le_refl _)]
      have := hnz r hi
      field_simp
    · rw [getD_set_ne _ _ _ _ _ (fun hh => hri hh.symm), hframe r hri]
      exact hdone r (by omega)

/-- The forward solve on a factor with nonzero `invdiag` that satisfies the storage invariant
returns `y` with `L·y = x`, row by row. -/
theorem forward_solve_spec [Field T] {f : SparseLowerFactor T} (h : StorageInv f)
    (hnz : ∀ i < f.n, f.idg i ≠ 0) (x : List T) (hx : x.length = f.n) :
    ∃ y, solve_lower_in_place f x = .returned y ∧ y.length = f.n ∧
      ∀ r < f.n, 1 / f.idg r * y.getD r 0 +
        ∑ p ∈ Finset.Ico (f.rs r) (f.rs (r + 1)), f.val p * y.getD (f.col p) 0
          = x.getD r 0 := by
  obtain ⟨y, hy, hlen, _, hdone⟩ := forLoop_inv (forwardRow f) (ForwardInv f x) f.n 0 x
    ⟨hx, fun _ _ => rfl, fun r hr => by omega⟩
    (fun i y _ hi hinv => forwardRow_inv h hnz x i (by omega) y hinv)
  rw [Nat.zero_add] at hdone
  refine ⟨y, ?_, hlen, hdone⟩
  unfold solve_lower_in_place
  rw [if_pos hx.symm, hy]

end RoundTrip

section RoundTripAlgebra

variable {T : Type}

theorem stored_mul [Field T] (F : SparseLowerFactor T) (j k : Nat) (z : T) :
    F.stored j k * z = F.colTerm k z j := by
  unfold SparseLowerFactor.stored SparseLowerFactor.colTerm
  rw [Finset.sum_mul]
  apply Finset.sum_congr rfl
  intro p _
  split
  · rfl
  · exact zero_mul _

/-- The transposed factor applied to a vector: `(Lᵗ·z)[k]` is `z[k]/invdiag[k]` plus the
contributions of the entries stored in column `k`. -/
theorem transpose_apply [Field T] {F : SparseLowerFactor T} (hF : StorageInv F)
    (z : Nat → T) (k : Nat) (hk : k < F.n) :
    ∑ j ∈ Finset.range F.n, F.entry j k * z j =
      1 / F.idg k * z k + ∑ r ∈ Finset.Ico 0 F.n, F.colTerm k (z r) r := by
  have hterm : ∀ j ∈ Finset.range F.n, F.entry j k * z j =
      (if j = k then 1 / F.idg k * z k else 0) + F.colTerm k (z j) j := by
    intro j hj
    rw [Finset.mem_range] at hj
    by_cases hjk : j = k
    · subst hjk
      rw [if_pos rfl, colTerm_eq_zero hF j j _ hj (Nat.le_refl _), add_zero]
      unfold SparseLowerFactor.entry
      rw [if_pos rfl]
    · rw [if_neg hjk, zero_add, ← stored_mul]
      unfold SparseLowerFactor.entry
      rw [if_neg (fun hh => hjk hh.symm)]
  rw [Finset.sum_congr rfl hterm, Finset.sum_add_distrib, Finset.sum_ite_eq',
    if_pos (Finset.mem_range.mpr hk), Finset.range_eq_Ico]

/-- The factor applied to a vector: `(L·y)[i]` is `y[i]/invdiag[i]` plus the entries of row
`i` times the entries of `y` in their columns. -/
theorem forward_apply [Field T] {F : SparseLowerFactor T} (hF : StorageInv F)
    (y : Nat → T) (i : Nat) (hi : i < F.n) :
    ∑ k ∈ Finset.range F.n, F.entry i k * y k =
      1 / F.idg i * y i +
        ∑ p ∈ Finset.Ico (F.rs i) (F.rs (i + 1)), F.val p * y (F.col p) := by
  have hterm : ∀ k ∈ Finset.range F.n, F.entry i k * y k =
      (if k = i then 1 / F.idg i * y i else 0) + F.stored i k * y k := by
    intro k hk
    rw [Finset.mem_range] at hk
    by_cases hki : k = i
    · subst hki
      rw [if_pos rfl, stored_zero_of_le hF k k hi (Nat.le_refl _), zero_mul, add_zero]
      unfold SparseLowerFactor.entry
      rw [if_pos rfl]
    · rw [if_neg hki, zero_add]
      unfold SparseLowerFactor.entry
      rw [if_neg hki]
  rw [Finset.sum_congr rfl hterm, Finset.sum_add_distrib, Finset.sum_ite_eq',
    if_pos (Finset.mem_range.mpr hi)]
  congr 1
  unfold SparseLowerFactor.stored
  simp only [Finset.sum_mul]
  rw [Finset.sum_comm]
  apply Finset.sum_congr rfl
  intro p hp
  rw [Finset.mem_Ico] at hp
  have hc : F.col p < i := hF.col_lt i p hi hp.1 hp.2
  rw [Finset.sum_eq_single (F.col p)]
  · rw [if_pos rfl]
  · intro k _ hk
    rw [if_neg (fun hh => hk hh.symm), zero_mul]
  · intro hnot
    exact absurd (Finset.mem_range.mpr (by omega)) hnot

/-- The transposed solve on a factor of dimension at least one with nonzero `invdiag` that
satisfies the storage invariant returns `z` with `Lᵗ·z = y`. -/
theorem transpose_solve_spec [Field T] {f : SparseLowerFactor T} (h : StorageInv f)
    (hnz : ∀ i < f.n, f.idg i ≠ 0) (hn : 1 ≤ f.n) (y : List T) (hy : y.length = f.n) :
    ∃ z, solve_lower_transpose_in_place f y = .returned z ∧ z.length = f.n ∧
      ∀ k < f.n, ∑ j ∈ Finset.range f.n, f.entry j k * z.getD j 0 = y.getD k 0 := by
  have hstart : SolveInv f y (f.n - 1 + 1) y := by
    refine ⟨hy, ?_⟩
    intro j hj
    have : f.n - 1 + 1 = f.n := by omega
    rw [this, if_neg (by omega)]
    simp
  obtain ⟨z, hz, hlen, hsum⟩ := solveLoop_spec h hnz y (f.n - 1) y (by omega) hstart
  refine ⟨z, ?_, hlen, ?_⟩
  · unfold solve_lower_transpose_in_place
    have hu : udec f.n = f.n - 1 := by
      unfold udec; rw [if_neg (by omega)]
    rw [if_pos hy.symm, hu, hz]
  · intro k hk
    rw [transpose_apply h (fun j => z.getD j 0) k hk]
    have := hsum k hk
    rw [if_pos (Nat.zero_le _)] at this
    exact this

/-- The round trip on a factor of dimension at least one: the forward solve followed by the
transposed solve gives `z` with `L·Lᵗ·z = x`. -/
theorem round_trip_of_pos [Field T] (factor : SparseLowerFactor T) (x : List T)
    (hn : 1 ≤ factor.n) (hinv : StorageInv factor)
    (hnz : ∀ i < factor.n, factor.idg i ≠ 0) (hx : x.length = factor.n) :
    ∃ y z, solve_lower_in_place factor x = .returned y ∧
      solve_lower_transpose_in_place factor y = .returned z ∧ z.length = factor.n ∧
      ∀ i < factor.n, ∑ k ∈ Finset.range factor.n,
        factor.entry i k * (∑ j ∈ Finset.range factor.n, factor.entry j k * z.getD j 0)
          = x.getD i 0 := by
  obtain ⟨y, hy, hylen, hfw⟩ := forward_solve_spec hinv hnz x hx
  obtain ⟨z, hz, hzlen, hbw⟩ := transpose_solve_spec hinv hnz hn y hylen
  refine ⟨y, z, hy, hz, hzlen, ?_⟩
  intro i hi
  have hinner : ∑ k ∈ Finset.range factor.n,
      factor.entry i k * (∑ j ∈ Finset.range factor.n, factor.entry j k * z.getD j 0) =
      ∑ k ∈ Finset.range factor.n, factor.entry i k * y.getD k 0 := by
    apply Finset.sum_congr rfl
    intro k hk
    rw [hbw k (Finset.mem_range.mp hk)]
  rw [hinner, forward_apply hinv (fun k => y.getD k 0) i hi]
  exact hfw i hi

/-- C14 fails on the code for the empty system: the forward solve of the spec returns the empty
vector, and the transposed solve then decrements the counter `0` to `4294967295` and indexes
the empty vector there. -/
theorem round_trip_empty_out_of_range :
    solve_lower_in_place (⟨0, [], [], [], [0]⟩ : SparseLowerFactor ℚ) [] = .returned [] ∧
      solve_lower_transpose_in_place (⟨0, [], [], [], [0]⟩ : SparseLowerFactor ℚ) []
        = .undefinedBehaviour := by
  constructor
  · rfl
  · rfl

end RoundTripAlgebra


/-! ## Arithmetic with the special values -/

section IeeeFacts

variable {K : Type} [LinearOrderedField K]

theorem Ieee.zero_eq : (0 : Ieee K) = Ieee.fin 0 := rfl

theorem Ieee.one_eq : (1 : Ieee K) = Ieee.fin 1 := rfl

theorem Ieee.fin_eq_zero (a : K) : (Ieee.fin a = 0) ↔ a = 0 := by
  rw [Ieee.zero_eq]
  exact ⟨fun h => Ieee.fin.inj h, fun h => by rw [h]⟩

theorem Ieee.nan_ne_zero : (Ieee.nan : Ieee K) ≠ 0 := by
  rw [Ieee.zero_eq]; exact fun h => Ieee.noConfusion h

theorem Ieee.fin_mul_fin (a b : K) : Ieee.fin a * Ieee.fin b = Ieee.fin (a * b) := rfl

theorem Ieee.fin_sub_fin (a b : K) : Ieee.fin a - Ieee.fin b = Ieee.fin (a - b) := rfl

theorem Ieee.fin_div_fin (a b : K) (hb : b ≠ 0) :
    Ieee.fin a / Ieee.fin b = Ieee.fin (a / b) := by
  show Ieee.div (Ieee.fin a) (Ieee.fin b) = _
  simp [Ieee.div, hb]

theorem Ieee.fin_lt_fin (a b : K) : Ieee.fin a < Ieee.fin b ↔ a < b := by
  show Ieee.ltb (Ieee.fin a) (Ieee.fin b) = true ↔ _
  simp [Ieee.ltb]

theorem Ieee.nan_mul (x : Ieee K) : Ieee.nan * x = Ieee.nan := by
  cases x <;> rfl

theorem Ieee.mul_nan (x : Ieee K) : x * Ieee.nan = Ieee.nan := by
  cases x <;> rfl

theorem Ieee.nan_sub (x : Ieee K) : Ieee.nan - x = Ieee.nan := by
  cases x <;> rfl

theorem Ieee.sub_nan (x : Ieee K) : x - Ieee.nan = Ieee.nan := by
  cases x <;> rfl

theorem Ieee.div_nan (x : Ieee K) : x / Ieee.nan = Ieee.nan := by
  cases x <;> rfl

theorem Ieee.not_nan_lt (x : Ieee K) : ¬ Ieee.nan < x := by
  show ¬ Ieee.ltb Ieee.nan x = true
  cases x <;> simp [Ieee.ltb]

theorem Ieee.not_lt_nan (x : Ieee K) : ¬ x < Ieee.nan := by
  show ¬ Ieee.ltb x Ieee.nan = true
  cases x <;> simp [Ieee.ltb]

theorem Ieee.sqrtWith_neg (s : K → K) (a : K) (ha : a < 0) :
    Ieee.sqrtWith s (Ieee.fin a) = Ieee.nan := by
  simp [Ieee.sqrtWith, ha]

theorem Ieee.sqrtWith_nan (s : K → K) : Ieee.sqrtWith s (Ieee.nan : Ieee K) = Ieee.nan := rfl

theorem Ieee.sqrtWith_fin (s : K → K) (a : K) (ha : 0 ≤ a) :
    Ieee.sqrtWith s (Ieee.fin a) = Ieee.fin (s a) := by
  simp [Ieee.sqrtWith, not_lt.mpr ha]

end IeeeFacts


/-! ## The largest dimension -/

section LargestDimension

variable {T : Type}

/-- With `matrix.n = 4294967295` the sum `n+1` of `resize` wraps to `0`: `rowstart` is emptied
and the first write of the copy loop, `rowstart[0] = ...` (line 75), is out of range. -/
theorem copyPhase_wraps [Zero T] (m : SparseMatrix T) (f : SparseLowerFactor T)
    (h : m.n = 4294967295) : copyPhase m f = none := by
  have hrs : (f.resize m.n).rowstart = [] := by
    show vresize f.rowstart ((m.n + 1) % 4294967296) 0 = []
    rw [h]
    show vresize f.rowstart 0 0 = []
    simp [vresize]
  have hstep : ∀ c : Nat, forLoop (copyBody m) (c + 1) 0
      { (f.resize m.n) with
        value := vresize (f.resize m.n).value 0 0,
        colindex := vresize (f.resize m.n).colindex 0 0 } = none := by
    intro c
    rw [forLoop_succ]
    simp [copyBody, vset, hrs]
  unfold copyPhase
  simp only []
  obtain ⟨c, hc⟩ : ∃ c, m.n = c + 1 := ⟨4294967294, h⟩
  rw [show forLoop (copyBody m) m.n = forLoop (copyBody m) (c + 1) by rw [hc], hstep c]
  rfl

theorem factor_wraps [LinearOrderedField T] (sqrt : T → T) (m : SparseMatrix T)
    (f : SparseLowerFactor T) (ratioMin : T) (h : m.n = 4294967295) :
    factor_incomplete_cholesky0 sqrt m f ratioMin = none := by
  unfold factor_incomplete_cholesky0
  rw [copyPhase_wraps m f h]
  rfl

theorem scalarMatrix_idx (n : Nat) (a : ℝ) (i : Nat) (hi : i < n) :
    (scalarMatrix n a).idx i = [i] := by
  simp [SparseMatrix.idx, scalarMatrix, List.getD_eq_getElem?_getD, List.getElem?_map,
    List.getElem?_range hi]

theorem scalarMatrix_vals (n : Nat) (a : ℝ) (i : Nat) (hi : i < n) :
    (scalarMatrix n a).vals i = [a] := by
  simp [SparseMatrix.vals, scalarMatrix, List.getD_eq_getElem?_getD, List.getElem?_replicate,
    hi]

theorem scalarMatrix_tables (n : Nat) (a : ℝ) : (scalarMatrix n a).Tables := by
  refine ⟨?_, ?_, ?_⟩
  · simp [scalarMatrix]
  · simp [scalarMatrix]
  · intro i hi
    have hi' : i < n := hi
    rw [scalarMatrix_idx n a i hi', scalarMatrix_vals n a i hi']
    rfl

theorem scalarMatrix_sorted (n : Nat) (a : ℝ) : (scalarMatrix n a).RowsSorted := by
  intro i hi
  have hi' : i < n := hi
  rw [scalarMatrix_idx n a i hi']
  exact List.pairwise_singleton _ _

end LargestDimension


/-! ## A row without a diagonal entry and a reused factor -/

section StaleRows

/-- The factor that the factorization of `diag(1/16, 1/16)` leaves: `invdiag = [4, 4]`. -/
theorem sixteenth_factor :
    factor_incomplete_cholesky0 Real.sqrt ⟨2, [[0], [1]], [[1 / 16], [1 / 16]]⟩
      (SparseLowerFactor.init 0) (1 / 4) = some (⟨2, [4, 4], [], [], [0, 0, 0]⟩, 0) := by
  simp [factor_incomplete_cholesky0, copyPhase, numericPhase, forLoop, copyBody, copyRow,
    vset, vresize, factorRow, SparseLowerFactor.init, SparseLowerFactor.resize]
  refine ⟨sqrt_sixteen, ?_⟩
  norm_num

/-- From a fresh factor, row 1 of `exampleNoDiagonal` is a null row: `invdiag = [1, 0]` and no
small pivot. -/
theorem exampleNoDiagonal_fresh :
    factor_incomplete_cholesky0 Real.sqrt exampleNoDiagonal (SparseLowerFactor.init 0) (1 / 4)
      = some (⟨2, [1, 0], [3], [0], [0, 0, 1]⟩, 0) := by
  simp [exampleNoDiagonal, factor_incomplete_cholesky0, copyPhase, numericPhase, forLoop,
    copyBody, copyRow, vset, vresize, factorRow, offdiagEntry, sqr, SparseLowerFactor.init,
    SparseLowerFactor.resize]
  norm_num

/-- From the factor with `invdiag = [4, 4]`, row 1 of `exampleNoDiagonal` is factored with the
stale `4` as its diagonal: `invdiag = [1, 1/2]` and one small pivot. -/
theorem exampleNoDiagonal_reused :
    factor_incomplete_cholesky0 Real.sqrt exampleNoDiagonal ⟨2, [4, 4], [], [], [0, 0, 0]⟩
      (1 / 4) = some (⟨2, [1, 1 / 2], [3], [0], [0, 0, 1]⟩, 1) := by
  simp [exampleNoDiagonal, factor_incomplete_cholesky0, copyPhase, numericPhase, forLoop,
    copyBody, copyRow, vset, vresize, factorRow, offdiagEntry, sqr,
    SparseLowerFactor.resize]
  rw [mergeLoop]
  simp [sqrt_four]
  norm_num [sqrt_four]

theorem exampleNoDiagonal_tables : exampleNoDiagonal.Tables :=
  ⟨rfl, rfl, by intro i hi; have : i < 2 := hi; interval_cases i <;> rfl⟩

theorem exampleNoDiagonal_sorted : exampleNoDiagonal.RowsSorted := by
  intro i hi
  have : i < 2 := hi
  interval_cases i <;> simp [SparseMatrix.idx, exampleNoDiagonal]

/-- C5 fails on the code.  The sorted matrix `exampleNoDiagonal` stores the diagonal `1` in
row 0 and no diagonal entry in row 1.  Row 0 has no off-diagonal entry, so its residual is
`1`, not below `1/4·1`: no row with a nonzero stored diagonal has a small pivot.  From a fresh
factor the count reported is `0`; from the factor left by the factorization of
`diag(1/16, 1/16)`, whose `invdiag` is `[4, 4]`, row 1 is factored with the stale `4` as its
diagonal (`4 - 3² < 1/4·4`) and the count reported is `1`. -/
theorem small_pivot_count_stale :
    factor_incomplete_cholesky0 Real.sqrt ⟨2, [[0], [1]], [[1 / 16], [1 / 16]]⟩
        (SparseLowerFactor.init 0) (1 / 4) = some (⟨2, [4, 4], [], [], [0, 0, 0]⟩, 0) ∧
      exampleNoDiagonal.RowsSorted ∧ 1 ∉ exampleNoDiagonal.idx 1 ∧
      exampleNoDiagonal.idx 0 = [0, 1] ∧ exampleNoDiagonal.vals 0 = [1, 3] ∧
      factor_incomplete_cholesky0 Real.sqrt exampleNoDiagonal ⟨2, [4, 4], [], [], [0, 0, 0]⟩
        (1 / 4) = some (⟨2, [1, 1 / 2], [3], [0], [0, 0, 1]⟩, 1) ∧
      ¬ (rowResidual 1 (⟨2, [1, 1 / 2], [3], [0], [0, 0, 1]⟩ : SparseLowerFactor ℝ) 0
          < 1 / 4 * 1) ∧
      factor_incomplete_cholesky0 Real.sqrt exampleNoDiagonal (SparseLowerFactor.init 0)
        (1 / 4) = some (⟨2, [1, 0], [3], [0], [0, 0, 1]⟩, 0) := by
  refine ⟨sixteenth_factor, exampleNoDiagonal_sorted, ?_, rfl, rfl, exampleNoDiagonal_reused,
    ?_, exampleNoDiagonal_fresh⟩
  · simp [SparseMatrix.idx, exampleNoDiagonal]
  · simp [rowResidual, SparseLowerFactor.rs]
    norm_num

/-- C16 fails on the code, at `k = n = 2` on the sorted matrix `exampleNoDiagonal`, whose
row 1 stores no diagonal entry.  The whole matrix factored into the factor left by the
factorization of `diag(1/16, 1/16)` (`invdiag = [4, 4]`) gives `invdiag = [1, 1/2]`; the
matrix formed by its first two rows factored into a fresh factor gives `invdiag = [1, 0]`. -/
theorem leading_rows_stale :
    exampleNoDiagonal.Tables ∧ exampleNoDiagonal.RowsSorted ∧ 2 ≤ exampleNoDiagonal.n ∧
      factor_incomplete_cholesky0 Real.sqrt ⟨2, [[0], [1]], [[1 / 16], [1 / 16]]⟩
        (SparseLowerFactor.init 0) (1 / 4) = some (⟨2, [4, 4], [], [], [0, 0, 0]⟩, 0) ∧
      factor_incomplete_cholesky0 Real.sqrt exampleNoDiagonal ⟨2, [4, 4], [], [], [0, 0, 0]⟩
        (1 / 4) = some (⟨2, [1, 1 / 2], [3], [0], [0, 0, 1]⟩, 1) ∧
      factor_incomplete_cholesky0 Real.sqrt (exampleNoDiagonal.leading 2)
        (SparseLowerFactor.init 0) (1 / 4) = some (⟨2, [1, 0], [3], [0], [0, 0, 1]⟩, 0) := by
  refine ⟨exampleNoDiagonal_tables, exampleNoDiagonal_sorted, Nat.le_refl 2, sixteenth_factor,
    exampleNoDiagonal_reused, ?_⟩
  rw [show exampleNoDiagonal.leading 2 = exampleNoDiagonal from rfl]
  exact exampleNoDiagonal_fresh

end StaleRows


/-! ## A negative diagonal: NaN in the factor -/

section NotANumber

/-- The factorization of `exampleNegativeDiagonal` in the arithmetic of `float`/`double`
without rounding: the root of the negative diagonal `-4` of row 0 is NaN, row 1 multiplies its
entry by it, and the whole of `invdiag` and `value` is NaN. -/
theorem exampleNegativeDiagonal_factor :
    factor_incomplete_cholesky0 (Ieee.sqrtWith Rat.sqrt) exampleNegativeDiagonal
      (SparseLowerFactor.init 0) (.fin (1 / 4)) =
      some (⟨2, [.nan, .nan], [.nan], [0], [0, 0, 1]⟩, 1) := by
  simp [factor_incomplete_cholesky0, copyPhase, numericPhase, forLoop, copyBody, copyRow, vset,
    vresize, factorRow, offdiagEntry, sqr, SparseLowerFactor.init, SparseLowerFactor.resize,
    exampleNegativeDiagonal, Ieee.fin_eq_zero, Ieee.fin_mul_fin, Ieee.fin_lt_fin,
    Ieee.sqrtWith_neg, Ieee.div_nan, Ieee.nan_ne_zero]
  rw [mergeLoop]
  simp [Ieee.fin_eq_zero, Ieee.fin_mul_fin, Ieee.fin_lt_fin,
    Ieee.sqrtWith_neg, Ieee.div_nan, Ieee.nan_ne_zero, Ieee.mul_nan, Ieee.nan_mul, Ieee.sub_nan,
    Ieee.nan_sub, Ieee.not_nan_lt, Ieee.not_lt_nan, Ieee.sqrtWith_nan]

/-- The factorization of `exampleNegativeBelowNull` in the arithmetic of `float`/`double`
without rounding: row 0 is a null row and keeps `invdiag[0] = 0`; the root of the negative
diagonal `-4` of row 1 is NaN. -/
theorem exampleNegativeBelowNull_factor :
    factor_incomplete_cholesky0 (Ieee.sqrtWith Rat.sqrt) exampleNegativeBelowNull
      (SparseLowerFactor.init 0) (.fin (1 / 4)) =
      some (⟨2, [.fin 0, .nan], [.fin 0], [0], [0, 0, 1]⟩, 1) := by
  simp [factor_incomplete_cholesky0, copyPhase, numericPhase, forLoop, copyBody, copyRow, vset,
    vresize, factorRow, offdiagEntry, sqr, SparseLowerFactor.init, SparseLowerFactor.resize,
    exampleNegativeBelowNull, Ieee.fin_eq_zero, Ieee.fin_mul_fin, Ieee.fin_lt_fin,
    Ieee.sqrtWith_neg, Ieee.div_nan, Ieee.nan_ne_zero]
  rw [mergeLoop]
  simp [Ieee.fin_eq_zero, Ieee.fin_mul_fin, Ieee.fin_lt_fin, Ieee.fin_sub_fin,
    Ieee.sqrtWith_neg, Ieee.div_nan, Ieee.nan_ne_zero, Ieee.mul_nan, Ieee.nan_mul, Ieee.sub_nan,
    Ieee.nan_sub, Ieee.not_nan_lt, Ieee.not_lt_nan, Ieee.sqrtWith_nan]

/-- The transposed solve with that factor and the right-hand side `[1, 1]`: the NaN of row 1
reaches entry 0 through `x[0] -= value[0]·x[1]`, and `NaN·0` is NaN. -/
theorem exampleNegativeBelowNull_solve :
    solve_lower_transpose_in_place
      (⟨2, [.fin 0, .nan], [.fin 0], [0], [0, 0, 1]⟩ : SparseLowerFactor (Ieee ℚ))
      [.fin 1, .fin 1] = .returned [.nan, .nan] := by
  simp [solve_lower_transpose_in_place, udec, solveLoop, solveRow, solveEntry, forLoop, vset,
    Ieee.fin_mul_fin, Ieee.fin_sub_fin, Ieee.mul_nan, Ieee.nan_mul, Ieee.sub_nan, Ieee.nan_sub]

/-- C6 (as stated) fails at two inputs.  In `exampleNegativeDiagonal` row 1 stores the
positive diagonal `4`, yet in the arithmetic of `float`/`double` its `invdiag[1]` is NaN, not a
finite positive number: row 0 has the negative diagonal `-4`, whose root is NaN, and the NaN
enters the residual of row 1, which no comparison sends to the fallback.  And on the identity
matrix of dimension `4294967295` the factorization writes `rowstart[0]` out of range, so no
`invdiag` is produced. -/
theorem pivot_not_finite :
    (exampleNegativeDiagonal.idx 1 = [0, 1] ∧
      exampleNegativeDiagonal.vals 1 = [Ieee.fin 1, Ieee.fin 4] ∧
      ∃ F c, factor_incomplete_cholesky0 (Ieee.sqrtWith Rat.sqrt) exampleNegativeDiagonal
          (SparseLowerFactor.init 0) (.fin (1 / 4)) = some (F, c) ∧
        F.invdiag.getD 1 0 = Ieee.nan ∧ ∀ r : ℚ, F.invdiag.getD 1 0 ≠ Ieee.fin r) ∧
    (exampleLargest.Tables ∧
      (∀ i < exampleLargest.n, exampleLargest.idx i = [i] ∧ exampleLargest.vals i = [1]) ∧
      factor_incomplete_cholesky0 Real.sqrt exampleLargest (SparseLowerFactor.init 0) (1 / 4)
        = none) := by
  refine ⟨⟨rfl, rfl, _, _, exampleNegativeDiagonal_factor, rfl, ?_⟩,
    scalarMatrix_tables _ _, ?_, factor_wraps _ _ _ _ rfl⟩
  · intro r h
    exact Ieee.noConfusion h
  · intro i hi
    exact ⟨scalarMatrix_idx _ _ i hi, scalarMatrix_vals _ _ i hi⟩

theorem Ieee.fin_div_zero {K : Type} [LinearOrderedField K] (a : K) (ha : a ≠ 0) :
    Ieee.fin a / Ieee.fin 0 = Ieee.inf (decide (a < 0)) := by
  show Ieee.div _ _ = _
  simp [Ieee.div, ha]

theorem rat_sqrt_zero : Rat.sqrt 0 = 0 := by
  simp [Rat.sqrt]

/-- The factorization of `exampleZeroResidual` with `min_diagonal_ratio = 0`: the residual of
row 2 is exactly `0`, which is not below `0·1`, so `invdiag[2] = 1/sqrt(0)` is infinite. -/
theorem exampleZeroResidual_factor :
    factor_incomplete_cholesky0 (Ieee.sqrtWith Rat.sqrt) exampleZeroResidual
      (SparseLowerFactor.init 0) (.fin 0) =
      some (⟨3, [.fin 0, .fin 1, .inf false], [.fin 0, .fin 1], [0, 1], [0, 0, 0, 2]⟩, 0) := by
  simp [factor_incomplete_cholesky0, copyPhase, numericPhase, forLoop, copyBody, copyRow, vset,
    vresize, factorRow, offdiagEntry, sqr, SparseLowerFactor.init, SparseLowerFactor.resize,
    exampleZeroResidual, Ieee.fin_eq_zero, Ieee.fin_mul_fin, Ieee.fin_lt_fin,
    Ieee.fin_sub_fin]
  rw [mergeLoop]
  simp [Ieee.fin_eq_zero, Ieee.fin_mul_fin, Ieee.fin_lt_fin, Ieee.fin_sub_fin]
  rw [mergeLoop]
  simp [Ieee.fin_eq_zero, Ieee.fin_mul_fin, Ieee.fin_lt_fin, Ieee.fin_sub_fin, Ieee.sqrtWith_fin,
    Ieee.one_eq, Ieee.fin_div_fin, Ieee.fin_div_zero, rat_sqrt_zero]

/-- The transposed solve with that factor and the right-hand side `[1, 1, 1]`: row 2 makes
`x[2]` infinite, `x[0] -= 0·inf` makes `x[0]` NaN, and `NaN·0` is NaN. -/
theorem exampleZeroResidual_solve :
    solve_lower_transpose_in_place
      (⟨3, [.fin 0, .fin 1, .inf false], [.fin 0, .fin 1], [0, 1], [0, 0, 0, 2]⟩ :
        SparseLowerFactor (Ieee ℚ))
      [.fin 1, .fin 1, .fin 1] = .returned [.nan, .inf true, .inf false] := by
  simp [solve_lower_transpose_in_place, udec, solveLoop, solveRow, solveEntry, forLoop, vset,
    Ieee.fin_mul_fin, Ieee.fin_sub_fin, Ieee.mul_nan, Ieee.nan_mul, Ieee.sub_nan, Ieee.nan_sub]
  refine ⟨?_, ?_, ?_⟩ <;> rfl

/-- C17 (as stated) fails at three inputs.  In `exampleNegativeBelowNull` row 0 stores a
diagonal of exactly `0`, yet in the arithmetic of `float`/`double` the transposed solve of
`[1, 1]` returns NaN in entry 0: row 1 has the negative diagonal `-4`, `invdiag[1]` is NaN,
and the pass for row 1 subtracts `value·NaN` from `x[0]`.  In `exampleZeroResidual`, which has
no negative diagonal, the same happens with `min_diagonal_ratio = 0`: `invdiag[2]` is
infinite and the pass for row 2 subtracts `0·inf` from `x[0]`.  And on the matrix of dimension
`4294967295` with a stored zero in every row the factorization writes `rowstart[0]` out of
range, so no factor is produced. -/
theorem null_row_solve_not_zero :
    (exampleNegativeBelowNull.idx 0 = [0] ∧ exampleNegativeBelowNull.vals 0 = [Ieee.fin 0] ∧
      ∃ F c r, factor_incomplete_cholesky0 (Ieee.sqrtWith Rat.sqrt) exampleNegativeBelowNull
          (SparseLowerFactor.init 0) (.fin (1 / 4)) = some (F, c) ∧
        solve_lower_transpose_in_place F [.fin 1, .fin 1] = .returned r ∧
        r.getD 0 0 = Ieee.nan ∧ r.getD 0 0 ≠ 0) ∧
    (exampleZeroResidual.idx 0 = [0] ∧ exampleZeroResidual.vals 0 = [Ieee.fin 0] ∧
      ∃ F c r, factor_incomplete_cholesky0 (Ieee.sqrtWith Rat.sqrt) exampleZeroResidual
          (SparseLowerFactor.init 0) (.fin 0) = some (F, c) ∧
        solve_lower_transpose_in_place F [.fin 1, .fin 1, .fin 1] = .returned r ∧
        r.getD 0 0 = Ieee.nan ∧ r.getD 0 0 ≠ 0) ∧
    (exampleLargestNull.Tables ∧
      (∀ i < exampleLargestNull.n,
        exampleLargestNull.idx i = [i] ∧ exampleLargestNull.vals i = [0]) ∧
      factor_incomplete_cholesky0 Real.sqrt exampleLargestNull (SparseLowerFactor.init 0)
        (1 / 4) = none) := by
  refine ⟨⟨rfl, rfl, _, _, _, exampleNegativeBelowNull_factor,
    exampleNegativeBelowNull_solve, rfl, ?_⟩,
    ⟨rfl, rfl, _, _, _, exampleZeroResidual_factor, exampleZeroResidual_solve, rfl, ?_⟩,
    scalarMatrix_tables _ _, ?_, factor_wraps _ _ _ _ rfl⟩
  · exact Ieee.nan_ne_zero
  · exact Ieee.nan_ne_zero
  · intro i hi
    exact ⟨scalarMatrix_idx _ _ i hi, scalarMatrix_vals _ _ i hi⟩

end NotANumber

/-! ## The claims at the largest dimension -/

section LargestClaims

/-- C1 (as stated) fails on the identity matrix of dimension `4294967295`, which has strictly
increasing rows and a positive diagonal entry in every row: `resize` computes `n+1 = 0` in
`unsigned int`, `rowstart` is empty and the factorization writes `rowstart[0]` out of range,
so no factor is produced. -/
theorem identity_fails_at_largest :
    exampleLargest.Tables ∧ exampleLargest.RowsSorted ∧
      (∀ i < exampleLargest.n, ∃ t, t < (exampleLargest.idx i).length ∧
        (exampleLargest.idx i).getD t 0 = i ∧ 0 < (exampleLargest.vals i).getD t 0) ∧
      factor_incomplete_cholesky0 Real.sqrt exampleLargest (SparseLowerFactor.init 0) (1 / 4)
        = none := by
  refine ⟨scalarMatrix_tables _ _, scalarMatrix_sorted _ _, ?_, factor_wraps _ _ _ _ rfl⟩
  intro i hi
  have hi' : i < 4294967295 := hi
  refine ⟨0, ?_, ?_, ?_⟩
  · show 0 < ((scalarMatrix 4294967295 1).idx i).length
    rw [scalarMatrix_idx _ _ i hi']; exact Nat.one_pos
  · show ((scalarMatrix 4294967295 1).idx i).getD 0 0 = i
    rw [scalarMatrix_idx _ _ i hi']; rfl
  · show 0 < ((scalarMatrix 4294967295 1).vals i).getD 0 0
    rw [scalarMatrix_vals _ _ i hi']; exact one_pos

/-- C7 (as stated) fails at `n = 4294967295` on the identity matrix, which stores only a
positive diagonal entry in every row: the factorization writes `rowstart[0]` out of range and
yields no factor. -/
theorem diagonal_only_fails_at_largest :
    exampleLargest.Tables ∧
      (∀ i < exampleLargest.n,
        exampleLargest.idx i = [i] ∧ ∃ a, 0 < a ∧ exampleLargest.vals i = [a]) ∧
      factor_incomplete_cholesky0 Real.sqrt exampleLargest (SparseLowerFactor.init 0) (1 / 4)
        = none := by
  refine ⟨scalarMatrix_tables _ _, ?_, factor_wraps _ _ _ _ rfl⟩
  intro i hi
  exact ⟨scalarMatrix_idx _ _ i hi, 1, one_pos, scalarMatrix_vals _ _ i hi⟩

/-- C13 (as stated) fails on the matrix of dimension `4294967295` whose row 0 (like every
row) stores a diagonal of exactly `0`: the factorization writes `rowstart[0]` out of range, so
it leaves no `invdiag[0] = 0` and no count. -/
theorem null_rows_fail_at_largest :
    exampleLargestNull.Tables ∧ exampleLargestNull.idx 0 = [0] ∧
      exampleLargestNull.vals 0 = [0] ∧
      factor_incomplete_cholesky0 Real.sqrt exampleLargestNull (SparseLowerFactor.init 0)
        (1 / 4) = none :=
  ⟨scalarMatrix_tables _ _, scalarMatrix_idx _ _ 0 (by decide),
    scalarMatrix_vals _ _ 0 (by decide), factor_wraps _ _ _ _ rfl⟩

/-- C15 (as stated) fails at dimension `4294967295`, taking the identity matrix for both
matrices (they agree on every stored entry): its rows are strictly increasing, and its
factorization writes `rowstart[0]` out of range, so it produces no factor and no count to
compare. -/
theorem lower_triangle_fails_at_largest :
    exampleLargest.Tables ∧ exampleLargest.RowsSorted ∧
      (∀ i < exampleLargest.n, exampleLargest.lowerPart i = exampleLargest.lowerPart i) ∧
      factor_incomplete_cholesky0 Real.sqrt exampleLargest (SparseLowerFactor.init 0) (1 / 4)
        = none :=
  ⟨scalarMatrix_tables _ _, scalarMatrix_sorted _ _, fun _ _ => rfl,
    factor_wraps _ _ _ _ rfl⟩

end LargestClaims


/-! ## Finite runs in the arithmetic of `float`/`double`

A run of the factorization or of the solve on finite numbers, in which every square root is
taken of a positive number, is the same in the arithmetic with infinities and NaN as in the
field the numbers live in: no special value arises. -/

section MapLemmas

variable {α β σ τ : Type}

theorem vset_map (g : α → β) (xs : List α) (i : Nat) (v : α) :
    vset (xs.map g) i (g v) = (vset xs i v).map (List.map g) := by
  unfold vset
  by_cases h : i < xs.length
  · rw [if_pos (by simpa using h), if_pos h, Option.map_some', List.map_set]
  · rw [if_neg (by simpa using h), if_neg h, Option.map_none']

theorem vresize_map (g : α → β) (xs : List α) (n : Nat) (fill : α) :
    vresize (xs.map g) n (g fill) = (vresize xs n fill).map g := by
  simp [vresize, List.map_take]

/-- Two loops whose bodies commute with `g` commute with `g`. -/
theorem forLoop_map (g : σ → τ) (body : Nat → σ → Option σ) (body' : Nat → τ → Option τ)
    (h : ∀ i s, body' i (g s) = (body i s).map g) :
    ∀ c i s, forLoop body' c i (g s) = (forLoop body c i s).map g := by
  intro c
  induction c with
  | zero => intro i s; rfl
  | succ c ih =>
    intro i s
    rw [forLoop_succ, forLoop_succ, h]
    cases body i s with
    | none => rfl
    | some s' => exact ih (i + 1) s'

/-- Two loops whose bodies commute with `g` on the states of an invariant `P` that the first
loop carries: the first does not fault, and the second ends in the image of its result. -/
theorem forLoop_sim (g : σ → τ) (body : Nat → σ → Option σ) (body' : Nat → τ → Option τ)
    (P : Nat → σ → Prop) :
    ∀ (c lo : Nat) (s : σ), P lo s →
      (∀ i s, lo ≤ i → i < lo + c → P i s →
        ∃ s', body i s = some s' ∧ P (i + 1) s' ∧ body' i (g s) = some (g s')) →
      ∃ s', forLoop body c lo s = some s' ∧ P (lo + c) s' ∧
        forLoop body' c lo (g s) = some (g s') := by
  intro c
  induction c with
  | zero => intro lo s h0 _; exact ⟨s, rfl, by simpa using h0, rfl⟩
  | succ c ih =>
    intro lo s h0 hstep
    obtain ⟨s1, hb, hP1, hb'⟩ := hstep lo s (Nat.le_refl _) (by omega) h0
    obtain ⟨s2, hl, hP2, hl'⟩ := ih (lo + 1) s1 hP1 (fun i s hi1 hi2 hP =>
      hstep i s (by omega) (by omega) hP)
    refine ⟨s2, ?_, ?_, ?_⟩
    · rw [forLoop_succ, hb]; exact hl
    · have : lo + (c + 1) = lo + 1 + c := by omega
      rw [this]; exact hP2
    · rw [forLoop_succ, hb']; exact hl'

end MapLemmas

section CopyMap

variable {T U : Type}

theorem copyRow_map (g : T → U) (m : SparseMatrix T) (i : Nat) :
    ∀ (idx : List Nat) (j : Nat) (f : SparseLowerFactor T),
      copyRow (m.map g) i idx j (f.map g)
        = (copyRow m i idx j f).map (SparseLowerFactor.map g) := by
  intro idx
  induction idx with
  | nil => intro j f; rfl
  | cons c rest ih =>
    intro j f
    have hv : (m.map g).value[i]? = (m.value[i]?).map (List.map g) := by
      show (m.value.map (List.map g))[i]? = _
      rw [List.getElem?_map]
    unfold copyRow
    rw [hv]
    by_cases h1 : c < i
    · rw [if_pos h1, if_pos h1]
      cases m.value[i]? with
      | none => rfl
      | some row =>
        simp only [Option.map_some', Option.some_bind, List.getElem?_map]
        cases row[j]? with
        | none => rfl
        | some v =>
          simp only [Option.map_some', Option.some_bind]
          rw [← ih (j + 1)]
          congr 1
          simp [SparseLowerFactor.map]
    · rw [if_neg h1, if_neg h1]
      by_cases h2 : c = i
      · rw [if_pos h2, if_pos h2]
        cases m.value[i]? with
        | none => rfl
        | some row =>
          simp only [Option.map_some', Option.some_bind, List.getElem?_map]
          cases row[j]? with
          | none => rfl
          | some v =>
            simp only [Option.map_some', Option.some_bind]
            show (vset (f.invdiag.map g) i (g v)).bind _ = _
            rw [vset_map]
            cases vset f.invdiag i v with
            | none => rfl
            | some inv =>
              simp only [Option.map_some', Option.some_bind]
              rw [← ih (j + 1)]
              rfl
      · rw [if_neg h2, if_neg h2]
        rfl

theorem copyBody_map (g : T → U) (m : SparseMatrix T) (i : Nat) (f : SparseLowerFactor T) :
    copyBody (m.map g) i (f.map g) = (copyBody m i f).map (SparseLowerFactor.map g) := by
  unfold copyBody
  show (vset f.rowstart i (f.colindex.length % 4294967296)).bind _ = _
  cases vset f.rowstart i (f.colindex.length % 4294967296) with
  | none => rfl
  | some rs =>
    simp only [Option.some_bind]
    show (m.index[i]?).bind _ = _
    cases m.index[i]? with
    | none => rfl
    | some idx =>
      simp only [Option.some_bind]
      rw [← copyRow_map]
      rfl

theorem copyPhase_map [Zero T] [Zero U] (g : T → U) (hz : g 0 = 0) (m : SparseMatrix T)
    (f : SparseLowerFactor T) :
    copyPhase (m.map g) (f.map g) = (copyPhase m f).map (SparseLowerFactor.map g) := by
  unfold copyPhase
  simp only []
  have hstart : ({ ((f.map g).resize (m.map g).n) with
        value := vresize ((f.map g).resize (m.map g).n).value 0 0,
        colindex := vresize ((f.map g).resize (m.map g).n).colindex 0 0 } :
          SparseLowerFactor U) =
      SparseLowerFactor.map g { (f.resize m.n) with
        value := vresize (f.resize m.n).value 0 0,
        colindex := vresize (f.resize m.n).colindex 0 0 } := by
    simp [SparseLowerFactor.map, SparseLowerFactor.resize, SparseMatrix.map, ← hz,
      vresize_map]
  rw [hstart]
  show (forLoop (copyBody (m.map g)) m.n 0 _).bind _ = _
  rw [forLoop_map (SparseLowerFactor.map g) (copyBody m) (copyBody (m.map g))
    (fun i s => copyBody_map g m i s)]
  cases forLoop (copyBody m) m.n 0 _ with
  | none => rfl
  | some f2 =>
    simp only [Option.map_some', Option.some_bind]
    show (vset f2.rowstart m.n (f2.colindex.length % 4294967296)).bind _ = _
    cases vset f2.rowstart m.n (f2.colindex.length % 4294967296) with
    | none => rfl
    | some rs => rfl

end CopyMap


section NumericMap

variable {K : Type} [LinearOrderedField K]

theorem mergeLoop_fin (C : List Nat) (hi : Option Nat) (k : Nat) :
    ∀ (n a b : Nat) (V : List K), (k - a) + (hi.getD 0 - b) ≤ n →
      mergeLoop C hi k a b (V.map Ieee.fin)
        = (mergeLoop C hi k a b V).map (List.map Ieee.fin) := by
  intro n
  induction n with
  | zero =>
    intro a b V hn
    conv_lhs => rw [mergeLoop.eq_def]
    conv_rhs => rw [mergeLoop.eq_def]
    by_cases ha : a < k
    · omega
    · rw [if_neg ha, if_neg ha]; rfl
  | succ n ih =>
    intro a b V hn
    conv_lhs => rw [mergeLoop.eq_def]
    conv_rhs => rw [mergeLoop.eq_def]
    by_cases ha : a < k
    · rw [if_pos ha, if_pos ha]
      cases hi with
      | none => rfl
      | some e =>
        simp only [Option.getD_some] at hn
        simp only []
        by_cases hb : b < e
        · rw [if_pos hb, if_pos hb]
          cases C[a]? with
          | none => rfl
          | some ca =>
            cases C[b]? with
            | none => rfl
            | some cb =>
              simp only []
              by_cases hab : ca = cb
              · rw [if_pos hab, if_pos hab]
                simp only [List.getElem?_map]
                cases V[k]? with
                | none => rfl
                | some vk =>
                  cases V[a]? with
                  | none => rfl
                  | some va =>
                    cases V[b]? with
                    | none => rfl
                    | some vb =>
                      simp only [Option.map_some']
                      rw [← ih (a + 1) (b + 1) _ (by simp only [Option.getD_some]; omega),
                        List.map_set]
                      rfl
              · rw [if_neg hab, if_neg hab]
                by_cases hlt : ca < cb
                · rw [if_pos hlt, if_pos hlt]
                  exact ih (a + 1) b V (by simp only [Option.getD_some]; omega)
                · rw [if_neg hlt, if_neg hlt]
                  exact ih a (b + 1) V (by simp only [Option.getD_some]; omega)
        · rw [if_neg hb, if_neg hb]; rfl
    · rw [if_neg ha, if_neg ha]; rfl

theorem offdiagEntry_fin (C R : List Nat) (D : List K) (i k : Nat) (st : List K × K) :
    offdiagEntry C R (D.map Ieee.fin) i k (st.1.map Ieee.fin, Ieee.fin st.2)
      = (offdiagEntry C R D i k st).map (fun r => (r.1.map Ieee.fin, Ieee.fin r.2)) := by
  unfold offdiagEntry
  cases C[k]? with
  | none => rfl
  | some j =>
    simp only [Option.some_bind]
    cases R[i]? with
    | none => rfl
    | some a =>
      simp only [Option.some_bind]
      cases R[j]? with
      | none => rfl
      | some b =>
        simp only [Option.some_bind]
        rw [mergeLoop_fin C _ k _ a b st.1 (Nat.le_refl _)]
        cases mergeLoop C R[j + 1]? k a b st.1 with
        | none => rfl
        | some V1 =>
          simp only [Option.map_some', Option.some_bind, List.getElem?_map]
          cases V1[k]? with
          | none => rfl
          | some vk =>
            simp only [Option.map_some', Option.some_bind]
            cases D[j]? with
            | none => rfl
            | some idj =>
              simp only [Option.map_some', Option.some_bind]
              rw [Ieee.fin_mul_fin, vset_map]
              cases vset V1 k (vk * idj) with
              | none => rfl
              | some V2 => rfl

end NumericMap


section NumericRowMap

variable {K : Type} [LinearOrderedField K]

theorem Ieee.one_div_sqrtWith (s : K → K) (hs : ∀ x, 0 < x → s x ≠ 0) (d : K) (hd : 0 < d) :
    1 / Ieee.sqrtWith s (Ieee.fin d) = Ieee.fin (1 / s d) := by
  rw [Ieee.sqrtWith_fin s d (le_of_lt hd), Ieee.one_eq, Ieee.fin_div_fin _ _ (hs d hd)]

/-- A row of the numeric loop whose diagonal is not negative is the same in the arithmetic of
`float`/`double` as in the field: with a positive ratio the root is taken of a positive
number. -/
theorem factorRow_fin (s : K → K) (hs : ∀ x, 0 < x → s x ≠ 0) (ratioMin : K)
    (hr : 0 < ratioMin) (C R : List Nat) (i : Nat) (st : List K × List K × Nat)
    (hd : ∀ d, st.2.1[i]? = some d → 0 ≤ d) :
    factorRow (Ieee.sqrtWith s) (Ieee.fin ratioMin) C R i (Ieee.liftState st)
      = (factorRow s ratioMin C R i st).map Ieee.liftState := by
  obtain ⟨V, D, cnt⟩ := st
  unfold factorRow Ieee.liftState
  simp only [List.getElem?_map]
  cases hdi : D[i]? with
  | none => rfl
  | some d =>
    simp only [Option.map_some', Option.some_bind]
    by_cases h0 : d = 0
    · rw [if_pos ((Ieee.fin_eq_zero d).mpr h0), if_pos h0]; rfl
    · rw [if_neg (fun h => h0 ((Ieee.fin_eq_zero d).mp h)), if_neg h0]
      have hpos : 0 < d := lt_of_le_of_ne (hd d hdi) (Ne.symm h0)
      cases R[i]? with
      | none => rfl
      | some lo =>
        simp only [Option.some_bind]
        cases R[i + 1]? with
        | none => rfl
        | some hi =>
          simp only [Option.some_bind]
          have hloop := forLoop_map (fun r : List K × K => (r.1.map Ieee.fin, Ieee.fin r.2))
            (offdiagEntry C R D i) (offdiagEntry C R (D.map Ieee.fin) i)
            (fun k s => offdiagEntry_fin C R D i k s) (hi - lo) lo (V, d)
          simp only [] at hloop
          rw [hloop]
          cases forLoop (offdiagEntry C R D i) (hi - lo) lo (V, d) with
          | none => rfl
          | some r =>
            simp only [Option.map_some', Option.some_bind, Ieee.fin_mul_fin]
            by_cases hsm : r.2 < ratioMin * d
            · have hsm' : Ieee.fin r.2 < Ieee.fin (ratioMin * d) :=
                (Ieee.fin_lt_fin _ _).mpr hsm
              simp only [hsm, hsm', decide_True, if_true]
              rw [Ieee.one_div_sqrtWith s hs d hpos, vset_map]
              cases vset D i (1 / s d) with
              | none => rfl
              | some D1 => rfl
            · have hsm' : ¬ Ieee.fin r.2 < Ieee.fin (ratioMin * d) :=
                fun h => hsm ((Ieee.fin_lt_fin _ _).mp h)
              have hpos2 : 0 < r.2 := lt_of_lt_of_le (mul_pos hr hpos) (not_lt.mp hsm)
              simp only [hsm, hsm', decide_False, if_false, Bool.false_eq_true]
              rw [Ieee.one_div_sqrtWith s hs r.2 hpos2, vset_map]
              cases vset D i (1 / s r.2) with
              | none => rfl
              | some D1 => rfl

end NumericRowMap


section FactorMap

variable {K : Type} [LinearOrderedField K]

/-- The numeric loop on a copied factor without a negative diagonal, with a positive ratio: it
returns, and it returns the same in the arithmetic of `float`/`double`. -/
theorem numericPhase_fin (s : K → K) (hs : ∀ x, 0 < x → s x ≠ 0) (ratioMin : K)
    (hr : 0 < ratioMin) {f : SparseLowerFactor K} (h : StorageInv f)
    (hnn : ∀ r < f.n, 0 ≤ f.idg r) :
    ∃ F c, numericPhase s ratioMin f = some (F, c) ∧ NumericPost s ratioMin f F c ∧
      numericPhase (Ieee.sqrtWith s) (Ieee.fin ratioMin) (f.map Ieee.fin)
        = some (F.map Ieee.fin, c) := by
  obtain ⟨st, hloop, ⟨hV, hID, _, _, hrows, hcnt⟩, hloop'⟩ :=
    forLoop_sim Ieee.liftState (factorRow s ratioMin f.colindex f.rowstart)
      (factorRow (Ieee.sqrtWith s) (Ieee.fin ratioMin) f.colindex f.rowstart)
      (NumericInv s ratioMin f) f.n 0 (f.value, f.invdiag, 0)
      ⟨h.value_len, h.invdiag_len, fun _ _ => rfl, fun _ _ => rfl,
        fun r hr => by omega, by simp [smallPivotRows]⟩
      (fun i st _ hi hst => by
        obtain ⟨st', hrow, hinv⟩ := factorRow_inv s ratioMin h i (by omega) st hst
        refine ⟨st', hrow, hinv, ?_⟩
        rw [factorRow_fin s hs ratioMin hr f.colindex f.rowstart i st, hrow]
        · rfl
        · intro d hd
          have hlen : i < st.2.1.length := by
            rw [hst.2.1]; omega
          have hget : d = st.2.1.getD i 0 := by
            rw [getElem?_eq_some_getD st.2.1 i 0 hlen] at hd
            exact (Option.some.inj hd).symm
          rw [hget, hst.2.2.2.1 i (Nat.le_refl _)]
          exact hnn i (by omega))
  rw [Nat.zero_add] at hrows hcnt
  refine ⟨{ f with value := st.1, invdiag := st.2.1 }, st.2.2, ?_, ?_, ?_⟩
  · unfold numericPhase
    rw [hloop, Option.some_bind]
  · exact ⟨rfl, rfl, rfl, hV, hID, hrows, hcnt⟩
  · unfold numericPhase
    show (forLoop (factorRow (Ieee.sqrtWith s) (Ieee.fin ratioMin) f.colindex f.rowstart) f.n 0
      (Ieee.liftState (f.value, f.invdiag, 0))).bind _ = _
    rw [hloop', Option.some_bind]
    rfl

/-- The factorization of a matrix of finite numbers whose copied diagonals are not negative,
with a positive ratio: it returns, and it returns the same factor and count in the arithmetic of
`float`/`double` without rounding, so the factor holds neither an infinity nor a NaN. -/
theorem factor_fin (s : K → K) (hs : ∀ x, 0 < x → s x ≠ 0) (m : SparseMatrix K)
    (f0 : SparseLowerFactor K) (ratioMin : K) (hr : 0 < ratioMin) (hm : m.Tables)
    (hfit : m.Fits) (hnn : ∀ r < m.n, 0 ≤ copiedDiagonal m f0 r) :
    ∃ f1 F c, CopyPost m f0 f1 ∧ StorageInv f1 ∧
      factor_incomplete_cholesky0 s m f0 ratioMin = some (F, c) ∧
      NumericPost s ratioMin f1 F c ∧
      factor_incomplete_cholesky0 (Ieee.sqrtWith s) (m.map Ieee.fin) (f0.map Ieee.fin)
        (Ieee.fin ratioMin) = some (F.map Ieee.fin, c) := by
  obtain ⟨f1, hcopy, hpost⟩ := copyPhase_spec m hm hfit f0
  have hinv := hpost.copied_storageInv hm
  obtain ⟨F, c, hnum, hnp, hnum'⟩ := numericPhase_fin s hs ratioMin hr hinv
    (fun r hr' => by
      rw [hpost.idg_eq r (by rw [← hpost.n_eq]; exact hr')]
      exact hnn r (by rw [← hpost.n_eq]; exact hr'))
  refine ⟨f1, F, c, hpost, hinv, ?_, hnp, ?_⟩
  · unfold factor_incomplete_cholesky0
    rw [hcopy, Option.some_bind]
    exact hnum
  · unfold factor_incomplete_cholesky0
    rw [copyPhase_map Ieee.fin rfl m f0, hcopy, Option.map_some', Option.some_bind]
    exact hnum'

end FactorMap

section SolveMap

variable {K : Type} [LinearOrderedField K]

theorem solveEntry_fin (f : SparseLowerFactor K) (i j : Nat) (x : List K) :
    solveEntry (f.map Ieee.fin) i j (x.map Ieee.fin)
      = (solveEntry f i j x).map (List.map Ieee.fin) := by
  unfold solveEntry
  show (f.colindex[j]?).bind _ = _
  cases f.colindex[j]? with
  | none => rfl
  | some c =>
    simp only [Option.some_bind]
    show ((f.value.map Ieee.fin)[j]?).bind _ = _
    simp only [List.getElem?_map]
    cases f.value[j]? with
    | none => rfl
    | some v =>
      simp only [Option.map_some', Option.some_bind]
      cases x[i]? with
      | none => rfl
      | some xi =>
        simp only [Option.map_some', Option.some_bind]
        cases x[c]? with
        | none => rfl
        | some xc =>
          simp only [Option.map_some', Option.some_bind]
          rw [Ieee.fin_mul_fin, Ieee.fin_sub_fin, vset_map]

theorem solveRow_fin (f : SparseLowerFactor K) (i : Nat) (x : List K) :
    solveRow (f.map Ieee.fin) i (x.map Ieee.fin)
      = (solveRow f i x).map (List.map Ieee.fin) := by
  unfold solveRow
  simp only [List.getElem?_map]
  cases x[i]? with
  | none => rfl
  | some xi =>
    simp only [Option.map_some', Option.some_bind]
    show ((f.invdiag.map Ieee.fin)[i]?).bind _ = _
    simp only [List.getElem?_map]
    cases f.invdiag[i]? with
    | none => rfl
    | some id =>
      simp only [Option.map_some', Option.some_bind]
      rw [Ieee.fin_mul_fin, vset_map]
      cases vset x i (xi * id) with
      | none => rfl
      | some x1 =>
        simp only [Option.map_some', Option.some_bind]
        show (f.rowstart[i]?).bind _ = _
        cases f.rowstart[i]? with
        | none => rfl
        | some lo =>
          simp only [Option.some_bind]
          show (f.rowstart[i + 1]?).bind _ = _
          cases f.rowstart[i + 1]? with
          | none => rfl
          | some hi =>
            simp only [Option.some_bind]
            exact forLoop_map (List.map Ieee.fin) (solveEntry f i)
              (solveEntry (f.map Ieee.fin) i) (fun j s => solveEntry_fin f i j s) _ _ _

theorem solveLoop_fin (f : SparseLowerFactor K) :
    ∀ (i : Nat) (x : List K), solveLoop (f.map Ieee.fin) i (x.map Ieee.fin)
      = (solveLoop f i x).map (List.map Ieee.fin) := by
  intro i
  induction i with
  | zero => intro x; exact solveRow_fin f 0 x
  | succ i ih =>
    intro x
    show (solveRow (f.map Ieee.fin) (i + 1) (x.map Ieee.fin)).bind _
      = ((solveRow f (i + 1) x).bind (solveLoop f i)).map _
    rw [solveRow_fin]
    cases solveRow f (i + 1) x with
    | none => rfl
    | some y => exact ih y

/-- The transposed solve on finite numbers ends the same way in the arithmetic of
`float`/`double` without rounding. -/
theorem solve_fin (f : SparseLowerFactor K) (x : List K) :
    solve_lower_transpose_in_place (f.map Ieee.fin) (x.map Ieee.fin)
      = (solve_lower_transpose_in_place f x).lift := by
  unfold solve_lower_transpose_in_place
  show (if f.n = (x.map Ieee.fin).length then _ else _) = _
  rw [List.length_map]
  by_cases h : f.n = x.length
  · rw [if_pos h, if_pos h]
    have hn : (f.map Ieee.fin).n = f.n := rfl
    rw [hn, solveLoop_fin]
    cases solveLoop f (udec f.n) x with
    | none => rfl
    | some r => rfl
  · rw [if_neg h, if_neg h]
    rfl

end SolveMap


/-! ## Pivots and null rows in the arithmetic of `float`/`double` -/

section FiniteClaims

theorem sqrt_ne_zero_of_pos : ∀ x : ℝ, 0 < x → Real.sqrt x ≠ 0 :=
  fun _ hx => ne_of_gt (Real.sqrt_pos.mpr hx)

theorem getElem?_map_fin {K : Type} (xs : List K) (i : Nat) (hi : i < xs.length) (d : K) :
    (xs.map Ieee.fin)[i]? = some (Ieee.fin (xs.getD i d)) := by
  rw [List.getElem?_map, getElem?_eq_some_getD xs i d hi]
  rfl

/-- C6 (as amended): in the arithmetic of `float`/`double` without rounding, for a matrix of
finite numbers whose sizes fit `unsigned int` and in which no row has a negative diagonal (as
the copy leaves it in `invdiag`), and a ratio in `(0, 1]`: the factorization returns a factor
of finite numbers; every row whose original diagonal `A` is positive has the square root taken
of a value `d ≥ min_diagonal_ratio·A > 0`, and its `invdiag[i]` is the finite positive number
`1/sqrt(d)`; when the residual is `≤ 0` the fallback gives `invdiag[i] = 1/sqrt(A)`. -/
theorem positive_pivots (matrix : SparseMatrix ℝ) (factor : SparseLowerFactor ℝ)
    (min_diagonal_ratio : ℝ) (hm : matrix.Tables) (hfit : matrix.Fits)
    (h0 : 0 < min_diagonal_ratio) (h1 : min_diagonal_ratio ≤ 1)
    (hnn : ∀ j < matrix.n, 0 ≤ copiedDiagonal matrix factor j) :
    ∃ F c,
      factor_incomplete_cholesky0 (Ieee.sqrtWith Real.sqrt) (matrix.map Ieee.fin)
        (factor.map Ieee.fin) (Ieee.fin min_diagonal_ratio) = some (F.map Ieee.fin, c) ∧
      factor_incomplete_cholesky0 Real.sqrt matrix factor min_diagonal_ratio = some (F, c) ∧
      (matrix.RowsSorted → ∀ i < matrix.n, ∀ t < (matrix.idx i).length,
        (matrix.idx i).getD t 0 = i →
          copiedDiagonal matrix factor i = (matrix.vals i).getD t 0) ∧
      ∀ i < matrix.n, 0 < copiedDiagonal matrix factor i →
        ∃ d, d = (if rowResidual (copiedDiagonal matrix factor i) F i
                    < min_diagonal_ratio * copiedDiagonal matrix factor i
                  then copiedDiagonal matrix factor i
                  else rowResidual (copiedDiagonal matrix factor i) F i) ∧
          (F.map Ieee.fin).invdiag[i]? = some (Ieee.fin (1 / Real.sqrt d)) ∧
          min_diagonal_ratio * copiedDiagonal matrix factor i ≤ d ∧
          0 < min_diagonal_ratio * copiedDiagonal matrix factor i ∧
          0 < 1 / Real.sqrt d ∧
          (rowResidual (copiedDiagonal matrix factor i) F i ≤ 0 →
            (F.map Ieee.fin).invdiag[i]? =
              some (Ieee.fin (1 / Real.sqrt (copiedDiagonal matrix factor i)))) := by
  obtain ⟨f1, F, c, hcp, hinv, hfac, hnp, hfacI⟩ :=
    factor_fin Real.sqrt sqrt_ne_zero_of_pos matrix factor min_diagonal_ratio h0 hm hfit hnn
  obtain ⟨F', c', hfac', hstored, hrows⟩ :=
    pivot_bounds matrix factor min_diagonal_ratio hm hfit h0 h1
  have hFF : F' = F := by
    have := hfac'.symm.trans hfac
    simp only [Option.some.injEq, Prod.mk.injEq] at this
    exact this.1
  subst hFF
  refine ⟨F', c, hfacI, hfac, hstored, ?_⟩
  intro i hi hpos
  obtain ⟨d, hd, hid, hle, hrA, hidpos, hres⟩ := hrows i hi hpos
  have hlen : i < F'.invdiag.length := by
    rw [hnp.invdiag_len, hcp.n_eq]; exact hi
  have hget : (F'.map Ieee.fin).invdiag[i]? = some (Ieee.fin (F'.idg i)) :=
    getElem?_map_fin F'.invdiag i hlen 0
  refine ⟨d, hd, by rw [hget, hid], hle, hrA, by rw [← hid]; exact hidpos, ?_⟩
  intro hr
  rw [hget, hres hr]

/-- C17 (as amended): in the arithmetic of `float`/`double` without rounding, for a matrix of
finite numbers whose sizes fit `unsigned int` and in which no row has a negative diagonal (as
the copy leaves it in `invdiag`), a positive ratio, a row `i` whose diagonal is exactly `0` and
a vector `x` of `n` finite numbers: the factorization returns a factor of finite numbers, the
solve on it returns a vector of finite numbers whose entry `i` is `0`, and the pass of the loop
for row `i` sets entry `i` to `0` and changes no other entry. -/
theorem null_row_solve (matrix : SparseMatrix ℝ) (factor : SparseLowerFactor ℝ)
    (min_diagonal_ratio : ℝ) (i : Nat) (x : List ℝ) (hm : matrix.Tables)
    (hfit : matrix.Fits) (h0 : 0 < min_diagonal_ratio)
    (hnn : ∀ j < matrix.n, 0 ≤ copiedDiagonal matrix factor j)
    (hi : i < matrix.n) (hz : copiedDiagonal matrix factor i = 0)
    (hx : x.length = matrix.n) :
    ∃ (F : SparseLowerFactor ℝ) (c : Nat) (r : List ℝ),
      factor_incomplete_cholesky0 (Ieee.sqrtWith Real.sqrt) (matrix.map Ieee.fin)
        (factor.map Ieee.fin) (Ieee.fin min_diagonal_ratio) = some (F.map Ieee.fin, c) ∧
      solve_lower_transpose_in_place (F.map Ieee.fin) (x.map Ieee.fin)
        = .returned (r.map Ieee.fin) ∧
      (r.map Ieee.fin)[i]? = some 0 ∧
      ∀ y : List ℝ, y.length = matrix.n →
        ∃ y' : List ℝ, solveRow (F.map Ieee.fin) i (y.map Ieee.fin) = some (y'.map Ieee.fin) ∧
          y'.length = matrix.n ∧ (y'.map Ieee.fin)[i]? = some 0 ∧
          ∀ j, j ≠ i → (y'.map Ieee.fin)[j]? = (y.map Ieee.fin)[j]? := by
  obtain ⟨f1, F, c, hcp, hinv, hfac, hnp, hfacI⟩ :=
    factor_fin Real.sqrt sqrt_ne_zero_of_pos matrix factor min_diagonal_ratio h0 hm hfit hnn
  have hF := hnp.numeric_storageInv hinv
  have hn : F.n = matrix.n := by rw [hnp.n_eq, hcp.n_eq]
  have hid : F.idg i = 0 :=
    ((hnp.rows i (by rw [hcp.n_eq]; exact hi)).1 (by rw [hcp.idg_eq i hi]; exact hz)).1
  obtain ⟨r, hr, hrlen, _, hzero⟩ := solveLoop_frame hF (F.n - 1) x (by omega) (by omega)
  refine ⟨F, c, r, hfacI, ?_, ?_, ?_⟩
  · rw [solve_fin]
    unfold solve_lower_transpose_in_place
    have hu : udec F.n = F.n - 1 := by
      unfold udec; rw [if_neg (by omega)]
    rw [if_pos (by omega), hu, hr]
    rfl
  · rw [getElem?_map_fin r i (by omega) 0, hzero i (by omega) hid]
    rfl
  · intro y hy
    obtain ⟨y', hrow, hlen, hval⟩ := solveRow_spec hF i (by omega) y (by omega)
    refine ⟨y', by rw [solveRow_fin, hrow]; rfl, by omega, ?_, ?_⟩
    · rw [getElem?_map_fin y' i (by omega) 0, hval i, if_pos rfl, hid, mul_zero]
      rfl
    · intro j hj
      by_cases hjn : j < matrix.n
      · rw [getElem?_map_fin y' j (by omega) 0, getElem?_map_fin y j (by omega) 0, hval j,
          if_neg hj, hid, mul_zero, colTerm_zero, sub_zero]
      · rw [List.getElem?_eq_none (by rw [List.length_map]; omega),
          List.getElem?_eq_none (by rw [List.length_map]; omega)]

theorem exampleMatrix_nonneg :
    ∀ j < exampleMatrix.n, 0 ≤ copiedDiagonal exampleMatrix (SparseLowerFactor.init 0) j := by
  intro j hj
  obtain ⟨t, ht, heq, hpos⟩ := exampleMatrix_diag j hj
  rw [copiedDiagonal_of_stored exampleMatrix _ exampleMatrix_tables exampleMatrix_sorted j hj
    t ht heq]
  exact le_of_lt hpos

theorem exampleNullRow_nonneg :
    ∀ j < exampleNullRow.n, 0 ≤ copiedDiagonal exampleNullRow (SparseLowerFactor.init 0) j := by
  intro j hj
  have hj' : j < 2 := hj
  interval_cases j
  · rw [copiedDiagonal_of_stored exampleNullRow _ exampleNullRow_tables exampleNullRow_sorted 0
      (by decide) 0 (by decide) rfl]
    norm_num [SparseMatrix.vals, exampleNullRow]
  · rw [exampleNullRow_zero]

/-- C6 (as amended) at the matrix `[[4, 2], [2, 5]]`, a fresh factor and the ratio `1/4`. -/
theorem positive_pivots_witness :
    exampleMatrix.Tables ∧ exampleMatrix.Fits ∧ (0 : ℝ) < 1 / 4 ∧ (1 / 4 : ℝ) ≤ 1 ∧
    (∀ j < exampleMatrix.n, 0 ≤ copiedDiagonal exampleMatrix (SparseLowerFactor.init 0) j) ∧
    ∃ F c,
      factor_incomplete_cholesky0 (Ieee.sqrtWith Real.sqrt) (exampleMatrix.map Ieee.fin)
        ((SparseLowerFactor.init 0).map Ieee.fin) (Ieee.fin (1 / 4))
        = some (F.map Ieee.fin, c) ∧
      factor_incomplete_cholesky0 Real.sqrt exampleMatrix (SparseLowerFactor.init 0) (1 / 4)
        = some (F, c) ∧
      (exampleMatrix.RowsSorted → ∀ i < exampleMatrix.n,
        ∀ t < (exampleMatrix.idx i).length, (exampleMatrix.idx i).getD t 0 = i →
          copiedDiagonal exampleMatrix (SparseLowerFactor.init 0) i =
            (exampleMatrix.vals i).getD t 0) ∧
      ∀ i < exampleMatrix.n,
        0 < copiedDiagonal exampleMatrix (SparseLowerFactor.init 0) i →
        ∃ d, d = (if rowResidual (copiedDiagonal exampleMatrix
                      (SparseLowerFactor.init 0) i) F i
                    < 1 / 4 * copiedDiagonal exampleMatrix (SparseLowerFactor.init 0) i
                  then copiedDiagonal exampleMatrix (SparseLowerFactor.init 0) i
                  else rowResidual (copiedDiagonal exampleMatrix
                      (SparseLowerFactor.init 0) i) F i) ∧
          (F.map Ieee.fin).invdiag[i]? = some (Ieee.fin (1 / Real.sqrt d)) ∧
          1 / 4 * copiedDiagonal exampleMatrix (SparseLowerFactor.init 0) i ≤ d ∧
          0 < 1 / 4 * copiedDiagonal exampleMatrix (SparseLowerFactor.init 0) i ∧
          0 < 1 / Real.sqrt d ∧
          (rowResidual (copiedDiagonal exampleMatrix (SparseLowerFactor.init 0) i) F i
              ≤ 0 →
            (F.map Ieee.fin).invdiag[i]? = some (Ieee.fin
              (1 / Real.sqrt (copiedDiagonal exampleMatrix (SparseLowerFactor.init 0) i)))) :=
  ⟨exampleMatrix_tables, exampleMatrix_fits, by norm_num, by norm_num, exampleMatrix_nonneg,
    positive_pivots exampleMatrix (SparseLowerFactor.init 0) (1 / 4)
      exampleMatrix_tables exampleMatrix_fits (by norm_num) (by norm_num)
      exampleMatrix_nonneg⟩

/-- C17 (as amended) at row 1 of a 2×2 matrix that stores `2` in column 0 and `0` on the
diagonal of that row, with the right-hand side `[1, 1]`. -/
theorem null_row_solve_witness :
    exampleNullRow.Tables ∧ exampleNullRow.Fits ∧ (0 : ℝ) < 1 / 4 ∧
    (∀ j < exampleNullRow.n, 0 ≤ copiedDiagonal exampleNullRow (SparseLowerFactor.init 0) j) ∧
    1 < exampleNullRow.n ∧ copiedDiagonal exampleNullRow (SparseLowerFactor.init 0) 1 = 0 ∧
    ([1, 1] : List ℝ).length = exampleNullRow.n ∧
    ∃ (F : SparseLowerFactor ℝ) (c : Nat) (r : List ℝ),
      factor_incomplete_cholesky0 (Ieee.sqrtWith Real.sqrt) (exampleNullRow.map Ieee.fin)
        ((SparseLowerFactor.init 0).map Ieee.fin) (Ieee.fin (1 / 4))
        = some (F.map Ieee.fin, c) ∧
      solve_lower_transpose_in_place (F.map Ieee.fin) (([1, 1] : List ℝ).map Ieee.fin)
        = .returned (r.map Ieee.fin) ∧
      (r.map Ieee.fin)[1]? = some 0 ∧
      ∀ y : List ℝ, y.length = exampleNullRow.n →
        ∃ y' : List ℝ, solveRow (F.map Ieee.fin) 1 (y.map Ieee.fin) = some (y'.map Ieee.fin) ∧
          y'.length = exampleNullRow.n ∧ (y'.map Ieee.fin)[1]? = some 0 ∧
          ∀ j, j ≠ 1 → (y'.map Ieee.fin)[j]? = (y.map Ieee.fin)[j]? :=
  ⟨exampleNullRow_tables, exampleNullRow_fits, by norm_num, exampleNullRow_nonneg, by decide,
    exampleNullRow_zero, rfl,
    null_row_solve exampleNullRow (SparseLowerFactor.init 0) (1 / 4) 1 [1, 1]
      exampleNullRow_tables exampleNullRow_fits (by norm_num) exampleNullRow_nonneg
      (by decide) exampleNullRow_zero rfl⟩

end FiniteClaims


/-! ## More than `2^32` entries below the diagonal -/

section ManyEntries

variable {T : Type}

/-- The copy of a matrix held in two `n`-row tables with `n+1` an `unsigned int` does not
fault, however many entries it copies; `colindex` holds the copied columns and `rowstart[n]`
their number modulo `2^32`. -/
theorem copyPhase_shape [Zero T] (m : SparseMatrix T) (hm : m.Tables) (hb : m.n < 4294967295)
    (f0 : SparseLowerFactor T) :
    ∃ f1, copyPhase m f0 = some f1 ∧ f1.colindex = copiedCols m m.n ∧
      f1.rs m.n = (copiedCols m m.n).length % 4294967296 := by
  have hwrap : (m.n + 1) % 4294967296 = m.n + 1 := Nat.mod_eq_of_lt (by omega)
  obtain ⟨f2, hloop, hil, hrl, hcol⟩ :=
    forLoop_inv (copyBody m)
      (fun i f => f.invdiag.length = m.n ∧ f.rowstart.length = m.n + 1 ∧
        f.colindex = copiedCols m i) m.n 0
      { (f0.resize m.n) with
        value := vresize (f0.resize m.n).value 0 0,
        colindex := vresize (f0.resize m.n).colindex 0 0 }
      ⟨vresize_length _ _ _, (vresize_length _ _ _).trans hwrap,
        by simp [vresize, copiedCols, concatRows]⟩
      (fun i f _ hi hf => by
        obtain ⟨hil, hrl, hcol⟩ := hf
        have hidx : m.index[i]? = some (m.idx i) :=
          getElem?_eq_some_getD m.index i [] (by rw [hm.index_len]; omega)
        have hrow : m.value[i]? = some (m.vals i) :=
          getElem?_eq_some_getD m.value i [] (by rw [hm.value_len]; omega)
        obtain ⟨f', hf', _, hrs', hcol', _, hil', _⟩ :=
          copyRow_spec m i (m.vals i) hrow (m.idx i) 0
            { f with rowstart := f.rowstart.set i (f.colindex.length % 4294967296) }
            (by simpa using hm.row_len i (by omega)) (by show i < f.invdiag.length; omega)
        refine ⟨f', ?_, hil'.trans hil, by rw [hrs']; simp [hrl], ?_⟩
        · unfold copyBody
          rw [vset_eq_some _ _ _ (by omega), Option.some_bind, hidx, Option.some_bind]
          exact hf'
        · rw [hcol']; show f.colindex ++ _ = copiedCols m (i + 1)
          rw [hcol]; rfl)
  rw [Nat.zero_add] at hcol
  refine ⟨{ f2 with rowstart := f2.rowstart.set m.n (f2.colindex.length % 4294967296) },
    ?_, hcol, ?_⟩
  · unfold copyPhase
    simp only []
    rw [hloop, Option.some_bind, vset_eq_some _ _ _ (by omega), Option.some_bind]
  · show (f2.rowstart.set m.n (f2.colindex.length % 4294967296)).getD m.n 0 = _
    rw [getD_set_self _ _ _ _ (by omega), hcol]

/-- The numeric loop leaves `colindex` and `rowstart` as they are. -/
theorem numericPhase_pattern [LinearOrderedField T] (sqrt : T → T) (ratioMin : T)
    (f F : SparseLowerFactor T) (c : Nat) (h : numericPhase sqrt ratioMin f = some (F, c)) :
    F.colindex = f.colindex ∧ F.rowstart = f.rowstart := by
  unfold numericPhase at h
  cases hl : forLoop (factorRow sqrt ratioMin f.colindex f.rowstart) f.n 0
      (f.value, f.invdiag, 0) with
  | none => rw [hl] at h; exact absurd h (by simp)
  | some r =>
    rw [hl, Option.some_bind] at h
    simp only [Option.some.injEq, Prod.mk.injEq] at h
    rw [← h.1]
    exact ⟨rfl, rfl⟩

/-- With `2^32` or more entries copied below the diagonal, `rowstart[n]` of a factor that the
factorization returns is not the size of `colindex`: the cast of line 87 keeps the size modulo
`2^32`. -/
theorem factor_rowstart_wraps [LinearOrderedField T] (sqrt : T → T) (m : SparseMatrix T)
    (f0 F : SparseLowerFactor T) (ratioMin : T) (c : Nat) (hm : m.Tables)
    (hb : m.n < 4294967295)
    (h : factor_incomplete_cholesky0 sqrt m f0 ratioMin = some (F, c)) :
    F.colindex.length = (copiedCols m m.n).length ∧
      F.rs m.n = (copiedCols m m.n).length % 4294967296 := by
  obtain ⟨f1, hcopy, hcol, hrs⟩ := copyPhase_shape m hm hb f0
  unfold factor_incomplete_cholesky0 at h
  rw [hcopy, Option.some_bind] at h
  obtain ⟨hc, hr⟩ := numericPhase_pattern sqrt ratioMin f1 F c h
  refine ⟨by rw [hc, hcol], ?_⟩
  show F.rowstart.getD m.n 0 = _
  rw [hr]
  exact hrs

theorem denseLower_idx (n i : Nat) (hi : i < n) : (denseLower n).idx i = List.range (i + 1) := by
  simp [SparseMatrix.idx, denseLower, List.getD_eq_getElem?_getD, List.getElem?_map,
    List.getElem?_range hi]

theorem denseLower_vals (n i : Nat) (hi : i < n) :
    (denseLower n).vals i = List.replicate (i + 1) 1 := by
  simp [SparseMatrix.vals, denseLower, List.getD_eq_getElem?_getD, List.getElem?_map,
    List.getElem?_range hi]

theorem denseLower_tables (n : Nat) : (denseLower n).Tables := by
  refine ⟨?_, ?_, ?_⟩
  · simp [denseLower]
  · simp [denseLower]
  · intro i hi
    have hi' : i < n := hi
    rw [denseLower_idx n i hi', denseLower_vals n i hi']
    simp

theorem denseLower_sorted (n : Nat) : (denseLower n).RowsSorted := by
  intro i hi
  have hi' : i < n := hi
  rw [denseLower_idx n i hi']
  exact List.pairwise_lt_range _

theorem filter_lt_range_succ (i : Nat) :
    (List.range (i + 1)).filter (fun c => decide (c < i)) = List.range i := by
  rw [List.range_succ, List.filter_append]
  have h1 : (List.range i).filter (fun c => decide (c < i)) = List.range i := by
    rw [List.filter_eq_self]
    intro c hc
    simpa using List.mem_range.mp hc
  rw [h1]
  simp

theorem denseLower_entries (n : Nat) :
    (copiedCols (denseLower n) n).length * 2 = n * (n - 1) := by
  show (concatRows _ n).length * 2 = _
  rw [concatRows_length_sum, ← Finset.sum_range_id_mul_two]
  congr 1
  apply Finset.sum_congr rfl
  intro i hi
  rw [Finset.mem_range] at hi
  show (lowerCols i ((denseLower n).idx i)).length = i
  rw [denseLower_idx n i hi, lowerCols_eq_filter i _ (List.pairwise_lt_range _),
    filter_lt_range_succ, List.length_range]

/-- A factor that the factorization of the dense lower triangle of dimension `92683` returns
has `4295022903` entries in `colindex` and `rowstart[n] = 55607`. -/
theorem denseLower_rowstart_wraps (f0 F : SparseLowerFactor ℝ) (c : Nat)
    (h : factor_incomplete_cholesky0 Real.sqrt (denseLower 92683) f0 (1 / 4) = some (F, c)) :
    F.colindex.length = 4295022903 ∧ F.rs 92683 = 55607 := by
  obtain ⟨h1, h2⟩ := factor_rowstart_wraps Real.sqrt (denseLower 92683) f0 F (1 / 4) c
    (denseLower_tables _) (show 92683 < 4294967295 by decide) h
  have h3 := denseLower_entries 92683
  have h4 : (denseLower 92683).n = 92683 := rfl
  rw [h4] at h1 h2
  have h5 : (copiedCols (denseLower 92683) 92683).length = 4295022903 := by omega
  rw [h5] at h1 h2
  exact ⟨h1, h2⟩

end ManyEntries


/-! ## The claims about `rowstart` at large sizes -/

section LargeSizes

/-- C3 (as stated) fails at two inputs.  On the identity matrix of dimension `4294967295`,
whose rows are strictly increasing, `resize` computes `n+1 = 0` in `unsigned int` and the copy
writes `rowstart[0]` out of range, so there is no factor after the call.  On the dense lower
triangle of dimension `92683`, whose rows are strictly increasing, a factor that the call
returns has `4295022903` entries in `colindex` and `rowstart[n] = 55607`: the cast to
`unsigned int` of line 87 keeps the size modulo `2^32`. -/
theorem pattern_copy_fails_at_large_sizes :
    (exampleLargest.Tables ∧ exampleLargest.RowsSorted ∧
      factor_incomplete_cholesky0 Real.sqrt exampleLargest (SparseLowerFactor.init 0) (1 / 4)
        = none) ∧
    ((denseLower 92683).Tables ∧ (denseLower 92683).RowsSorted ∧
      ∀ F c, factor_incomplete_cholesky0 Real.sqrt (denseLower 92683)
          (SparseLowerFactor.init 0) (1 / 4) = some (F, c) →
        F.colindex.length = 4295022903 ∧ F.rs 92683 = 55607) :=
  ⟨⟨scalarMatrix_tables _ _, scalarMatrix_sorted _ _, factor_wraps _ _ _ _ rfl⟩,
    denseLower_tables _, denseLower_sorted _,
    fun F c h => denseLower_rowstart_wraps _ F c h⟩

/-- C4 (as stated) fails at two inputs.  On the identity matrix of dimension `4294967295`,
whose rows are strictly increasing, the copy writes `rowstart[0]` into the `rowstart` that
`resize` emptied, so no factor is returned.  On the dense lower triangle of dimension `92683`,
whose rows are strictly increasing, a factor that the call returns has `colindex` of size
`4295022903` and `rowstart[n] = 55607`, not the size of `colindex`. -/
theorem storage_invariant_fails_at_large_sizes :
    (exampleLargest.Tables ∧ exampleLargest.RowsSorted ∧
      ((SparseLowerFactor.init 0 : SparseLowerFactor ℝ).resize exampleLargest.n).rowstart
        = [] ∧
      factor_incomplete_cholesky0 Real.sqrt exampleLargest (SparseLowerFactor.init 0) (1 / 4)
        = none) ∧
    ((denseLower 92683).Tables ∧ (denseLower 92683).RowsSorted ∧
      ∀ F c, factor_incomplete_cholesky0 Real.sqrt (denseLower 92683)
          (SparseLowerFactor.init 0) (1 / 4) = some (F, c) →
        F.colindex.length = 4295022903 ∧ F.rs 92683 = 55607 ∧
          F.colindex.length ≠ F.rs 92683) := by
  refine ⟨⟨scalarMatrix_tables _ _, scalarMatrix_sorted _ _, ?_, factor_wraps _ _ _ _ rfl⟩,
    denseLower_tables _, denseLower_sorted _, ?_⟩
  · show vresize _ ((4294967295 + 1) % 4294967296) 0 = []
    show vresize _ 0 0 = []
    simp [vresize]
  · intro F c h
    obtain ⟨h1, h2⟩ := denseLower_rowstart_wraps _ F c h
    exact ⟨h1, h2, by rw [h1, h2]; decide⟩

/-- C19 (as stated) fails at two inputs.  On the identity matrix of dimension `4294967295`,
whose tables have `n` rows with one index and one value each, `resize` computes `n+1 = 0` in
`unsigned int` and empties `rowstart`, and the copy writes `rowstart[0]` out of range.  On the
dense lower triangle of dimension `92683` a factor that the call returns has
`rowstart[n] = 55607` while `colindex.size()` is `4295022903`, so `rowstart[n]` is not the
bound `colindex.size()` the claim gives for the cursors. -/
theorem index_unsafe_at_large_sizes :
    (exampleLargest.Tables ∧
      ((SparseLowerFactor.init 0 : SparseLowerFactor ℝ).resize exampleLargest.n).rowstart
        = [] ∧
      copyPhase exampleLargest (SparseLowerFactor.init 0) = none ∧
      factor_incomplete_cholesky0 Real.sqrt exampleLargest (SparseLowerFactor.init 0) (1 / 4)
        = none) ∧
    ((denseLower 92683).Tables ∧
      ∀ F c, factor_incomplete_cholesky0 Real.sqrt (denseLower 92683)
          (SparseLowerFactor.init 0) (1 / 4) = some (F, c) →
        F.colindex.length = 4295022903 ∧ F.rs 92683 = 55607) := by
  refine ⟨⟨scalarMatrix_tables _ _, ?_, copyPhase_wraps _ _ rfl, factor_wraps _ _ _ _ rfl⟩,
    denseLower_tables _, fun F c h => denseLower_rowstart_wraps _ F c h⟩
  show vresize _ ((4294967295 + 1) % 4294967296) 0 = []
  show vresize _ 0 0 = []
  simp [vresize]

end LargeSizes

end SparseILU
